import Mathlib

/-!
# go-bdb: a read-only Berkeley DB btree reader

A shallow embedding of `db.go`, `dbmeta.go`, `page.go` and `btree.go`.

* Bytes are `Fin 256`; Go's `uint8`/`uint16`/`uint32` values are natural
  numbers, with an explicit `% 2 ^ 32` wherever the Go code computes in
  `uint32` and can wrap.
* The `io.ReadSeeker` handed to the reader is modelled as an in-memory
  stream: a byte sequence and a read position (the doc comment of
  `NewReader` names `bytes.Reader`).  The flag `zeroReadEOF` records the one
  point where `bytes.Reader` and `os.File` differ: a `Read` into an empty
  buffer at the end of the stream.
* A Go call has three possible outcomes: a value, a returned `error`, or a
  run-time panic (index out of range, nil dereference).
* The unbounded `for` loop of `search` takes a step bound (`fuel`).
-/

namespace Bdb

/-! ## Bytes and little-endian decoding -/

abbrev Byte := Fin 256

/-- The byte at index `o`, as a number (0 when past the end). -/
def u8 (b : List Byte) (o : Nat) : Nat := (b.getD o 0).val

/-- Little-endian `uint16` at index `o` (`binary.LittleEndian.Uint16`). -/
def u16 (b : List Byte) (o : Nat) : Nat := u8 b o + 256 * u8 b (o + 1)

/-- Little-endian `uint32` at index `o` (`binary.LittleEndian.Uint32`). -/
def u32 (b : List Byte) (o : Nat) : Nat :=
  u8 b o + 256 * u8 b (o + 1) + 65536 * u8 b (o + 2) + 16777216 * u8 b (o + 3)

/-- The `n` bytes starting at index `o`. -/
def bytesAt (b : List Byte) (o n : Nat) : List Byte := (b.drop o).take n

/-- The `n` consecutive little-endian `uint16` values starting at index `o`. -/
def u16s (b : List Byte) (o n : Nat) : List Nat :=
  (List.range n).map (fun j => u16 b (o + 2 * j))

/-- The `n` consecutive little-endian `uint32` values starting at index `o`. -/
def u32s (b : List Byte) (o n : Nat) : List Nat :=
  (List.range n).map (fun j => u32 b (o + 4 * j))

/-- Go's `<` on strings: byte-wise lexicographic order. -/
def strLt : List Byte → List Byte → Bool
  | [], [] => false
  | [], _ :: _ => true
  | _ :: _, [] => false
  | a :: as, b :: bs => if a.val < b.val then true else if b.val < a.val then false else strLt as bs

/-! ## Errors and outcomes -/

/-- The error values that the package declares or creates. -/
inductive Err
  /-- The exported sentinel `ErrBadMagic` of `db.go`. -/
  | ErrBadMagic
  /-- The exported sentinel `NotFound` of `db.go`. -/
  | NotFound
  /-- The sentinel `io.EOF`. -/
  | EOF
  /-- The sentinel `io.ErrUnexpectedEOF`. -/
  | ErrUnexpectedEOF
  /-- The value of `fmt.Errorf("wanted magic 0x%06x, got 0x%06x", btreeMagic, got)`. -/
  | wantedMagic (got : Nat)
  /-- The value of `fmt.Errorf("unknown magic: 0x%06x", magic)`. -/
  | unknownMagic (magic : Nat)
  /-- The value of `fmt.Errorf("page index out of range")`. -/
  | pageIndexOutOfRange
  /-- The value of `fmt.Errorf("unexpected page type %s", t)`. -/
  | unexpectedPageType (t : Nat)
  deriving DecidableEq, Repr

/-- The outcome of a Go call: a value, a returned error, or a run-time panic. -/
inductive Result (α : Type) where
  | ok (a : α)
  | error (e : Err)
  | panic
  deriving DecidableEq, Repr

/-! ## The stream -/

/-- An in-memory `io.ReadSeeker`: contents `s`, read position `i`. -/
structure ReadSeeker where
  s : List Byte
  i : Nat
  /-- Whether `Read` into an empty buffer at the end of the stream reports
  `io.EOF` (`bytes.Reader`: yes; `os.File`: no). -/
  zeroReadEOF : Bool
  deriving DecidableEq, Repr

/-- `r.Seek(offs, io.SeekStart)` for a non-negative `offs`: never fails. -/
def ReadSeeker.Seek (r : ReadSeeker) (offs : Nat) : ReadSeeker := { r with i := offs }

/-- `r.Read(buf)` for a fresh zeroed `buf` of length `n`: the buffer after the
call, the error, and the stream after the call.  One `Read` copies what is
left of the stream, up to `n` bytes; it reports `io.EOF` only when nothing is
left. -/
def ReadSeeker.Read (r : ReadSeeker) (n : Nat) : List Byte × Option Err × ReadSeeker :=
  if n = 0 ∧ r.zeroReadEOF = false then ([], none, r)
  else if r.s.length ≤ r.i then (List.replicate n 0, some Err.EOF, r)
  else
    let got := bytesAt r.s r.i n
    (got ++ List.replicate (n - got.length) 0, none, { r with i := r.i + got.length })

/-- The call `io.ReadFull(r, buf)` for a buffer of length `n`, as made by
`binary.Read`: all `n` bytes or an error (`io.EOF` when nothing could be read,
`io.ErrUnexpectedEOF` after a partial read).  An empty buffer is filled
without calling `Read`. -/
def ReadSeeker.ReadFull (r : ReadSeeker) (n : Nat) : Result (List Byte) × ReadSeeker :=
  if n = 0 then (.ok [], r)
  else if r.s.length ≤ r.i then (.error Err.EOF, r)
  else if r.i + n ≤ r.s.length then (.ok (bytesAt r.s r.i n), { r with i := r.i + n })
  else (.error Err.ErrUnexpectedEOF, { r with i := r.s.length })

/-- `leRead(r, x)` for an `x` whose encoding takes `size` bytes: the raw bytes,
to be decoded field by field by the caller. -/
def leRead (r : ReadSeeker) (size : Nat) : Result (List Byte) × ReadSeeker := r.ReadFull size

/-! ## dbmeta.go and the btree metadata -/

def _dbFileIdLen : Nat := 20
def _dbIVBytes : Nat := 16
def _dbMACKey : Nat := 20

structure dbLSN where
  File : Nat
  Offset : Nat
  deriving DecidableEq, Repr

structure _dbmeta33header where
  LSN : dbLSN
  Pgno : Nat
  Magic : Nat
  Version : Nat
  PageSize : Nat
  EncryptAlg : Nat
  Type_ : Nat
  MetaFlags : Nat
  Unused1 : Nat
  Free : Nat
  LastPgno : Nat
  NParts : Nat
  KeyCount : Nat
  RecordCount : Nat
  Flags : Nat
  Uid : List Byte
  deriving DecidableEq, Repr

structure _btmeta33 where
  Unused1 : Nat
  MinKey : Nat
  ReLen : Nat
  RePad : Nat
  Root : Nat
  Unused2 : List Nat
  deriving DecidableEq, Repr

structure _dbmeta33trailer where
  CryptoMagic : Nat
  Trash : List Nat
  IV : List Byte
  Chksum : List Byte
  deriving DecidableEq, Repr

structure btreeMetadata where
  header : _dbmeta33header
  btmeta : _btmeta33
  trailer : _dbmeta33trailer
  deriving DecidableEq, Repr

/-- The encoded size of `btreeMetadata`: 72 + 388 + 52 bytes. -/
def btreeMetadataSize : Nat := 512

/-- Field-by-field little-endian decoding of `btreeMetadata`, in declaration
order, as `binary.Read` does it. -/
def decodeBtreeMetadata (b : List Byte) : btreeMetadata :=
  { header :=
      { LSN := { File := u32 b 0, Offset := u32 b 4 }
        Pgno := u32 b 8
        Magic := u32 b 12
        Version := u32 b 16
        PageSize := u32 b 20
        EncryptAlg := u8 b 24
        Type_ := u8 b 25
        MetaFlags := u8 b 26
        Unused1 := u8 b 27
        Free := u32 b 28
        LastPgno := u32 b 32
        NParts := u32 b 36
        KeyCount := u32 b 40
        RecordCount := u32 b 44
        Flags := u32 b 48
        Uid := bytesAt b 52 _dbFileIdLen }
    btmeta :=
      { Unused1 := u32 b 72
        MinKey := u32 b 76
        ReLen := u32 b 80
        RePad := u32 b 84
        Root := u32 b 88
        Unused2 := u32s b 92 92 }
    trailer :=
      { CryptoMagic := u32 b 460
        Trash := u32s b 464 3
        IV := bytesAt b 476 _dbIVBytes
        Chksum := bytesAt b 492 _dbMACKey } }

/-! ## page.go -/

def pageTypeIBTree : Nat := 3
def pageTypeLBTree : Nat := 5

structure pageHeader where
  LSN : dbLSN
  Pgno : Nat
  PrevPgno : Nat
  NextPgno : Nat
  Entries : Nat
  HFOffset : Nat
  Level : Nat
  Type_ : Nat
  deriving DecidableEq, Repr

/-- The encoded size of `pageHeader`: 8 + 4 + 4 + 4 + 2 + 2 + 1 + 1 bytes. -/
def pageHeaderSize : Nat := 26

def decodePageHeader (b : List Byte) : pageHeader :=
  { LSN := { File := u32 b 0, Offset := u32 b 4 }
    Pgno := u32 b 8
    PrevPgno := u32 b 12
    NextPgno := u32 b 16
    Entries := u16 b 20
    HFOffset := u16 b 22
    Level := u8 b 24
    Type_ := u8 b 25 }

structure page extends pageHeader where
  entryOffsets : List Nat
  deriving DecidableEq, Repr

structure btreeEntry where
  Len : Nat
  Type_ : Nat
  deriving DecidableEq, Repr

/-- The encoded size of `btreeEntry`: 2 + 1 bytes. -/
def btreeEntrySize : Nat := 3

def decodeBtreeEntry (b : List Byte) : btreeEntry :=
  { Len := u16 b 0, Type_ := u8 b 2 }

structure bKeyData extends btreeEntry where
  Data : List Byte
  deriving DecidableEq, Repr

structure bInternalData where
  Unused : Nat
  Pgno : Nat
  NRecs : Nat
  deriving DecidableEq, Repr

structure binternalHeader extends btreeEntry, bInternalData
  deriving DecidableEq, Repr

/-- The encoded size of `binternalHeader`: 3 + 1 + 4 + 4 bytes. -/
def binternalHeaderSize : Nat := 12

def decodeBinternalHeader (b : List Byte) : binternalHeader :=
  { Len := u16 b 0, Type_ := u8 b 2, Unused := u8 b 3, Pgno := u32 b 4, NRecs := u32 b 8 }

structure bInternal extends binternalHeader where
  Data : List Byte
  deriving DecidableEq, Repr

/-! ## btree.go -/

def btreeMagic : Nat := 0x053162

/-- The reader: metadata, stream, and the page cache (`nil` slots are `none`). -/
structure btree where
  meta : btreeMetadata
  r : ReadSeeker
  pages : List (Option page)
  deriving DecidableEq, Repr

def btree.Magic (t : btree) : Nat := t.meta.header.Magic
def btree.PageSize (t : btree) : Nat := t.meta.header.PageSize
def btree.LastPgno (t : btree) : Nat := t.meta.header.LastPgno
def btree.Root (t : btree) : Nat := t.meta.btmeta.Root

/-- `newBTreeReader`: seek to 0, decode the metadata, compare the magic. -/
def newBTreeReader (r : ReadSeeker) : Result btree :=
  let r0 := r.Seek 0
  match leRead r0 btreeMetadataSize with
  | (.error e, _) => .error e
  | (.panic, _) => .panic
  | (.ok b, r1) =>
    let db : btree := { meta := decodeBtreeMetadata b, r := r1, pages := [] }
    if db.Magic ≠ btreeMagic then .error (Err.wantedMagic db.Magic)
    else .ok db

/-- `getPage`: range check, lazy allocation of the cache with
`make([]*page, t.LastPgno+1)` (a `uint32` sum), then the cached page or a
decode of header and entry-offset table at `int64(n * sz)` (a `uint32`
product). -/
def getPage (t : btree) (n : Nat) : Result page × btree :=
  if n > t.LastPgno then (.error Err.pageIndexOutOfRange, t)
  else
    let t1 : btree :=
      if t.pages.length = 0 then
        { t with pages := List.replicate ((t.LastPgno + 1) % 2 ^ 32) none }
      else t
    match t1.pages[n]? with
    | none => (.panic, t1)
    | some (some p) => (.ok p, t1)
    | some none =>
      let sz := t1.PageSize
      let offs := (n * sz) % 2 ^ 32
      let r1 := t1.r.Seek offs
      match leRead r1 pageHeaderSize with
      | (.error e, r2) => (.error e, { t1 with r := r2 })
      | (.panic, r2) => (.panic, { t1 with r := r2 })
      | (.ok hb, r2) =>
        let hdr := decodePageHeader hb
        match leRead r2 (2 * hdr.Entries) with
        | (.error e, r3) => (.error e, { t1 with r := r3 })
        | (.panic, r3) => (.panic, { t1 with r := r3 })
        | (.ok ob, r3) =>
          let pg : page := { topageHeader := hdr, entryOffsets := u16s ob 0 hdr.Entries }
          (.ok pg, { t1 with r := r3, pages := t1.pages.set n (some pg) })

/-- `readBInternal`: seek to `int64(n*t.PageSize) + int64(entryOffset)`, decode
the 12-byte header, then one `Read` into a buffer of `Len` bytes. -/
def readBInternal (t : btree) (n entryOffset : Nat) : Result bInternal × btree :=
  let offs := (n * t.PageSize) % 2 ^ 32 + entryOffset
  let r1 := t.r.Seek offs
  match leRead r1 binternalHeaderSize with
  | (.error e, r2) => (.error e, { t with r := r2 })
  | (.panic, r2) => (.panic, { t with r := r2 })
  | (.ok hb, r2) =>
    let h := decodeBinternalHeader hb
    match r2.Read h.Len with
    | (_, some e, r3) => (.error e, { t with r := r3 })
    | (buf, none, r3) => (.ok { tobinternalHeader := h, Data := buf }, { t with r := r3 })

/-- `readBKeyData`: seek to `int64(n*t.PageSize) + int64(entryOffset)`, decode
the 3-byte header, then one `Read` into a buffer of `Len` bytes. -/
def readBKeyData (t : btree) (n entryOffset : Nat) : Result bKeyData × btree :=
  let offs := (n * t.PageSize) % 2 ^ 32 + entryOffset
  let r1 := t.r.Seek offs
  match leRead r1 btreeEntrySize with
  | (.error e, r2) => (.error e, { t with r := r2 })
  | (.panic, r2) => (.panic, { t with r := r2 })
  | (.ok hb, r2) =>
    let h := decodeBtreeEntry hb
    match r2.Read h.Len with
    | (_, some e, r3) => (.error e, { t with r := r3 })
    | (buf, none, r3) => (.ok { tobtreeEntry := h, Data := buf }, { t with r := r3 })

/-- What `search` hands back: its three results, or a panic. -/
inductive SearchRet where
  | ret (n : Nat) (i : Int) (err : Option Err)
  | panic
  deriving DecidableEq, Repr

/-- A loop body's effect on the enclosing function: fall through with a value,
or leave `search`. -/
inductive Scan (α : Type) where
  | done (a : α)
  | exit (r : SearchRet)
  deriving DecidableEq, Repr

/-- The loop `for i := 1; i < int(p.Entries); i++` of the internal-page case,
entered at index `i` with `rem` iterations left and `e` the entry chosen so
far. -/
def scanInternal (p : page) (k : List Byte) : Nat → Nat → bInternal → btree → Scan bInternal × btree
  | 0, _, e, t => (.done e, t)
  | rem + 1, i, e, t =>
    match p.entryOffsets[i]? with
    | none => (.exit .panic, t)
    | some off =>
      match readBInternal t p.Pgno off with
      | (.error err, t1) => (.exit (.ret p.Pgno i (some err)), t1)
      | (.panic, t1) => (.exit .panic, t1)
      | (.ok next, t1) =>
        if strLt k next.Data then (.done e, t1)
        else scanInternal p k rem (i + 1) next t1

/-- The internal-page case up to the choice of the child entry: decode entry
0, then scan entries `1 .. Entries-1`. -/
def chooseChild (p : page) (k : List Byte) (t : btree) : Scan bInternal × btree :=
  match p.entryOffsets[0]? with
  | none => (.exit .panic, t)
  | some off =>
    match readBInternal t p.Pgno off with
    | (.error err, t1) => (.exit (.ret p.Pgno 0 (some err)), t1)
    | (.panic, t1) => (.exit .panic, t1)
    | (.ok e, t1) => scanInternal p k (p.Entries - 1) 1 e t1

/-- The loop `for i := 0; i < int(p.Entries); i += 2` of the leaf-page case,
entered at index `i` with `rem` iterations left. -/
def scanLeaf (p : page) (k : List Byte) : Nat → Nat → btree → SearchRet × btree
  | 0, _, t => (.ret 0 (-1) (some Err.NotFound), t)
  | rem + 1, i, t =>
    match p.entryOffsets[i]? with
    | none => (.panic, t)
    | some off =>
      match readBKeyData t p.Pgno off with
      | (.error err, t1) => (.ret p.Pgno i (some err), t1)
      | (.panic, t1) => (.panic, t1)
      | (.ok e, t1) =>
        if k = e.Data then (.ret p.Pgno i none, t1)
        else scanLeaf p k rem (i + 2) t1

/-- The outer `for` loop of `search`, on page `p`; `none` when the step bound
runs out.  When `getPage` fails in the internal-page case, `p` has already
been overwritten with `nil` and `p.Pgno` panics. -/
def searchLoop (k : List Byte) : Nat → page → btree → Option (SearchRet × btree)
  | 0, _, _ => none
  | fuel + 1, p, t =>
    if p.Type_ = pageTypeIBTree then
      match chooseChild p k t with
      | (.exit r, t1) => some (r, t1)
      | (.done e, t1) =>
        match getPage t1 e.Pgno with
        | (.ok p', t2) => searchLoop k fuel p' t2
        | (.error _, t2) => some (.panic, t2)
        | (.panic, t2) => some (.panic, t2)
    else if p.Type_ = pageTypeLBTree then
      some (scanLeaf p k ((p.Entries + 1) / 2) 0 t)
    else some (.ret p.Pgno (-1) (some (Err.unexpectedPageType p.Type_)), t)

/-- The function `search`. -/
def search (fuel : Nat) (t : btree) (k : List Byte) : Option (SearchRet × btree) :=
  match getPage t t.Root with
  | (.error err, t1) => some (.ret t.Root 0 (some err), t1)
  | (.panic, t1) => some (.panic, t1)
  | (.ok p, t1) => searchLoop k fuel p t1

/-- The method `Get`.  When `readBKeyData` fails, `e` is `nil` and `e.Data`
panics. -/
def Get (fuel : Nat) (t : btree) (k : List Byte) : Option (Result (List Byte) × btree) :=
  match search fuel t k with
  | none => none
  | some (.panic, t1) => some (.panic, t1)
  | some (.ret _ _ (some err), t1) => some (.error err, t1)
  | some (.ret n i none, t1) =>
    if i < 0 then some (.error Err.NotFound, t1)
    else
      match getPage t1 n with
      | (.error err, t2) => some (.error err, t2)
      | (.panic, t2) => some (.panic, t2)
      | (.ok p, t2) =>
        match p.entryOffsets[(i + 1).toNat]? with
        | none => some (.panic, t2)
        | some off =>
          match readBKeyData t2 n off with
          | (.ok e, t3) => some (.ok e.Data, t3)
          | (.error _, t3) => some (.panic, t3)
          | (.panic, t3) => some (.panic, t3)

/-- What `HasKey` hands back: its two results, or a panic. -/
inductive HasKeyRet where
  | ret (b : Bool) (err : Option Err)
  | panic
  deriving DecidableEq, Repr

/-- The method `HasKey`. -/
def HasKey (fuel : Nat) (t : btree) (k : List Byte) : Option (HasKeyRet × btree) :=
  match search fuel t k with
  | none => none
  | some (.panic, t1) => some (.panic, t1)
  | some (.ret _ _ err, t1) =>
    if err = some Err.NotFound then some (.ret false none, t1)
    else some (.ret (err == none) err, t1)

/-! ## db.go -/

/-- `NewReader`: one `Read` into a 16-byte buffer, the magic at `buf[12:16]`,
a seek back to 0, and the dispatch on the magic. -/
def NewReader (r : ReadSeeker) : Result btree :=
  match r.Read 16 with
  | (_, some err, _) => .error err
  | (buf, none, r1) =>
    let magic := u32 buf 12
    let r2 := r1.Seek 0
    if magic = btreeMagic then newBTreeReader r2
    else .error (Err.unknownMagic magic)



/-! ## The file image and what the decoders see in it -/

/-- What a reader keeps fixed over its lifetime: the metadata, the bytes of
the stream, and the stream's flag. -/
structure Img where
  meta : btreeMetadata
  s : List Byte
  z : Bool

def btree.img (t : btree) : Img := { meta := t.meta, s := t.r.s, z := t.r.zeroReadEOF }

def Img.PageSize (f : Img) : Nat := f.meta.header.PageSize
def Img.LastPgno (f : Img) : Nat := f.meta.header.LastPgno
def Img.Root (f : Img) : Nat := f.meta.btmeta.Root

/-- The page whose header starts at byte `base`, when header and entry-offset
table lie inside the stream. -/
def pageAt (s : List Byte) (base : Nat) : Option page :=
  if base + pageHeaderSize ≤ s.length then
    let hdr := decodePageHeader (bytesAt s base pageHeaderSize)
    if base + pageHeaderSize + 2 * hdr.Entries ≤ s.length then
      some { topageHeader := hdr
             entryOffsets := u16s (bytesAt s (base + pageHeaderSize) (2 * hdr.Entries)) 0 hdr.Entries }
    else none
  else none

/-- The internal entry whose header starts at byte `off`, as `readBInternal`
decodes it: header and key lie inside the stream and, when the stream reports
`io.EOF` for an empty read at its end (`z`), at least one byte follows the
header.  Given the first condition, the second only excludes a keyless entry
whose header ends the stream. -/
def internalAt (s : List Byte) (z : Bool) (off : Nat) : Option bInternal :=
  if off + binternalHeaderSize ≤ s.length then
    let h := decodeBinternalHeader (bytesAt s off binternalHeaderSize)
    if off + binternalHeaderSize + h.Len ≤ s.length ∧
        (z = true → off + binternalHeaderSize < s.length) then
      some { tobinternalHeader := h, Data := bytesAt s (off + binternalHeaderSize) h.Len }
    else none
  else none

/-- The leaf item whose header starts at byte `off`, as `readBKeyData` decodes
it: header and payload lie inside the stream and, when the stream reports
`io.EOF` for an empty read at its end (`z`), at least one byte follows the
header.  Given the first condition, the second only excludes a zero-length
item whose header ends the stream. -/
def itemAt (s : List Byte) (z : Bool) (off : Nat) : Option bKeyData :=
  if off + btreeEntrySize ≤ s.length then
    let h := decodeBtreeEntry (bytesAt s off btreeEntrySize)
    if off + btreeEntrySize + h.Len ≤ s.length ∧
        (z = true → off + btreeEntrySize < s.length) then
      some { tobtreeEntry := h, Data := bytesAt s (off + btreeEntrySize) h.Len }
    else none
  else none

/-- Byte offset at which the code looks for page `n`: a `uint32` product. -/
def Img.base (f : Img) (n : Nat) : Nat := (n * f.PageSize) % 2 ^ 32

/-- Entry `i` of page `p` read as an internal entry, at the position the code
computes from the page's own header number. -/
def Img.internal (f : Img) (p : page) (i : Nat) : Option bInternal :=
  match p.entryOffsets[i]? with
  | none => none
  | some off => internalAt f.s f.z (f.base p.Pgno + off)

/-- Entry `i` of page `p` read as a leaf item. -/
def Img.item (f : Img) (p : page) (i : Nat) : Option bKeyData :=
  match p.entryOffsets[i]? with
  | none => none
  | some off => itemAt f.s f.z (f.base p.Pgno + off)

/-- The page cache agrees with the file: it is unallocated or has
`LastPgno + 1` slots, and every filled slot holds the page decoded at that
slot's position. -/
def CacheOK (f : Img) (pages : List (Option page)) : Prop :=
  (pages = [] ∨ pages.length = f.LastPgno + 1) ∧
  ∀ n p, pages[n]? = some (some p) → pageAt f.s (f.base n) = some p

/-! ## The tree that a file encodes -/

/-- Entries `i, i+1, …, i+cnt-1` of page `p`, read as internal entries; `none`
unless every one of them decodes by `internalAt`. -/
def Img.internals (f : Img) (p : page) : Nat → Nat → Option (List bInternal)
  | 0, _ => some []
  | cnt + 1, i =>
    match f.internal p i, Img.internals f p cnt (i + 1) with
    | some e, some es => some (e :: es)
    | _, _ => none

/-- The `cnt` key/data pairs of page `p` that start at entry `i`: keys at
`i, i+2, …`, each followed by its data item; `none` unless every one of the
`2 * cnt` items decodes by `itemAt` (inside the stream, and no zero-length item
with its header at the end of a stream that reports `io.EOF` there). -/
def Img.pairs (f : Img) (p : page) : Nat → Nat → Option (List (List Byte × List Byte))
  | 0, _ => some []
  | cnt + 1, i =>
    match f.item p i, f.item p (i + 1), Img.pairs f p cnt (i + 2) with
    | some k, some d, some kvs => some ((k.Data, d.Data) :: kvs)
    | _, _, _ => none

/-- The entry that the scan of an internal page settles on: `e` is the entry
chosen so far, the list holds the entries still to be compared. -/
def choose (k : List Byte) : bInternal → List bInternal → bInternal
  | e, [] => e
  | e, x :: xs => if strLt k x.Data then e else choose k x xs

/-- Page `n` as a page of the tree: a valid page number, a position
`n * PageSize` below `2 ^ 32`, header and entry-offset table inside the file,
and a header page number equal to `n`. -/
def Img.treePage (f : Img) (n : Nat) : Option page :=
  if n ≤ f.LastPgno ∧ n * f.PageSize < 2 ^ 32 then
    match pageAt f.s (n * f.PageSize) with
    | some p => if p.Pgno = n then some p else none
    | none => none
  else none

/-- The key/data pairs stored in the subtree of depth at most `d` under page
`n`, in entry order. -/
def stored (f : Img) : Nat → Nat → List (List Byte × List Byte)
  | 0, _ => []
  | d + 1, n =>
    match f.treePage n with
    | none => []
    | some p =>
      if p.Type_ = pageTypeLBTree then (f.pairs p (p.Entries / 2) 0).getD []
      else if p.Type_ = pageTypeIBTree then
        ((f.internals p p.Entries 0).getD []).flatMap (fun e => stored f d e.Pgno)
      else []

/-- Keys in ascending order: no key is smaller than its predecessor. -/
def sortedKeys : List bInternal → Bool
  | [] => true
  | [_] => true
  | a :: b :: rest => !strLt b.Data a.Data && sortedKeys (b :: rest)

/-- Every key stored under an entry is at least `lo` (when given) and smaller
than the key of the next entry (when there is one); the next entry's key is
the lower bound of its own subtree. -/
def rangesOK (f : Img) (d : Nat) : Option (List Byte) → List bInternal → Bool
  | _, [] => true
  | lo, [e] =>
    (stored f d e.Pgno).all (fun kv =>
      match lo with
      | none => true
      | some l => !strLt kv.1 l)
  | lo, e :: x :: rest =>
    (stored f d e.Pgno).all (fun kv =>
      (match lo with
       | none => true
       | some l => !strLt kv.1 l) && strLt kv.1 x.Data)
    && rangesOK f d (some x.Data) (x :: rest)

/-- Page `n` is the root of a well-formed btree of depth at most `d`: a tree
page (`treePage`) that is a leaf with an even entry count, items that decode
by `itemAt` and distinct keys, or an internal page with at least one entry,
entries that decode by `internalAt`, sorted keys from index 1 on, well-formed
children and subtrees within their key ranges.  Decoding by `itemAt` and
`internalAt` is more than lying inside the file: on a stream that reports
`io.EOF` for an empty read at its end, a zero-length item or keyless entry
whose header ends the stream does not decode. -/
def wf (f : Img) : Nat → Nat → Bool
  | 0, _ => false
  | d + 1, n =>
    match f.treePage n with
    | none => false
    | some p =>
      if p.Type_ = pageTypeLBTree then
        p.Entries % 2 = 0 &&
        match f.pairs p (p.Entries / 2) 0 with
        | some kvs => decide (kvs.map Prod.fst).Nodup
        | none => false
      else if p.Type_ = pageTypeIBTree then
        match f.internals p p.Entries 0 with
        | some (e :: es) =>
          sortedKeys es && (e :: es).all (fun c => wf f d c.Pgno) && rangesOK f d none (e :: es)
        | _ => false
      else false

/-- Entry `i` of the tree page `n` is a key whose data item, the entry after
it, carries the payload `dat`. -/
def LeafHit (f : Img) (n i : Nat) (dat : List Byte) : Prop :=
  ∃ p, f.treePage n = some p ∧ ∃ de, f.item p (i + 1) = some de ∧ de.Data = dat



/-! ## Fixtures -/

def le16 (n : Nat) : List Byte := [Fin.ofNat n, Fin.ofNat (n / 256)]

def le32 (n : Nat) : List Byte :=
  [Fin.ofNat n, Fin.ofNat (n / 256), Fin.ofNat (n / 65536), Fin.ofNat (n / 16777216)]

def zeros (n : Nat) : List Byte := List.replicate n 0

def padTo (n : Nat) (b : List Byte) : List Byte := b ++ zeros (n - b.length)

def str (s : String) : List Byte := s.toList.map (fun c => Fin.ofNat c.toNat)

def metaPage (pageSize lastPgno root : Nat) : List Byte :=
  padTo 512 (zeros 12 ++ le32 btreeMagic ++ le32 9 ++ le32 pageSize ++ [0, 9, 0, 0]
    ++ le32 0 ++ le32 lastPgno ++ zeros 52 ++ le32 root)

def pageBytes (pageSize pgno type : Nat) (offsets : List Nat) (body : List Byte) : List Byte :=
  padTo pageSize (zeros 8 ++ le32 pgno ++ zeros 8 ++ le16 offsets.length ++ le16 0
    ++ [1, Fin.ofNat type] ++ (offsets.map le16).flatten ++ body)

def leafItem (s : List Byte) : List Byte := le16 s.length ++ [1] ++ s

def internalItem (pgno : Nat) (key : List Byte) : List Byte :=
  le16 key.length ++ [1, 0] ++ le32 pgno ++ le32 0 ++ key

/-- A single-leaf database with page size 128: the metadata in pages 0 to 3
and the leaf root page 4 holding `("alpha","1")` and `("beta","2")`. -/
def alphaBeta : List Byte :=
  metaPage 128 4 4 ++
  pageBytes 128 4 5 [34, 42, 46, 53]
    (leafItem (str "alpha") ++ leafItem (str "1") ++ leafItem (str "beta") ++ leafItem (str "2"))

/-- The root page of `alphaBeta`, decoded. -/
def alphaBetaRoot : page :=
  { LSN := { File := 0, Offset := 0 }, Pgno := 4, PrevPgno := 0, NextPgno := 0, Entries := 4,
    HFOffset := 0, Level := 1, Type_ := pageTypeLBTree, entryOffsets := [34, 42, 46, 53] }

/-- The leaf of `alphaBeta` stored at page 4 with the header page number 5,
followed by a page 5 that holds the same items under another entry-offset
table. -/
def mislabelled : List Byte :=
  metaPage 128 5 4 ++
  pageBytes 128 5 5 [34, 42, 46, 53]
    (leafItem (str "alpha") ++ leafItem (str "1") ++ leafItem (str "beta") ++ leafItem (str "2")) ++
  pageBytes 128 5 5 [34, 53, 46, 42]
    (leafItem (str "alpha") ++ leafItem (str "1") ++ leafItem (str "beta") ++ leafItem (str "2"))

/-- The root page of `mislabelled`, decoded. -/
def mislabelledRoot : page :=
  { LSN := { File := 0, Offset := 0 }, Pgno := 5, PrevPgno := 0, NextPgno := 0, Entries := 4,
    HFOffset := 0, Level := 1, Type_ := pageTypeLBTree, entryOffsets := [34, 42, 46, 53] }

/-- A reader as `newBTreeReader` leaves it on the stream `s`: metadata decoded
from the first 512 bytes, read position 512, empty page cache. -/
def readerOn (s : List Byte) (z : Bool) : btree :=
  { meta := decodeBtreeMetadata (bytesAt s 0 btreeMetadataSize)
    r := { s := s, i := btreeMetadataSize, zeroReadEOF := z }
    pages := [] }

/-- A two-level tree with page size 128: the metadata in pages 0 to 3, the
internal root page 4 with child keys `[_, "b", "d"]`, and the leaves 5
(`a`), 6 (`b`, `c`) and 7 (`d`, `e`). -/
def treeFile : List Byte :=
  metaPage 128 7 4 ++
  pageBytes 128 4 3 [32, 44, 57]
    (internalItem 5 [] ++ internalItem 6 (str "b") ++ internalItem 7 (str "d")) ++
  pageBytes 128 5 5 [30, 34] (leafItem (str "a") ++ leafItem (str "1")) ++
  pageBytes 128 6 5 [34, 38, 42, 46]
    (leafItem (str "b") ++ leafItem (str "2") ++ leafItem (str "c") ++ leafItem (str "3")) ++
  pageBytes 128 7 5 [34, 38, 42, 46]
    (leafItem (str "d") ++ leafItem (str "4") ++ leafItem (str "e") ++ leafItem (str "5"))

/-- The root page of `treeFile`, decoded. -/
def treeRoot : page :=
  { LSN := { File := 0, Offset := 0 }, Pgno := 4, PrevPgno := 0, NextPgno := 0, Entries := 3,
    HFOffset := 0, Level := 1, Type_ := pageTypeIBTree, entryOffsets := [32, 44, 57] }

/-- The internal entry that `internalItem pgno key` encodes. -/
def internalEntry (pgno : Nat) (key : List Byte) : bInternal :=
  { Len := key.length, Type_ := 1, Unused := 0, Pgno := pgno, NRecs := 0, Data := key }

/-- A leaf root page 4 with the single entry `alpha`: an odd entry count. -/
def oddLeaf : List Byte :=
  metaPage 128 4 4 ++ pageBytes 128 4 5 [28] (leafItem (str "alpha"))

/-- The file `mislabelled` with a metadata page that declares page 4 the last
page. -/
def beyondLast : List Byte :=
  metaPage 128 4 4 ++
  pageBytes 128 5 5 [34, 42, 46, 53]
    (leafItem (str "alpha") ++ leafItem (str "1") ++ leafItem (str "beta") ++ leafItem (str "2")) ++
  pageBytes 128 5 5 [34, 53, 46, 42]
    (leafItem (str "alpha") ++ leafItem (str "1") ++ leafItem (str "beta") ++ leafItem (str "2"))

/-- An internal root page 4 whose only entry references page 9, above the
last page number 4. -/
def danglingChild : List Byte :=
  metaPage 128 4 4 ++ pageBytes 128 4 3 [28] (internalItem 9 [])

/-! ## More fixtures -/

/-- The file `alphaBeta` cut off two bytes into the four-byte payload of
`beta`. -/
def truncatedLeaf : List Byte := alphaBeta.take (4 * 128 + 51)

/-- An internal page 4 whose second entry declares a three-byte key, cut off
one byte into that key. -/
def truncatedInternal : List Byte :=
  (metaPage 128 4 4 ++
    pageBytes 128 4 3 [30, 42] (internalItem 5 [] ++ internalItem 6 (str "key"))).take
    (4 * 128 + 55)

/-- An internal root page 4 whose only entry references page 4 itself. -/
def cyclic : List Byte :=
  metaPage 128 4 4 ++ pageBytes 128 4 3 [28] (internalItem 4 [])

/-- The root page of `cyclic`, decoded. -/
def cyclicRoot : page :=
  { LSN := { File := 0, Offset := 0 }, Pgno := 4, PrevPgno := 0, NextPgno := 0, Entries := 1,
    HFOffset := 0, Level := 1, Type_ := pageTypeIBTree, entryOffsets := [28] }

/-- A metadata page that declares the last page number `2 ^ 32 - 1`. -/
def lastPgnoMax : List Byte := metaPage 128 4294967295 4

/-- A metadata page that declares page size 65536 and last page number
65536. -/
def bigPages : List Byte := metaPage 65536 65536 4

/-! ## The parts of `getPage` -/

/-- The lazy allocation of the page cache at the start of `getPage`. -/
def allocPages (t : btree) : btree :=
  if t.pages.length = 0 then
    { t with pages := List.replicate ((t.LastPgno + 1) % 2 ^ 32) none }
  else t

/-- The cache-miss branch of `getPage`: seek, decode header and entry-offset
table, store the page. -/
def missRead (t : btree) (n : Nat) : Result page × btree :=
  let sz := t.PageSize
  let offs := (n * sz) % 2 ^ 32
  let r1 := t.r.Seek offs
  match leRead r1 pageHeaderSize with
  | (.error e, r2) => (.error e, { t with r := r2 })
  | (.panic, r2) => (.panic, { t with r := r2 })
  | (.ok hb, r2) =>
    let hdr := decodePageHeader hb
    match leRead r2 (2 * hdr.Entries) with
    | (.error e, r3) => (.error e, { t with r := r3 })
    | (.panic, r3) => (.panic, { t with r := r3 })
    | (.ok ob, r3) =>
      let pg : page := { topageHeader := hdr, entryOffsets := u16s ob 0 hdr.Entries }
      (.ok pg, { t with r := r3, pages := t.pages.set n (some pg) })

/-- What the cache-miss branch of `getPage` decodes for page `n`, as a
function of the file alone. -/
def Img.readPage (f : Img) (n : Nat) : Result page :=
  (missRead { meta := f.meta, r := { s := f.s, i := 0, zeroReadEOF := f.z }, pages := [] } n).1

/-- What `getPage n` returns on a reader whose cache agrees with the file. -/
def Img.getPage (f : Img) (n : Nat) : Result page :=
  if n > f.LastPgno then .error Err.pageIndexOutOfRange
  else if (f.LastPgno + 1) % 2 ^ 32 ≤ n then .panic
  else f.readPage n

/-- The invariant of the page cache over a reader's lifetime: unallocated, or
as long as `getPage` allocates it, and every filled slot holds the page
decoded at that slot's position. -/
def CacheInv (f : Img) (pages : List (Option page)) : Prop :=
  (pages = [] ∨ pages.length = (f.LastPgno + 1) % 2 ^ 32) ∧
  ∀ n p, pages[n]? = some (some p) → pageAt f.s (f.base n) = some p

/-- A reader on the file `f` whose cache obeys the invariant. -/
def Inv (f : Img) (t : btree) : Prop := t.img = f ∧ CacheInv f t.pages

/-- The reader states that a program can reach: the state `newBTreeReader`
returns, and every state left behind by a call of `Get` or `HasKey` (`Keys`
does not touch the reader). -/
inductive Reachable : btree → Prop where
  | opened (r : ReadSeeker) (t : btree) (h : newBTreeReader r = .ok t) : Reachable t
  | get (t : btree) (fuel : Nat) (k : List Byte) (res : Result (List Byte)) (t' : btree)
      (ht : Reachable t) (h : Get fuel t k = some (res, t')) : Reachable t'
  | hasKey (t : btree) (fuel : Nat) (k : List Byte) (res : HasKeyRet) (t' : btree)
      (ht : Reachable t) (h : HasKey fuel t k = some (res, t')) : Reachable t'

/-- The reader `t'` holds the same file as `t` and every page that `t` has
cached. -/
def Ext (t t' : btree) : Prop :=
  t'.img = t.img ∧
  ∀ (m : Nat) (q : page), t.pages[m]? = some (some q) → t'.pages[m]? = some (some q)

/-- The reader states that follow a state `t`: those left behind by any
sequence of calls of `getPage`, `readBInternal`, `readBKeyData`, `search`,
`Get` and `HasKey`. -/
inductive Later : btree → btree → Prop where
  | refl (t : btree) : Later t t
  | getPage (t t' : btree) (n : Nat) (h : Later t t') : Later t (getPage t' n).2
  | readBInternal (t t' : btree) (n off : Nat) (h : Later t t') :
      Later t (readBInternal t' n off).2
  | readBKeyData (t t' : btree) (n off : Nat) (h : Later t t') :
      Later t (readBKeyData t' n off).2
  | search (t t' : btree) (fuel : Nat) (k : List Byte) (r : SearchRet) (t'' : btree)
      (h : Later t t') (hs : search fuel t' k = some (r, t'')) : Later t t''
  | get (t t' : btree) (fuel : Nat) (k : List Byte) (r : Result (List Byte)) (t'' : btree)
      (h : Later t t') (hs : Get fuel t' k = some (r, t'')) : Later t t''
  | hasKey (t t' : btree) (fuel : Nat) (k : List Byte) (r : HasKeyRet) (t'' : btree)
      (h : Later t t') (hs : HasKey fuel t' k = some (r, t'')) : Later t t''

/-- Page 6 of `treeFile`, decoded. -/
def treeLeaf6 : page :=
  { LSN := { File := 0, Offset := 0 }, Pgno := 6, PrevPgno := 0, NextPgno := 0, Entries := 4,
    HFOffset := 0, Level := 1, Type_ := pageTypeLBTree, entryOffsets := [34, 38, 42, 46] }

/-- An internal root page 4 with no entries. -/
def emptyInternal : List Byte := metaPage 128 4 4 ++ pageBytes 128 4 3 [] []

/-- The root page of `emptyInternal`, decoded. -/
def emptyRoot : page :=
  { LSN := { File := 0, Offset := 0 }, Pgno := 4, PrevPgno := 0, NextPgno := 0, Entries := 0,
    HFOffset := 0, Level := 1, Type_ := pageTypeIBTree, entryOffsets := [] }

/-- Page 5 of `mislabelled`, decoded. -/
def mislabelledOther : page :=
  { LSN := { File := 0, Offset := 0 }, Pgno := 5, PrevPgno := 0, NextPgno := 0, Entries := 4,
    HFOffset := 0, Level := 1, Type_ := pageTypeLBTree, entryOffsets := [34, 53, 46, 42] }

/-- The outer loop of `search` with the scan of the leaf left out: the leaf
page on which the descent from page `p` ends, the page number under which
that leaf was fetched (`m` for `p` itself, the chosen child number below), and
the reader at the start of the leaf scan. -/
def leafOf (k : List Byte) : Nat → Nat → page → btree → Option (Nat × page × btree)
  | 0, _, _, _ => none
  | fuel + 1, m, p, t =>
    if p.Type_ = pageTypeIBTree then
      match chooseChild p k t with
      | (.exit _, _) => none
      | (.done e, t1) =>
        match getPage t1 e.Pgno with
        | (.ok p', t2) => leafOf k fuel e.Pgno p' t2
        | (.error _, _) => none
        | (.panic, _) => none
    else if p.Type_ = pageTypeLBTree then some (m, p, t)
    else none

/-- The leaf page that `search` scans, with the page number under which it was
fetched: the root page number, or the chosen child number. -/
def searchLeaf (fuel : Nat) (t : btree) (k : List Byte) : Option (Nat × page × btree) :=
  match getPage t t.Root with
  | (.ok p, t1) => leafOf k fuel t.Root p t1
  | (.error _, _) => none
  | (.panic, _) => none

/-- The file `treeFile` under a metadata page that declares the last page
number `2 ^ 32 - 1`. -/
def treeFileMax : List Byte := metaPage 128 4294967295 4 ++ treeFile.drop 512

/-- A single-leaf database of 640 bytes with page size 128: the leaf root page
4 holds the key `a` and an empty data item, whose three-byte header is the
last three bytes of the file. -/
def lastItem : List Byte :=
  metaPage 128 4 4 ++
  pageBytes 128 4 5 [30, 125] (leafItem (str "a") ++ zeros 91 ++ leafItem [])

/-- The root page of `lastItem`, decoded. -/
def lastItemRoot : page :=
  { LSN := { File := 0, Offset := 0 }, Pgno := 4, PrevPgno := 0, NextPgno := 0, Entries := 2,
    HFOffset := 0, Level := 1, Type_ := pageTypeLBTree, entryOffsets := [30, 125] }

/-! ## Stream lemmas -/

theorem bytesAt_length (s : List Byte) (o n : Nat) (h : o + n ≤ s.length) :
    (bytesAt s o n).length = n := by
  simp [bytesAt]; omega

theorem u8_bytesAt (s : List Byte) (o n j : Nat) (h : j < n) :
    u8 (bytesAt s o n) j = u8 s (o + j) := by
  simp only [u8, bytesAt, List.getD_eq_getElem?_getD]
  rw [List.getElem?_take_of_lt h, List.getElem?_drop]

theorem u16_bytesAt (s : List Byte) (o n j : Nat) (h : j + 1 < n) :
    u16 (bytesAt s o n) j = u16 s (o + j) := by
  simp only [u16]
  rw [u8_bytesAt s o n j (by omega), u8_bytesAt s o n (j + 1) (by omega)]
  rfl

theorem u32_bytesAt (s : List Byte) (o n j : Nat) (h : j + 3 < n) :
    u32 (bytesAt s o n) j = u32 s (o + j) := by
  simp only [u32]
  rw [u8_bytesAt s o n j (by omega), u8_bytesAt s o n (j + 1) (by omega),
    u8_bytesAt s o n (j + 2) (by omega), u8_bytesAt s o n (j + 3) (by omega)]
  rfl

theorem u8_lt (b : List Byte) (o : Nat) : u8 b o < 256 := (b.getD o 0).isLt

theorem u16_lt (b : List Byte) (o : Nat) : u16 b o < 2 ^ 16 := by
  have h0 := u8_lt b o
  have h1 := u8_lt b (o + 1)
  simp only [u16]; omega

theorem u32_lt (b : List Byte) (o : Nat) : u32 b o < 2 ^ 32 := by
  have h0 := u8_lt b o
  have h1 := u8_lt b (o + 1)
  have h2 := u8_lt b (o + 2)
  have h3 := u8_lt b (o + 3)
  simp only [u32]; omega

theorem ReadFull_ok (r : ReadSeeker) (n : Nat) (h : r.i + n ≤ r.s.length) :
    r.ReadFull n = (.ok (bytesAt r.s r.i n), { r with i := r.i + n }) := by
  unfold ReadSeeker.ReadFull
  by_cases hn : n = 0
  · subst hn; simp [bytesAt]
  · have h1 : ¬ r.s.length ≤ r.i := by omega
    simp [hn, h1, h]

theorem Read_ok (r : ReadSeeker) (n : Nat) (h : r.i + n ≤ r.s.length)
    (hz : r.zeroReadEOF = true → r.i < r.s.length) :
    r.Read n = (bytesAt r.s r.i n, none, { r with i := r.i + n }) := by
  unfold ReadSeeker.Read
  by_cases hc : n = 0 ∧ r.zeroReadEOF = false
  · obtain ⟨hn, hzf⟩ := hc
    subst hn
    have hif : (0 = 0 ∧ r.zeroReadEOF = false) := ⟨rfl, hzf⟩
    rw [if_pos hif]
    simp [bytesAt]
  · have h1 : ¬ r.s.length ≤ r.i := by
      intro hle
      by_cases hn : n = 0
      · cases hzz : r.zeroReadEOF
        · exact hc ⟨hn, hzz⟩
        · have := hz hzz; omega
      · omega
    have hl := bytesAt_length r.s r.i n h
    simp [hc, h1, hl]

/-! ## The decoders of `btree.go` against the file image -/

theorem getPage_miss (t : btree) (n : Nat) (p : page)
    (hlen : t.pages.length ≠ 0) (hn : n ≤ t.LastPgno) (hslot : t.pages[n]? = some none)
    (hp : pageAt t.r.s ((n * t.PageSize) % 2 ^ 32) = some p) :
    ∃ t', getPage t n = (.ok p, t') ∧ t'.img = t.img ∧
      t'.pages = t.pages.set n (some p) := by
  unfold pageAt at hp
  split at hp
  next h1 =>
    simp only at hp
    split at hp
    next h2 =>
      simp only [Option.some.injEq] at hp
      unfold getPage
      have hn' : ¬ n > t.LastPgno := by omega
      simp only [hn', if_false, hlen, hslot, leRead, ReadSeeker.Seek]
      rw [ReadFull_ok _ _ (by simpa using h1)]
      simp only
      rw [ReadFull_ok _ _ (by simpa [Nat.add_assoc] using h2)]
      simp only
      subst hp
      exact ⟨_, rfl, rfl, rfl⟩
    next => exact absurd hp (by simp)
  next => exact absurd hp (by simp)


theorem CacheOK_replicate (f : Img) :
    CacheOK f (List.replicate (f.LastPgno + 1) none) := by
  refine ⟨Or.inr (by simp), ?_⟩
  intro n p h
  rw [List.getElem?_replicate] at h
  split at h <;> simp at h

theorem CacheOK_set (f : Img) (pages : List (Option page)) (n : Nat) (p : page)
    (hc : CacheOK f pages) (hlen : pages.length = f.LastPgno + 1)
    (hp : pageAt f.s (f.base n) = some p) :
    CacheOK f (pages.set n (some p)) := by
  refine ⟨Or.inr (by simpa using hlen), ?_⟩
  intro m q h
  by_cases hm : n = m
  · subst hm
    by_cases hlt : n < pages.length
    · rw [List.getElem?_set_self hlt] at h
      simp only [Option.some.injEq] at h
      subst h; exact hp
    · rw [List.getElem?_eq_none (by simpa using Nat.le_of_not_lt hlt)] at h
      exact absurd h (by simp)
  · rw [List.getElem?_set_ne hm] at h
    exact hc.2 m q h

/-- On a reader whose cache agrees with the file, `getPage` returns the page
decoded at the page's position, and the cache still agrees afterwards. -/
theorem getPage_ok (f : Img) (t : btree) (n : Nat) (p : page)
    (hf : t.img = f) (hc : CacheOK f t.pages) (hL : f.LastPgno + 1 < 2 ^ 32)
    (hn : n ≤ f.LastPgno) (hp : pageAt f.s (f.base n) = some p) :
    ∃ t', getPage t n = (.ok p, t') ∧ t'.img = f ∧ CacheOK f t'.pages := by
  subst hf
  have hLP : t.img.LastPgno = t.LastPgno := rfl
  have hbase : t.img.base n = (n * t.PageSize) % 2 ^ 32 := rfl
  -- the cache after the lazy allocation
  obtain ⟨t1, ht1, himg1, hc1, hlen1⟩ : ∃ t1 : btree,
      (if t.pages.length = 0 then
        { t with pages := List.replicate ((t.LastPgno + 1) % 2 ^ 32) none } else t) = t1 ∧
      t1.img = t.img ∧ CacheOK t.img t1.pages ∧ t1.pages.length = t.LastPgno + 1 := by
    by_cases h0 : t.pages.length = 0
    · rw [if_pos h0]
      have hmod : (t.LastPgno + 1) % 2 ^ 32 = t.LastPgno + 1 :=
        Nat.mod_eq_of_lt (by rw [← hLP]; exact hL)
      refine ⟨_, rfl, rfl, ?_, ?_⟩
      · simp only [hmod]; exact CacheOK_replicate t.img
      · show (List.replicate ((t.LastPgno + 1) % 2 ^ 32) (none : Option page)).length = _
        rw [List.length_replicate, hmod]
    · rw [if_neg h0]
      refine ⟨t, rfl, rfl, hc, ?_⟩
      rcases hc.1 with h | h
      · rw [h] at h0; exact absurd rfl h0
      · exact h
  have hlt : n < t1.pages.length := by omega
  have hstep : getPage t n = getPage t1 n := by
    have hn' : ¬ n > t.LastPgno := by omega
    have hmeta : t1.meta = t.meta := congrArg Img.meta himg1
    have hLast : t1.LastPgno = t.LastPgno := by simp only [btree.LastPgno, hmeta]
    have hn1 : ¬ n > t1.LastPgno := by omega
    have hne : ¬ t1.pages.length = 0 := by omega
    conv_lhs => unfold getPage
    conv_rhs => unfold getPage
    simp only [hn', hn1, if_false, hne]
    rw [ht1]
  rw [hstep]
  have hs1 : t1.r.s = t.r.s := congrArg Img.s himg1
  have hPS : t1.PageSize = t.PageSize := by
    have hmeta : t1.meta = t.meta := congrArg Img.meta himg1
    simp only [btree.PageSize, hmeta]
  have hLast : t1.LastPgno = t.LastPgno := by
    have hmeta : t1.meta = t.meta := congrArg Img.meta himg1
    simp only [btree.LastPgno, hmeta]
  cases hslot : t1.pages[n]? with
  | none =>
    rw [List.getElem?_eq_none_iff] at hslot
    omega
  | some x =>
    cases x with
    | some q =>
      have hq := hc1.2 n q hslot
      rw [hp] at hq
      simp only [Option.some.injEq] at hq
      subst hq
      refine ⟨t1, ?_, himg1, hc1⟩
      unfold getPage
      have hn1 : ¬ n > t1.LastPgno := by omega
      have hne : ¬ t1.pages.length = 0 := by omega
      simp only [hn1, if_false, hne, hslot]
    | none =>
      obtain ⟨t', hg, himg', hpages'⟩ := getPage_miss t1 n p (by omega) (by omega) hslot
        (by rw [hs1, hPS, ← hbase]; exact hp)
      refine ⟨t', hg, himg'.trans himg1, ?_⟩
      rw [hpages']
      exact CacheOK_set t.img t1.pages n p hc1 (by rw [hlen1, hLP]) hp

/-- `readBInternal` returns the entry decoded at the position it computes, and
moves only the read position. -/
theorem readBInternal_ok (t : btree) (n off : Nat) (e : bInternal)
    (he : internalAt t.r.s t.r.zeroReadEOF ((n * t.PageSize) % 2 ^ 32 + off) = some e) :
    ∃ t', readBInternal t n off = (.ok e, t') ∧ t'.img = t.img ∧ t'.pages = t.pages := by
  unfold internalAt at he
  split at he
  next h1 =>
    simp only at he
    split at he
    next h2 =>
      simp only [Option.some.injEq] at he
      subst he
      unfold readBInternal
      simp only [leRead, ReadSeeker.Seek]
      rw [ReadFull_ok _ _ (by simpa using h1)]
      simp only
      rw [Read_ok _ _ (by simpa using h2.1) (by simpa using h2.2)]
      exact ⟨_, rfl, rfl, rfl⟩
    next => exact absurd he (by simp)
  next => exact absurd he (by simp)

/-- `readBKeyData` returns the item decoded at the position it computes, and
moves only the read position. -/
theorem readBKeyData_ok (t : btree) (n off : Nat) (e : bKeyData)
    (he : itemAt t.r.s t.r.zeroReadEOF ((n * t.PageSize) % 2 ^ 32 + off) = some e) :
    ∃ t', readBKeyData t n off = (.ok e, t') ∧ t'.img = t.img ∧ t'.pages = t.pages := by
  unfold itemAt at he
  split at he
  next h1 =>
    simp only at he
    split at he
    next h2 =>
      simp only [Option.some.injEq] at he
      subst he
      unfold readBKeyData
      simp only [leRead, ReadSeeker.Seek]
      rw [ReadFull_ok _ _ (by simpa using h1)]
      simp only
      rw [Read_ok _ _ (by simpa using h2.1) (by simpa using h2.2)]
      exact ⟨_, rfl, rfl, rfl⟩
    next => exact absurd he (by simp)
  next => exact absurd he (by simp)

/-! ## Byte-wise order -/

theorem strLt_of_lt_of_le : ∀ a b c : List Byte,
    strLt a b = true → strLt c b = false → strLt a c = true
  | [], [], _ => by simp [strLt]
  | [], _ :: _, [] => by simp [strLt]
  | [], _ :: _, _ :: _ => by simp [strLt]
  | _ :: _, [], _ => by simp [strLt]
  | _ :: _, _ :: _, [] => by simp [strLt]
  | x :: a, y :: b, z :: c => by
    intro h1 h2
    simp only [strLt] at h1 h2 ⊢
    by_cases hxy : x.val < y.val
    · by_cases hzy : z.val < y.val
      · simp [hzy] at h2
      · by_cases hyz : y.val < z.val
        · have : x.val < z.val := by omega
          simp [this]
        · have hzy' : z.val = y.val := by omega
          have : x.val < z.val := by omega
          simp [this]
    · simp only [hxy, if_false] at h1
      by_cases hyx : y.val < x.val
      · simp [hyx] at h1
      · simp only [hyx, if_false] at h1
        have hxy' : x.val = y.val := by omega
        by_cases hzy : z.val < y.val
        · simp [hzy] at h2
        · simp only [hzy, if_false] at h2
          by_cases hyz : y.val < z.val
          · have : x.val < z.val := by omega
            simp [this]
          · simp only [hyz, if_false] at h2
            have h3 : ¬ x.val < z.val := by omega
            have h4 : ¬ z.val < x.val := by omega
            simp only [h3, h4, if_false]
            exact strLt_of_lt_of_le a b c h1 h2

theorem choose_mem (k : List Byte) : ∀ (rest : List bInternal) (e : bInternal),
    choose k e rest ∈ e :: rest
  | [], e => by simp [choose]
  | x :: xs, e => by
    simp only [choose]
    split
    · simp
    · exact List.mem_cons_of_mem _ (choose_mem k xs x)

theorem sortedKeys_tail (x : bInternal) (xs : List bInternal) (h : sortedKeys (x :: xs) = true) :
    sortedKeys xs = true := by
  cases xs with
  | nil => rfl
  | cons y ys =>
    simp only [sortedKeys, Bool.and_eq_true] at h
    exact h.2

/-! ## The choice of the child -/

theorem rangesOK_head_lo (f : Img) (d : Nat) (l : List Byte) (e : bInternal)
    (rest : List bInternal) (h : rangesOK f d (some l) (e :: rest) = true)
    (kv : List Byte × List Byte) (hkv : kv ∈ stored f d e.Pgno) : strLt kv.1 l = false := by
  cases rest with
  | nil =>
    simp only [rangesOK, List.all_eq_true] at h
    simpa using h kv hkv
  | cons x xs =>
    simp only [rangesOK, Bool.and_eq_true, List.all_eq_true] at h
    have := h.1 kv hkv
    simpa using this.1

theorem rangesOK_head_hi (f : Img) (d : Nat) (lo : Option (List Byte)) (e x : bInternal)
    (rest : List bInternal) (h : rangesOK f d lo (e :: x :: rest) = true)
    (kv : List Byte × List Byte) (hkv : kv ∈ stored f d e.Pgno) :
    strLt kv.1 x.Data = true := by
  simp only [rangesOK, Bool.and_eq_true, List.all_eq_true] at h
  exact (h.1 kv hkv).2

theorem rangesOK_tail (f : Img) (d : Nat) (lo : Option (List Byte)) (e x : bInternal)
    (rest : List bInternal) (h : rangesOK f d lo (e :: x :: rest) = true) :
    rangesOK f d (some x.Data) (x :: rest) = true := by
  simp only [rangesOK, Bool.and_eq_true] at h
  exact h.2

/-- A key below the key of entry `x` is stored under no entry from `x` on. -/
theorem not_stored_later (f : Img) (d : Nat) (k dat : List Byte) :
    ∀ (xs : List bInternal) (x : bInternal),
      sortedKeys (x :: xs) = true → rangesOK f d (some x.Data) (x :: xs) = true →
      strLt k x.Data = true → ∀ c ∈ x :: xs, (k, dat) ∉ stored f d c.Pgno
  | [], x, _, hr, hlt, c, hc => by
    simp only [List.mem_singleton] at hc
    subst hc
    intro hmem
    have := rangesOK_head_lo f d _ _ _ hr (k, dat) hmem
    simp only at this
    rw [hlt] at this
    exact absurd this (by simp)
  | y :: ys, x, hs, hr, hlt, c, hc => by
    rcases List.mem_cons.1 hc with h | h
    · subst h
      intro hmem
      have := rangesOK_head_lo f d _ _ _ hr (k, dat) hmem
      simp only at this
      rw [hlt] at this
      exact absurd this (by simp)
    · have hxy : strLt y.Data x.Data = false := by
        simp only [sortedKeys, Bool.and_eq_true, Bool.not_eq_true'] at hs
        exact hs.1
      have hky : strLt k y.Data = true := strLt_of_lt_of_le k x.Data y.Data hlt hxy
      exact not_stored_later f d k dat ys y (sortedKeys_tail x (y :: ys) hs)
        (rangesOK_tail f d _ x y ys hr) hky c h

/-- A pair stored under one of the entries is stored under the chosen one. -/
theorem stored_choose (f : Img) (d : Nat) (k dat : List Byte) :
    ∀ (rest : List bInternal) (e : bInternal) (lo : Option (List Byte)),
      sortedKeys rest = true → rangesOK f d lo (e :: rest) = true →
      (k, dat) ∈ (e :: rest).flatMap (fun c => stored f d c.Pgno) →
      (k, dat) ∈ stored f d (choose k e rest).Pgno
  | [], e, _, _, _, hmem => by
    simpa [choose] using hmem
  | x :: xs, e, lo, hs, hr, hmem => by
    simp only [choose]
    rw [List.flatMap_cons, List.mem_append] at hmem
    by_cases hlt : strLt k x.Data = true
    · rw [if_pos hlt]
      rcases hmem with h | h
      · exact h
      · rw [List.mem_flatMap] at h
        obtain ⟨c, hc, hkc⟩ := h
        exact absurd hkc (not_stored_later f d k dat xs x hs (rangesOK_tail f d lo e x xs hr) hlt c hc)
    · rw [if_neg hlt]
      rcases hmem with h | h
      · exact absurd (rangesOK_head_hi f d lo e x xs hr (k, dat) h) hlt
      · exact stored_choose f d k dat xs x (some x.Data) (sortedKeys_tail x xs hs)
          (rangesOK_tail f d lo e x xs hr) h

/-! ## The loops of `search` on decodable entries -/

theorem readBInternal_img (f : Img) (t : btree) (p : page) (i : Nat) (e : bInternal)
    (hf : t.img = f) (h : f.internal p i = some e) :
    ∃ off, p.entryOffsets[i]? = some off ∧
      ∃ t', readBInternal t p.Pgno off = (.ok e, t') ∧ t'.img = f ∧ t'.pages = t.pages := by
  subst hf
  unfold Img.internal at h
  cases hoff : p.entryOffsets[i]? with
  | none => rw [hoff] at h; exact absurd h (by simp)
  | some off =>
    rw [hoff] at h
    obtain ⟨t', h1, h2, h3⟩ := readBInternal_ok t p.Pgno off e h
    exact ⟨off, rfl, t', h1, h2, h3⟩

theorem readBKeyData_img (f : Img) (t : btree) (p : page) (i : Nat) (e : bKeyData)
    (hf : t.img = f) (h : f.item p i = some e) :
    ∃ off, p.entryOffsets[i]? = some off ∧
      ∃ t', readBKeyData t p.Pgno off = (.ok e, t') ∧ t'.img = f ∧ t'.pages = t.pages := by
  subst hf
  unfold Img.item at h
  cases hoff : p.entryOffsets[i]? with
  | none => rw [hoff] at h; exact absurd h (by simp)
  | some off =>
    rw [hoff] at h
    obtain ⟨t', h1, h2, h3⟩ := readBKeyData_ok t p.Pgno off e h
    exact ⟨off, rfl, t', h1, h2, h3⟩

theorem internals_cons (f : Img) (p : page) (cnt i : Nat) (x : bInternal) (xs : List bInternal)
    (h : f.internals p (cnt + 1) i = some (x :: xs)) :
    f.internal p i = some x ∧ f.internals p cnt (i + 1) = some xs := by
  simp only [Img.internals] at h
  split at h
  next e es h1 h2 =>
    simp only [Option.some.injEq, List.cons.injEq] at h
    rw [h1, h2, h.1, h.2]; exact ⟨rfl, rfl⟩
  next => exact absurd h (by simp)

theorem internals_length (f : Img) (p : page) : ∀ (cnt i : Nat) (es : List bInternal),
    f.internals p cnt i = some es → es.length = cnt
  | 0, _, es, h => by
    simp only [Img.internals, Option.some.injEq] at h
    subst h; rfl
  | cnt + 1, i, es, h => by
    cases es with
    | nil =>
      simp only [Img.internals] at h
      split at h
      · exact absurd h (by simp)
      · exact absurd h (by simp)
    | cons x xs =>
      have := internals_cons f p cnt i x xs h
      simp [internals_length f p cnt (i + 1) xs this.2]

/-- The scan of an internal page returns the entry described by `choose`. -/
theorem scanInternal_ok (f : Img) (p : page) (k : List Byte) :
    ∀ (rest : List bInternal) (i : Nat) (e : bInternal) (t : btree),
      t.img = f → f.internals p rest.length i = some rest →
      ∃ t', scanInternal p k rest.length i e t = (.done (choose k e rest), t') ∧
        t'.img = f ∧ t'.pages = t.pages
  | [], _, e, t, hf, _ => ⟨t, rfl, hf, rfl⟩
  | x :: xs, i, e, t, hf, h => by
    have hc := internals_cons f p xs.length i x xs h
    obtain ⟨off, hoff, t1, hr, hf1, hp1⟩ := readBInternal_img f t p i x hf hc.1
    simp only [List.length_cons, scanInternal, hoff, hr, choose]
    by_cases hlt : strLt k x.Data = true
    · simp only [hlt, if_true]
      exact ⟨t1, rfl, hf1, hp1⟩
    · simp only [hlt, if_false]
      obtain ⟨t2, h2, hf2, hp2⟩ := scanInternal_ok f p k xs (i + 1) x t1 hf1 hc.2
      exact ⟨t2, h2, hf2, hp2.trans hp1⟩

/-- The internal-page case of `search` settles on `choose k e0 rest`. -/
theorem chooseChild_ok (f : Img) (p : page) (k : List Byte) (e0 : bInternal)
    (rest : List bInternal) (t : btree) (hf : t.img = f)
    (h : f.internals p p.Entries 0 = some (e0 :: rest)) :
    ∃ t', chooseChild p k t = (.done (choose k e0 rest), t') ∧ t'.img = f ∧
      t'.pages = t.pages := by
  have hlen := internals_length f p p.Entries 0 _ h
  simp only [List.length_cons] at hlen
  rw [← hlen] at h
  have hc := internals_cons f p rest.length 0 e0 rest h
  obtain ⟨off, hoff, t1, hr, hf1, hp1⟩ := readBInternal_img f t p 0 e0 hf hc.1
  obtain ⟨t2, h2, hf2, hp2⟩ := scanInternal_ok f p k rest 1 e0 t1 hf1 hc.2
  refine ⟨t2, ?_, hf2, hp2.trans hp1⟩
  unfold chooseChild
  simp only [hoff, hr, ← hlen, Nat.add_sub_cancel]
  exact h2

theorem pairs_cons (f : Img) (p : page) (cnt i : Nat) (kv : List Byte × List Byte)
    (kvs : List (List Byte × List Byte)) (h : f.pairs p (cnt + 1) i = some (kv :: kvs)) :
    (∃ ke de, f.item p i = some ke ∧ f.item p (i + 1) = some de ∧ kv = (ke.Data, de.Data)) ∧
      f.pairs p cnt (i + 2) = some kvs := by
  simp only [Img.pairs] at h
  split at h
  next ke de r h1 h2 h3 =>
    simp only [Option.some.injEq, List.cons.injEq] at h
    refine ⟨⟨ke, de, h1, h2, h.1.symm⟩, ?_⟩
    rw [h3, h.2]
  next => exact absurd h (by simp)

theorem pairs_length (f : Img) (p : page) : ∀ (cnt i : Nat) (kvs : List (List Byte × List Byte)),
    f.pairs p cnt i = some kvs → kvs.length = cnt
  | 0, _, kvs, h => by
    simp only [Img.pairs, Option.some.injEq] at h
    subst h; rfl
  | cnt + 1, i, kvs, h => by
    cases kvs with
    | nil =>
      simp only [Img.pairs] at h
      split at h
      · exact absurd h (by simp)
      · exact absurd h (by simp)
    | cons x xs =>
      have := pairs_cons f p cnt i x xs h
      simp [pairs_length f p cnt (i + 2) xs this.2]

/-- Pair `j` of a leaf page sits at entries `i + 2j` (key) and `i + 2j + 1`
(data). -/
theorem pairs_get (f : Img) (p : page) : ∀ (kvs : List (List Byte × List Byte)) (i j : Nat)
    (key dat : List Byte), f.pairs p kvs.length i = some kvs → kvs[j]? = some (key, dat) →
    ∃ ke de, f.item p (i + 2 * j) = some ke ∧ ke.Data = key ∧
      f.item p (i + 2 * j + 1) = some de ∧ de.Data = dat
  | [], _, _, _, _, _, hj => by simp at hj
  | kv :: kvs, i, 0, key, dat, h, hj => by
    obtain ⟨⟨ke, de, h1, h2, h3⟩, _⟩ := pairs_cons f p kvs.length i kv kvs h
    simp only [List.getElem?_cons_zero, Option.some.injEq] at hj
    rw [hj] at h3
    simp only [Prod.mk.injEq] at h3
    exact ⟨ke, de, h1, h3.1.symm, h2, h3.2.symm⟩
  | kv :: kvs, i, j + 1, key, dat, h, hj => by
    obtain ⟨_, h4⟩ := pairs_cons f p kvs.length i kv kvs h
    simp only [List.getElem?_cons_succ] at hj
    obtain ⟨ke, de, h1, h2, h3, h5⟩ := pairs_get f p kvs (i + 2) j key dat h4 hj
    refine ⟨ke, de, ?_, h2, ?_, h5⟩
    · rw [← h1]; congr 1; omega
    · rw [← h3]; congr 1; omega

/-- The leaf scan stops at the first pair whose key equals the search key. -/
theorem scanLeaf_hit (f : Img) (p : page) (k : List Byte) :
    ∀ (kvs : List (List Byte × List Byte)) (i j : Nat) (dat : List Byte) (t : btree),
      t.img = f → f.pairs p kvs.length i = some kvs → kvs[j]? = some (k, dat) →
      (∀ j', j' < j → ∀ kv, kvs[j']? = some kv → kv.1 ≠ k) →
      ∃ t', scanLeaf p k kvs.length i t = (.ret p.Pgno ((i + 2 * j : Nat) : Int) none, t') ∧
        t'.img = f ∧ t'.pages = t.pages
  | [], _, _, _, _, _, _, hj, _ => by simp at hj
  | kv :: kvs, i, 0, dat, t, hf, h, hj, _ => by
    obtain ⟨⟨ke, de, h1, h2, h3⟩, _⟩ := pairs_cons f p kvs.length i kv kvs h
    simp only [List.getElem?_cons_zero, Option.some.injEq] at hj
    rw [hj] at h3
    simp only [Prod.mk.injEq] at h3
    obtain ⟨off, hoff, t1, hr, hf1, hp1⟩ := readBKeyData_img f t p i ke hf h1
    refine ⟨t1, ?_, hf1, hp1⟩
    simp only [List.length_cons, scanLeaf, hoff, hr, h3.1, if_true, Nat.mul_zero, Nat.add_zero]
  | kv :: kvs, i, j + 1, dat, t, hf, h, hj, hfirst => by
    obtain ⟨⟨ke, de, h1, h2, h3⟩, h4⟩ := pairs_cons f p kvs.length i kv kvs h
    have hne : ¬ k = ke.Data := by
      have := hfirst 0 (Nat.succ_pos j) kv (by simp)
      rw [h3] at this
      exact fun h => this h.symm
    obtain ⟨off, hoff, t1, hr, hf1, hp1⟩ := readBKeyData_img f t p i ke hf h1
    simp only [List.getElem?_cons_succ] at hj
    obtain ⟨t2, hs, hf2, hp2⟩ := scanLeaf_hit f p k kvs (i + 2) j dat t1 hf1 h4 hj
      (fun j' hj' kv' hkv' => hfirst (j' + 1) (Nat.succ_lt_succ hj') kv' (by simpa using hkv'))
    refine ⟨t2, ?_, hf2, hp2.trans hp1⟩
    simp only [List.length_cons, scanLeaf, hoff, hr, hne, if_false]
    rw [hs]
    have : i + 2 + 2 * j = i + 2 * (j + 1) := by omega
    rw [this]

/-- The leaf scan reports `NotFound` when no key equals the search key. -/
theorem scanLeaf_miss (f : Img) (p : page) (k : List Byte) :
    ∀ (kvs : List (List Byte × List Byte)) (i : Nat) (t : btree),
      t.img = f → f.pairs p kvs.length i = some kvs → (∀ kv ∈ kvs, kv.1 ≠ k) →
      ∃ t', scanLeaf p k kvs.length i t = (.ret 0 (-1) (some Err.NotFound), t') ∧
        t'.img = f ∧ t'.pages = t.pages
  | [], _, t, hf, _, _ => ⟨t, rfl, hf, rfl⟩
  | kv :: kvs, i, t, hf, h, hno => by
    obtain ⟨⟨ke, de, h1, h2, h3⟩, h4⟩ := pairs_cons f p kvs.length i kv kvs h
    have hne : ¬ k = ke.Data := by
      have := hno kv (by simp)
      rw [h3] at this
      exact fun h => this h.symm
    obtain ⟨off, hoff, t1, hr, hf1, hp1⟩ := readBKeyData_img f t p i ke hf h1
    obtain ⟨t2, hs, hf2, hp2⟩ := scanLeaf_miss f p k kvs (i + 2) t1 hf1 h4
      (fun kv' hkv' => hno kv' (List.mem_cons_of_mem _ hkv'))
    refine ⟨t2, ?_, hf2, hp2.trans hp1⟩
    simp only [List.length_cons, scanLeaf, hoff, hr, hne, if_false]
    exact hs

/-! ## `search` and `Get` on a well-formed tree -/

theorem treePage_spec (f : Img) (n : Nat) (p : page) (h : f.treePage n = some p) :
    n ≤ f.LastPgno ∧ pageAt f.s (f.base n) = some p ∧ p.Pgno = n := by
  unfold Img.treePage at h
  split at h
  next hc =>
    split at h
    next q hq =>
      split at h
      next hpg =>
        simp only [Option.some.injEq] at h
        subst h
        refine ⟨hc.1, ?_, hpg⟩
        unfold Img.base
        rw [Nat.mod_eq_of_lt hc.2]
        exact hq
      next => exact absurd h (by simp)
    next => exact absurd h (by simp)
  next => exact absurd h (by simp)

theorem wf_treePage (f : Img) (d n : Nat) (h : wf f d n = true) :
    ∃ p, f.treePage n = some p := by
  cases d with
  | zero => simp [wf] at h
  | succ d =>
    unfold wf at h
    cases hp : f.treePage n with
    | none => rw [hp] at h; simp at h
    | some p => exact ⟨p, rfl⟩

theorem mem_getElem?_first {α : Type} [DecidableEq α] (P : α → Prop) [DecidablePred P] :
    ∀ (l : List α), (∃ a ∈ l, P a) →
      ∃ (j : Nat) (a : α), l[j]? = some a ∧ P a ∧
        ∀ (j' : Nat), j' < j → ∀ (b : α), l[j']? = some b → ¬ P b
  | [], h => by obtain ⟨a, ha, _⟩ := h; simp at ha
  | x :: xs, h => by
    by_cases hx : P x
    · exact ⟨0, x, by simp, hx, fun j' hj' => absurd hj' (Nat.not_lt_zero _)⟩
    · have : ∃ a ∈ xs, P a := by
        obtain ⟨a, ha, hpa⟩ := h
        rcases List.mem_cons.1 ha with h1 | h1
        · subst h1; exact absurd hpa hx
        · exact ⟨a, h1, hpa⟩
      obtain ⟨j, a, hj, hpa, hfirst⟩ := mem_getElem?_first P xs this
      refine ⟨j + 1, a, by simpa using hj, hpa, ?_⟩
      intro j' hj' b hb
      cases j' with
      | zero =>
        simp only [List.getElem?_cons_zero, Option.some.injEq] at hb
        subst hb; exact hx
      | succ j'' =>
        simp only [List.getElem?_cons_succ] at hb
        exact hfirst j'' (by omega) b hb

theorem nodup_fst_unique (k d1 d2 : List Byte) :
    ∀ (kvs : List (List Byte × List Byte)), (kvs.map Prod.fst).Nodup →
      (k, d1) ∈ kvs → (k, d2) ∈ kvs → d1 = d2
  | [], _, h, _ => by simp at h
  | kv :: kvs, hn, h1, h2 => by
    simp only [List.map_cons, List.nodup_cons, List.mem_map, not_exists, not_and] at hn
    rcases List.mem_cons.1 h1 with e1 | m1
    · rcases List.mem_cons.1 h2 with e2 | m2
      · have := e1.trans e2.symm
        simp only [Prod.mk.injEq] at this
        exact this.2
      · exact absurd (show (k, d2).1 = kv.1 by rw [← e1]) (hn.1 (k, d2) m2)
    · rcases List.mem_cons.1 h2 with e2 | m2
      · exact absurd (show (k, d1).1 = kv.1 by rw [← e2]) (hn.1 (k, d1) m1)
      · exact nodup_fst_unique k d1 d2 kvs hn.2 m1 m2

/-- The leaf-page case of `search`: the first pair with the search key, or
`NotFound`. -/
theorem searchLoop_leaf (f : Img) (k : List Byte) (p : page) (t : btree) (fuel : Nat)
    (hf : t.img = f) (hty : p.Type_ = pageTypeLBTree) (heven : p.Entries % 2 = 0)
    (kvs : List (List Byte × List Byte)) (hkvs : f.pairs p (p.Entries / 2) 0 = some kvs) :
    ∃ r t', searchLoop k (fuel + 1) p t = some (r, t') ∧ t'.img = f ∧ t'.pages = t.pages ∧
      (∀ (j : Nat) (dat : List Byte), kvs[j]? = some (k, dat) →
        (∀ (j' : Nat), j' < j → ∀ kv, kvs[j']? = some kv → kv.1 ≠ k) →
        r = .ret p.Pgno ((2 * j : Nat) : Int) none) ∧
      ((∀ kv ∈ kvs, kv.1 ≠ k) → r = .ret 0 (-1) (some Err.NotFound)) := by
  have hlen := pairs_length f p _ _ _ hkvs
  have hcnt : (p.Entries + 1) / 2 = kvs.length := by omega
  have hnot : ¬ p.Type_ = pageTypeIBTree := by rw [hty]; decide
  have hloop : searchLoop k (fuel + 1) p t = some (scanLeaf p k kvs.length 0 t) := by
    have hnot' : ¬ pageTypeLBTree = pageTypeIBTree := by decide
    simp only [searchLoop, hty, hnot', if_false, if_true, hcnt]
  rw [← hlen] at hkvs
  by_cases hex : ∃ kv ∈ kvs, kv.1 = k
  · obtain ⟨j, a, hj, hpa, hfirst⟩ := mem_getElem?_first (fun kv : List Byte × List Byte => kv.1 = k) kvs hex
    obtain ⟨a1, a2⟩ := a
    simp only at hpa
    subst hpa
    obtain ⟨t', hs, hf', hp'⟩ := scanLeaf_hit f p a1 kvs 0 j a2 t hf hkvs hj hfirst
    refine ⟨_, t', by rw [hloop, hs], hf', hp', ?_, ?_⟩
    · intro j2 dat hj2 hfirst2
      have : j2 = j := by
        rcases Nat.lt_trichotomy j2 j with h | h | h
        · exact absurd rfl (hfirst j2 h _ hj2)
        · exact h
        · exact absurd rfl (hfirst2 j h _ hj)
      subst this
      simp
    · intro hno
      exact absurd rfl (hno _ (List.getElem?_mem hj))
  · have hno : ∀ kv ∈ kvs, kv.1 ≠ k := fun kv hkv h => hex ⟨kv, hkv, h⟩
    obtain ⟨t', hs, hf', hp'⟩ := scanLeaf_miss f p k kvs 0 t hf hkvs hno
    refine ⟨_, t', by rw [hloop, hs], hf', hp', ?_, ?_⟩
    · intro j dat hj _
      exact absurd rfl (hno _ (List.getElem?_mem hj))
    · intro _; rfl

/-- On a well-formed tree of depth at most `d`, the descent loop returns within
`d` steps: at a stored key it reports a leaf entry followed by the key's data
item, at any other key it reports `NotFound`. -/
theorem searchLoop_wf (f : Img) (k : List Byte) (hL : f.LastPgno + 1 < 2 ^ 32) :
    ∀ (d n : Nat) (p : page) (t : btree) (fuel : Nat),
      t.img = f → CacheOK f t.pages → wf f d n = true → f.treePage n = some p → d ≤ fuel →
      ∃ r t', searchLoop k fuel p t = some (r, t') ∧ t'.img = f ∧ CacheOK f t'.pages ∧
        (∀ dat, (k, dat) ∈ stored f d n →
          ∃ (n' i : Nat), r = .ret n' (i : Int) none ∧ LeafHit f n' i dat) ∧
        (k ∉ (stored f d n).map Prod.fst → r = .ret 0 (-1) (some Err.NotFound))
  | 0, _, _, _, _, _, _, hwf, _, _ => by simp [wf] at hwf
  | d + 1, n, p, t, 0, _, _, _, _, hfuel => by omega
  | d + 1, n, p, t, fuel + 1, hf, hc, hwf, hp, hfuel => by
    have hst : stored f (d + 1) n =
        if p.Type_ = pageTypeLBTree then (f.pairs p (p.Entries / 2) 0).getD []
        else if p.Type_ = pageTypeIBTree then
          ((f.internals p p.Entries 0).getD []).flatMap (fun e => stored f d e.Pgno)
        else [] := by
      simp only [stored, hp]
    simp only [wf, hp] at hwf
    by_cases hleaf : p.Type_ = pageTypeLBTree
    · -- leaf page
      simp only [hleaf, if_true, Bool.and_eq_true, decide_eq_true_eq] at hwf hst
      obtain ⟨heven, hwf2⟩ := hwf
      cases hkvs : f.pairs p (p.Entries / 2) 0 with
      | none => rw [hkvs] at hwf2; exact absurd hwf2 (by simp)
      | some kvs =>
        rw [hkvs] at hwf2 hst
        simp only [decide_eq_true_eq] at hwf2
        simp only [Option.getD_some] at hst
        obtain ⟨r, t', hs, hf', hp', hhit, hmiss⟩ :=
          searchLoop_leaf f k p t fuel hf hleaf heven kvs hkvs
        refine ⟨r, t', hs, hf', by rw [hp']; exact hc, ?_, ?_⟩
        · intro dat hmem
          rw [hst] at hmem
          obtain ⟨j, hj⟩ := List.mem_iff_getElem?.1 hmem
          have hfirst : ∀ (j' : Nat), j' < j → ∀ kv, kvs[j']? = some kv → kv.1 ≠ k := by
            intro j' hj' kv hkv hk
            obtain ⟨kv1, kv2⟩ := kv
            simp only at hk
            subst hk
            -- two positions with the same key contradict distinctness
            have hlt : j < kvs.length := by
              rcases Nat.lt_or_ge j kvs.length with h | h
              · exact h
              · rw [List.getElem?_eq_none h] at hj; exact absurd hj (by simp)
            have h1 : (kvs.map Prod.fst)[j']? = some kv1 := by
              rw [List.getElem?_map, hkv]; rfl
            have h2 : (kvs.map Prod.fst)[j]? = some kv1 := by
              rw [List.getElem?_map, hj]; rfl
            have hlt' : j < (kvs.map Prod.fst).length := by simpa using hlt
            have hlt'' : j' < (kvs.map Prod.fst).length := by omega
            rw [List.getElem?_eq_getElem hlt''] at h1
            rw [List.getElem?_eq_getElem hlt'] at h2
            have := (List.Nodup.getElem_inj_iff hwf2).1
              ((Option.some.inj h1).trans (Option.some.inj h2).symm)
            omega
          have hr := hhit j dat hj hfirst
          obtain ⟨ke, de, _, _, h3, h4⟩ := pairs_get f p kvs 0 j k dat
            (by rw [pairs_length f p _ _ _ hkvs]; exact hkvs) hj
          refine ⟨p.Pgno, 2 * j, hr, ?_⟩
          rw [(treePage_spec f n p hp).2.2]
          exact ⟨p, hp, de, by simpa using h3, h4⟩
        · intro hno
          rw [hst] at hno
          apply hmiss
          intro kv hkv hk
          exact hno (List.mem_map.2 ⟨kv, hkv, hk⟩)
    · -- internal page
      simp only [hleaf, if_false] at hwf hst
      by_cases hint : p.Type_ = pageTypeIBTree
      · simp only [hint, if_true] at hwf hst
        cases hes : f.internals p p.Entries 0 with
        | none => rw [hes] at hwf; exact absurd hwf (by simp)
        | some es =>
          cases es with
          | nil => rw [hes] at hwf; exact absurd hwf (by simp)
          | cons e0 rest =>
            rw [hes] at hwf hst
            simp only [Bool.and_eq_true, List.all_eq_true, Option.getD_some] at hwf hst
            obtain ⟨⟨hsorted, hchildren⟩, hranges⟩ := hwf
            obtain ⟨t1, hcc, hf1, hp1⟩ := chooseChild_ok f p k e0 rest t hf hes
            have hcmem := choose_mem k rest e0
            have hcwf := hchildren _ hcmem
            obtain ⟨p', hp'⟩ := wf_treePage f d _ hcwf
            obtain ⟨hle, hpa, _⟩ := treePage_spec f _ p' hp'
            obtain ⟨t2, hg, hf2, hc2⟩ := getPage_ok f t1 _ p' hf1 (by rw [hp1]; exact hc) hL hle hpa
            obtain ⟨r, t', hs, hf', hc', hhit, hmiss⟩ :=
              searchLoop_wf f k hL d _ p' t2 fuel hf2 hc2 hcwf hp' (by omega)
            refine ⟨r, t', ?_, hf', hc', ?_, ?_⟩
            · simp only [searchLoop, hint, if_true, hcc, hg]
              exact hs
            · intro dat hmem
              rw [hst] at hmem
              exact hhit dat (stored_choose f d k dat rest e0 none hsorted hranges hmem)
            · intro hno
              apply hmiss
              intro hin
              apply hno
              rw [hst]
              obtain ⟨kv, hkv, hk⟩ := List.mem_map.1 hin
              exact List.mem_map.2 ⟨kv, List.mem_flatMap.2 ⟨_, hcmem, hkv⟩, hk⟩
      · simp only [hint, if_false] at hwf
        exact absurd hwf (by simp)

/-- After a successful `search`, `Get` fetches the reported page again and
hands back the payload of the entry after the matched key. -/
theorem Get_of_hit (f : Img) (t t1 : btree) (k : List Byte) (fuel n i : Nat) (dat : List Byte)
    (hL : f.LastPgno + 1 < 2 ^ 32)
    (hs : search fuel t k = some (.ret n (i : Int) none, t1)) (hf1 : t1.img = f)
    (hc1 : CacheOK f t1.pages) (hit : LeafHit f n i dat) :
    ∃ t', Get fuel t k = some (.ok dat, t') ∧ t'.img = f ∧ CacheOK f t'.pages := by
  obtain ⟨p, hp, de, hde, hdat⟩ := hit
  obtain ⟨hle, hpa, hpg⟩ := treePage_spec f n p hp
  obtain ⟨t2, hg, hf2, hc2⟩ := getPage_ok f t1 n p hf1 hc1 hL hle hpa
  obtain ⟨off, hoff, t3, hr, hf3, hp3⟩ := readBKeyData_img f t2 p (i + 1) de hf2 hde
  refine ⟨t3, ?_, hf3, by rw [hp3]; exact hc2⟩
  have hneg : ¬ ((i : Int) < 0) := by omega
  have hidx : ((i : Int) + 1).toNat = i + 1 := by omega
  rw [hpg] at hr
  simp only [Get, hs, hneg, if_false, hg, hidx, hoff, hr, hdat]

theorem Get_of_error (t t1 : btree) (k : List Byte) (fuel n : Nat) (i : Int) (e : Err)
    (hs : search fuel t k = some (.ret n i (some e), t1)) :
    Get fuel t k = some (.error e, t1) := by
  simp only [Get, hs]

/-- `search` on a reader whose cache agrees with a well-formed file. -/
theorem search_wf (f : Img) (t : btree) (k : List Byte) (d fuel : Nat)
    (hL : f.LastPgno + 1 < 2 ^ 32) (hf : t.img = f) (hc : CacheOK f t.pages)
    (hwf : wf f d f.Root = true) (hfuel : d ≤ fuel) :
    ∃ r t', search fuel t k = some (r, t') ∧ t'.img = f ∧ CacheOK f t'.pages ∧
      (∀ dat, (k, dat) ∈ stored f d f.Root →
        ∃ (n' i : Nat), r = .ret n' (i : Int) none ∧ LeafHit f n' i dat) ∧
      (k ∉ (stored f d f.Root).map Prod.fst → r = .ret 0 (-1) (some Err.NotFound)) := by
  obtain ⟨p, hp⟩ := wf_treePage f d _ hwf
  obtain ⟨hle, hpa, _⟩ := treePage_spec f _ p hp
  have hroot : t.Root = f.Root := by rw [← hf]; rfl
  obtain ⟨t1, hg, hf1, hc1⟩ := getPage_ok f t f.Root p hf hc hL hle hpa
  obtain ⟨r, t', hs, hf', hc', hhit, hmiss⟩ :=
    searchLoop_wf f k hL d f.Root p t1 fuel hf1 hc1 hwf hp hfuel
  refine ⟨r, t', ?_, hf', hc', hhit, hmiss⟩
  simp only [search, hroot, hg]
  exact hs

theorem CacheOK_nil (f : Img) : CacheOK f [] :=
  ⟨Or.inl rfl, fun n p h => by simp at h⟩

/-! ## C1 -/

set_option maxRecDepth 100000 in
/-- C1, as stated, fails, in two ways.  First, `treeFileMax` is the
well-formed tree of `treeFile` under a metadata page that declares the last
page number `2 ^ 32 - 1`: the pair `("c", "3")` is stored, and `Get "c"`
panics, because the page cache is allocated with `LastPgno + 1` slots, a
32-bit sum that wraps to 0.  Second, `lastItem` is a leaf root holding the
pair `("a", "")`, the header of the empty data item being the last three
bytes of the file: every item lies inside the file, the tree is well formed
under a stream that accepts an empty read at its end, and there `Get "a"`
returns the empty item; under a stream that reports `io.EOF` for an empty
read at its end (`bytes.Reader`), `readBKeyData` fails on the data item and
`Get "a"` panics. -/
theorem get_wellformed_fails :
    (wf (readerOn treeFileMax true).img 2 (readerOn treeFileMax true).Root = true ∧
      (str "c", str "3") ∈
        stored (readerOn treeFileMax true).img 2 (readerOn treeFileMax true).Root ∧
      (readerOn treeFileMax true).LastPgno = 4294967295 ∧
      (Get 2 (readerOn treeFileMax true) (str "c")).map Prod.fst = some .panic) ∧
    (lastItem.length = 640 ∧
      (readerOn lastItem true).img.treePage (readerOn lastItem true).Root = some lastItemRoot ∧
      lastItemRoot.Type_ = pageTypeLBTree ∧ lastItemRoot.Entries = 2 ∧
      4 * 128 + 30 + 3 + u16 lastItem (4 * 128 + 30) ≤ lastItem.length ∧
      bytesAt lastItem (4 * 128 + 30 + 3) (u16 lastItem (4 * 128 + 30)) = str "a" ∧
      u16 lastItem (4 * 128 + 125) = 0 ∧
      4 * 128 + 125 + 3 + u16 lastItem (4 * 128 + 125) ≤ lastItem.length ∧
      wf (readerOn lastItem false).img 1 (readerOn lastItem false).Root = true ∧
      stored (readerOn lastItem false).img 1 (readerOn lastItem false).Root = [(str "a", [])] ∧
      (Get 1 (readerOn lastItem false) (str "a")).map Prod.fst = some (.ok []) ∧
      (readBKeyData (readerOn lastItem true) 4 125).1 = .error Err.EOF ∧
      (Get 1 (readerOn lastItem true) (str "a")).map Prod.fst = some .panic) := by
  decide

/-- C1, amended: let the file encode a well-formed btree of depth at most `d`
under the root (`wf`: every page of the tree has a page number up to
`LastPgno`, lies at `n * PageSize` below `2 ^ 32` with header and entry-offset
table inside the file, and carries its own number in its header; internal
pages have at least one entry, entries whose 12-byte header and key lie inside
the file, keys sorted ascending from index 1 on, and subtrees whose keys lie
between the entry's key and the next entry's key; leaf pages have an even
entry count, items whose 3-byte header and payload lie inside the file, and
distinct keys; and on a stream that reports `io.EOF` for an empty read at its
end no zero-length item or keyless entry has its header end the stream), let
`LastPgno` be below `2 ^ 32 - 1`, and let the reader's cache agree with the
file.  Then for every step bound of at least `d`, `Get k` returns the data
item paired with `k` for every stored key `k`, and fails with `NotFound` for
every key that is not stored. -/
theorem get_wellformed (t : btree) (d fuel : Nat) (k : List Byte)
    (hL : t.LastPgno + 1 < 2 ^ 32) (hc : CacheOK t.img t.pages)
    (hwf : wf t.img d t.Root = true) (hfuel : d ≤ fuel) :
    (∀ dat, (k, dat) ∈ stored t.img d t.Root →
      ∃ t', Get fuel t k = some (.ok dat, t')) ∧
    (k ∉ (stored t.img d t.Root).map Prod.fst →
      ∃ t', Get fuel t k = some (.error Err.NotFound, t')) := by
  obtain ⟨r, t1, hs, hf1, hc1, hhit, hmiss⟩ :=
    search_wf t.img t k d fuel hL rfl hc hwf hfuel
  constructor
  · intro dat hmem
    obtain ⟨n', i, hr, hit⟩ := hhit dat hmem
    rw [hr] at hs
    obtain ⟨t', hg, _, _⟩ := Get_of_hit t.img t t1 k fuel n' i dat hL hs hf1 hc1 hit
    exact ⟨t', hg⟩
  · intro hno
    rw [hmiss hno] at hs
    exact ⟨t1, Get_of_error t t1 k fuel 0 (-1) Err.NotFound hs⟩

set_option maxRecDepth 100000 in
theorem get_wellformed_witness :
    ((readerOn treeFile true).LastPgno + 1 < 2 ^ 32 ∧
      wf (readerOn treeFile true).img 2 (readerOn treeFile true).Root = true ∧
      (str "c", str "3") ∈
        stored (readerOn treeFile true).img 2 (readerOn treeFile true).Root ∧
      str "cc" ∉
        (stored (readerOn treeFile true).img 2 (readerOn treeFile true).Root).map Prod.fst) ∧
    (∃ t', Get 2 (readerOn treeFile true) (str "c") = some (.ok (str "3"), t')) ∧
    (∃ t', Get 2 (readerOn treeFile true) (str "cc") = some (.error Err.NotFound, t')) :=
  ⟨⟨by decide, by decide, by decide, by decide⟩,
    (get_wellformed (readerOn treeFile true) 2 2 (str "c") (by decide)
      (CacheOK_nil _) (by decide) (by decide)).1 (str "3") (by decide),
    (get_wellformed (readerOn treeFile true) 2 2 (str "cc") (by decide)
      (CacheOK_nil _) (by decide) (by decide)).2 (by decide)⟩


/-! ## C2 -/

theorem HasKey_of_found (t t1 : btree) (k : List Byte) (fuel n : Nat) (i : Int)
    (hs : search fuel t k = some (.ret n i none, t1)) :
    HasKey fuel t k = some (.ret true none, t1) := by
  simp only [HasKey, hs]
  rfl

/-- C2, as stated, fails: page 4 is the root, a leaf holding `alpha, 1, beta, 2`
inside the file (at its own position, and also where the code looks for its
entries), but its header carries page number 5.  `search` finds `alpha` at
entry 0 and reports page 5; `Get` fetches page 5 and takes the data item from
that page's entry-offset table, so `Get "alpha"` returns `2`, not `1`. -/
theorem leaf_get_mislabelled :
    (readerOn mislabelled true).Root = 4 ∧ (readerOn mislabelled true).PageSize = 128 ∧
    pageAt mislabelled (4 * 128) = some mislabelledRoot ∧
    mislabelledRoot.Type_ = pageTypeLBTree ∧
    (itemAt mislabelled true (4 * 128 + 34)).map (fun e => e.Data) = some (str "alpha") ∧
    (itemAt mislabelled true (4 * 128 + 42)).map (fun e => e.Data) = some (str "1") ∧
    (itemAt mislabelled true (4 * 128 + 46)).map (fun e => e.Data) = some (str "beta") ∧
    (itemAt mislabelled true (4 * 128 + 53)).map (fun e => e.Data) = some (str "2") ∧
    (readerOn mislabelled true).img.pairs mislabelledRoot 2 0 =
      some [(str "alpha", str "1"), (str "beta", str "2")] ∧
    (Get 2 (readerOn mislabelled true) (str "alpha")).map Prod.fst = some (.ok (str "2")) := by
  set_option maxRecDepth 100000 in decide

/-- C2, amended: let the root page number be at most `LastPgno`, itself below
`2 ^ 32 - 1`, let the root page lie at `Root * PageSize` below `2 ^ 32` with
header and entry-offset table inside the file and carry the root page number
in its header, and let the reader's cache agree with the file.  A leaf root
with an even entry count whose items all have their 3-byte header and payload
inside the file (and, on a stream that reports `io.EOF` for an empty read at
its end, no zero-length item whose header ends the stream) answers `Get k`
with the data item of the first pair whose key equals `k` (and `HasKey k` is
true), and with `NotFound` when no key equals `k`, whatever the data items
are. -/
theorem leaf_root_get (t : btree) (p : page) (kvs : List (List Byte × List Byte))
    (k : List Byte) (fuel : Nat)
    (hL : t.LastPgno + 1 < 2 ^ 32) (hc : CacheOK t.img t.pages)
    (hp : t.img.treePage t.Root = some p) (hty : p.Type_ = pageTypeLBTree)
    (heven : p.Entries % 2 = 0) (hkvs : t.img.pairs p (p.Entries / 2) 0 = some kvs)
    (hfuel : 1 ≤ fuel) :
    (∀ (j : Nat) (dat : List Byte), kvs[j]? = some (k, dat) →
      (∀ (j' : Nat), j' < j → ∀ kv, kvs[j']? = some kv → kv.1 ≠ k) →
      (∃ t', Get fuel t k = some (.ok dat, t')) ∧
      (∃ t', HasKey fuel t k = some (.ret true none, t'))) ∧
    ((∀ kv ∈ kvs, kv.1 ≠ k) → ∃ t', Get fuel t k = some (.error Err.NotFound, t')) := by
  obtain ⟨fuel', rfl⟩ : ∃ m, fuel = m + 1 := ⟨fuel - 1, by omega⟩
  obtain ⟨hle, hpa, hpg⟩ := treePage_spec t.img _ p hp
  obtain ⟨t1, hg, hf1, hc1⟩ := getPage_ok t.img t t.Root p rfl hc hL hle hpa
  obtain ⟨r, t2, hs, hf2, hp2, hhit, hmiss⟩ :=
    searchLoop_leaf t.img k p t1 fuel' hf1 hty heven kvs hkvs
  have hsearch : search (fuel' + 1) t k = some (r, t2) := by
    simp only [search, hg]; exact hs
  constructor
  · intro j dat hj hfirst
    rw [hhit j dat hj hfirst] at hsearch
    obtain ⟨ke, de, _, _, h3, h4⟩ := pairs_get t.img p kvs 0 j k dat
      (by rw [pairs_length _ p _ _ _ hkvs]; exact hkvs) hj
    have hit : LeafHit t.img p.Pgno (2 * j) dat := by
      rw [hpg]; exact ⟨p, hp, de, by simpa using h3, h4⟩
    obtain ⟨t', hget, _, _⟩ := Get_of_hit t.img t t2 k (fuel' + 1) p.Pgno (2 * j) dat hL
      hsearch hf2 (by rw [hp2]; exact hc1) hit
    exact ⟨⟨t', hget⟩, ⟨t2, HasKey_of_found t t2 k _ _ _ hsearch⟩⟩
  · intro hno
    rw [hmiss hno] at hsearch
    exact ⟨t2, Get_of_error t t2 k _ 0 (-1) Err.NotFound hsearch⟩


set_option maxRecDepth 100000 in
theorem leaf_root_get_witness :
    ((readerOn alphaBeta true).img.treePage (readerOn alphaBeta true).Root = some alphaBetaRoot ∧
      alphaBetaRoot.Type_ = pageTypeLBTree ∧ alphaBetaRoot.Entries % 2 = 0 ∧
      (readerOn alphaBeta true).img.pairs alphaBetaRoot (alphaBetaRoot.Entries / 2) 0 =
        some [(str "alpha", str "1"), (str "beta", str "2")]) ∧
    (∃ t', Get 1 (readerOn alphaBeta true) (str "beta") = some (.ok (str "2"), t')) ∧
    (∃ t', Get 1 (readerOn alphaBeta true) (str "gamma") = some (.error Err.NotFound, t')) ∧
    (∃ t', HasKey 1 (readerOn alphaBeta true) (str "alpha") = some (.ret true none, t')) :=
  ⟨⟨by decide, by decide, by decide, by decide⟩,
    ((leaf_root_get (readerOn alphaBeta true) alphaBetaRoot
      [(str "alpha", str "1"), (str "beta", str "2")] (str "beta") 1 (by decide)
      (CacheOK_nil _) (by decide) (by decide) (by decide) (by decide) (by decide)).1
      1 (str "2") (by decide) (by decide)).1,
    (leaf_root_get (readerOn alphaBeta true) alphaBetaRoot
      [(str "alpha", str "1"), (str "beta", str "2")] (str "gamma") 1 (by decide)
      (CacheOK_nil _) (by decide) (by decide) (by decide) (by decide) (by decide)).2
      (by decide),
    ((leaf_root_get (readerOn alphaBeta true) alphaBetaRoot
      [(str "alpha", str "1"), (str "beta", str "2")] (str "alpha") 1 (by decide)
      (CacheOK_nil _) (by decide) (by decide) (by decide) (by decide) (by decide)).1
      0 (str "1") (by decide) (by decide)).2⟩

/-! ## C3 -/

theorem sortedKeys_lt_all (k : List Byte) : ∀ (xs : List bInternal) (x : bInternal),
    sortedKeys (x :: xs) = true → strLt k x.Data = true →
    ∀ e ∈ x :: xs, strLt k e.Data = true
  | [], x, _, hlt, e, he => by
    simp only [List.mem_singleton] at he
    subst he; exact hlt
  | y :: ys, x, hs, hlt, e, he => by
    rcases List.mem_cons.1 he with h | h
    · subst h; exact hlt
    · have hxy : strLt y.Data x.Data = false := by
        simp only [sortedKeys, Bool.and_eq_true, Bool.not_eq_true'] at hs
        exact hs.1
      exact sortedKeys_lt_all k ys y (sortedKeys_tail x (y :: ys) hs)
        (strLt_of_lt_of_le k x.Data y.Data hlt hxy) e h

/-- The entry that the scan settles on sits at the greatest index whose key is
not above the search key, or at index 0. -/
theorem choose_greatest (k : List Byte) : ∀ (rest : List bInternal) (e0 : bInternal),
    sortedKeys rest = true →
    ∃ (i : Nat), (e0 :: rest)[i]? = some (choose k e0 rest) ∧
      ((1 ≤ i ∧ strLt k (choose k e0 rest).Data = false) ∨ i = 0) ∧
      ∀ (j : Nat) (e : bInternal), i < j → (e0 :: rest)[j]? = some e → strLt k e.Data = true
  | [], e0, _ => by
    refine ⟨0, by simp [choose], Or.inr rfl, ?_⟩
    intro j e hj he
    cases j with
    | zero => omega
    | succ j => simp at he
  | x :: xs, e0, hs => by
    by_cases hlt : strLt k x.Data = true
    · refine ⟨0, by simp [choose, hlt], Or.inr rfl, ?_⟩
      intro j e hj he
      cases j with
      | zero => omega
      | succ j =>
        simp only [List.getElem?_cons_succ] at he
        exact sortedKeys_lt_all k xs x hs hlt e (List.getElem?_mem he)
    · obtain ⟨i, hi, hle, hgt⟩ := choose_greatest k xs x (sortedKeys_tail x xs hs)
      have hch : choose k e0 (x :: xs) = choose k x xs := by simp [choose, hlt]
      refine ⟨i + 1, by rw [hch]; simpa using hi, Or.inl ⟨by omega, ?_⟩, ?_⟩
      · rw [hch]
        rcases hle with h | h
        · exact h.2
        · subst h
          simp only [List.getElem?_cons_zero, Option.some.injEq] at hi
          rw [← hi]
          simpa using hlt
      · intro j e hj he
        cases j with
        | zero => omega
        | succ j =>
          simp only [List.getElem?_cons_succ] at he
          exact hgt j e (by omega) he

/-- C3: on an internal-btree page whose entries `e0 :: rest` decode and whose
keys from index 1 on are sorted ascending, the scan of `search` settles on the
entry with the greatest index `i ≥ 1` whose key is at most `k` (byte-wise), or
on entry 0 when there is none, and the descent loop continues with the page
that entry references. -/
theorem search_descends (t : btree) (p : page) (k : List Byte) (e0 : bInternal)
    (rest : List bInternal) (fuel : Nat) (hty : p.Type_ = pageTypeIBTree)
    (hes : t.img.internals p p.Entries 0 = some (e0 :: rest))
    (hs : sortedKeys rest = true) :
    ∃ (i : Nat) (c : bInternal) (t' : btree),
      (e0 :: rest)[i]? = some c ∧
      ((1 ≤ i ∧ strLt k c.Data = false) ∨ i = 0) ∧
      (∀ (j : Nat) (e : bInternal), i < j → (e0 :: rest)[j]? = some e →
        strLt k e.Data = true) ∧
      chooseChild p k t = (.done c, t') ∧ t'.img = t.img ∧ t'.pages = t.pages ∧
      searchLoop k (fuel + 1) p t =
        (match getPage t' c.Pgno with
         | (.ok p', t2) => searchLoop k fuel p' t2
         | (.error _, t2) => some (.panic, t2)
         | (.panic, t2) => some (.panic, t2)) := by
  obtain ⟨i, hi, hle, hgt⟩ := choose_greatest k rest e0 hs
  obtain ⟨t', hcc, hf', hp'⟩ := chooseChild_ok t.img p k e0 rest t rfl hes
  refine ⟨i, choose k e0 rest, t', hi, hle, hgt, hcc, hf', hp', ?_⟩
  simp only [searchLoop, hty, if_true, hcc]


set_option maxRecDepth 100000 in
theorem search_descends_witness :
    (treeRoot.Type_ = pageTypeIBTree ∧
      (readerOn treeFile true).img.internals treeRoot treeRoot.Entries 0 =
        some [internalEntry 5 [], internalEntry 6 (str "b"), internalEntry 7 (str "d")] ∧
      sortedKeys [internalEntry 6 (str "b"), internalEntry 7 (str "d")] = true) ∧
    ((chooseChild treeRoot (str "c") (readerOn treeFile true)).1 =
        .done (internalEntry 6 (str "b")) ∧
      (chooseChild treeRoot (str "a") (readerOn treeFile true)).1 =
        .done (internalEntry 5 []) ∧
      (chooseChild treeRoot (str "e") (readerOn treeFile true)).1 =
        .done (internalEntry 7 (str "d"))) ∧
    ∃ (i : Nat) (c : bInternal) (t' : btree),
      [internalEntry 5 [], internalEntry 6 (str "b"), internalEntry 7 (str "d")][i]? = some c ∧
      ((1 ≤ i ∧ strLt (str "c") c.Data = false) ∨ i = 0) ∧
      (∀ (j : Nat) (e : bInternal), i < j →
        [internalEntry 5 [], internalEntry 6 (str "b"), internalEntry 7 (str "d")][j]? = some e →
        strLt (str "c") e.Data = true) ∧
      chooseChild treeRoot (str "c") (readerOn treeFile true) = (.done c, t') ∧
      t'.img = (readerOn treeFile true).img ∧ t'.pages = (readerOn treeFile true).pages ∧
      searchLoop (str "c") (1 + 1) treeRoot (readerOn treeFile true) =
        (match getPage t' c.Pgno with
         | (.ok p', t2) => searchLoop (str "c") 1 p' t2
         | (.error _, t2) => some (.panic, t2)
         | (.panic, t2) => some (.panic, t2)) :=
  ⟨⟨by decide, by decide, by decide⟩, ⟨by decide, by decide, by decide⟩,
    search_descends (readerOn treeFile true) treeRoot (str "c") (internalEntry 5 [])
      [internalEntry 6 (str "b"), internalEntry 7 (str "d")] 1 (by decide) (by decide)
      (by decide)⟩

/-! ## C4 -/

theorem scanLeaf_found (p : page) (k : List Byte) :
    ∀ (rem i : Nat) (t : btree) (n : Nat) (j : Int) (t1 : btree),
      scanLeaf p k rem i t = (.ret n j none, t1) → 0 ≤ j
  | 0, _, _, _, _, _, h => by simp [scanLeaf] at h
  | rem + 1, i, t, n, j, t1, h => by
    simp only [scanLeaf] at h
    split at h
    · simp at h
    · split at h
      · simp at h
      · simp at h
      · split at h
        · simp only [Prod.mk.injEq, SearchRet.ret.injEq, and_true] at h
          omega
        · exact scanLeaf_found p k rem (i + 2) _ n j t1 h

theorem scanInternal_exit (p : page) (k : List Byte) :
    ∀ (rem i : Nat) (e : bInternal) (t : btree) (n : Nat) (j : Int) (t1 : btree),
      scanInternal p k rem i e t ≠ (.exit (.ret n j none), t1)
  | 0, _, _, _, _, _, _, h => by simp [scanInternal] at h
  | rem + 1, i, e, t, n, j, t1, h => by
    simp only [scanInternal] at h
    split at h
    · simp at h
    · split at h
      · simp at h
      · simp at h
      · split at h
        · simp at h
        · exact scanInternal_exit p k rem (i + 1) _ _ n j t1 h

theorem chooseChild_exit (p : page) (k : List Byte) (t : btree) (n : Nat) (j : Int)
    (t1 : btree) : chooseChild p k t ≠ (.exit (.ret n j none), t1) := by
  intro h
  simp only [chooseChild] at h
  split at h
  · simp at h
  · split at h
    · simp at h
    · simp at h
    · exact scanInternal_exit p k _ _ _ _ n j t1 h

theorem searchLoop_found (k : List Byte) :
    ∀ (fuel : Nat) (p : page) (t : btree) (n : Nat) (j : Int) (t1 : btree),
      searchLoop k fuel p t = some (.ret n j none, t1) → 0 ≤ j
  | 0, _, _, _, _, _, h => by simp [searchLoop] at h
  | fuel + 1, p, t, n, j, t1, h => by
    simp only [searchLoop] at h
    split at h
    · split at h
      next r t2 hcc =>
        simp only [Option.some.injEq, Prod.mk.injEq] at h
        rw [h.1, h.2] at hcc
        exact absurd hcc (chooseChild_exit p k t n j t1)
      next e t2 hcc =>
        split at h
        · exact searchLoop_found k fuel _ _ n j t1 h
        · simp at h
        · simp at h
    · split at h
      · simp only [Option.some.injEq] at h
        exact scanLeaf_found p k _ _ _ n j t1 h
      · simp at h

/-- A `search` that returns without error reports a non-negative index. -/
theorem search_found (fuel : Nat) (t : btree) (k : List Byte) (n : Nat) (j : Int)
    (t1 : btree) (h : search fuel t k = some (.ret n j none, t1)) : 0 ≤ j := by
  simp only [search] at h
  split at h
  · simp at h
  · simp at h
  · exact searchLoop_found k fuel _ _ n j t1 h

theorem HasKey_true_iff (fuel : Nat) (t t1 : btree) (k : List Byte) :
    HasKey fuel t k = some (.ret true none, t1) ↔
      ∃ (n : Nat) (i : Int), search fuel t k = some (.ret n i none, t1) := by
  constructor
  · intro h
    simp only [HasKey] at h
    split at h
    · simp at h
    · simp at h
    next n i err t2 hs =>
      split at h
      · simp at h
      · simp only [Option.some.injEq, Prod.mk.injEq, HasKeyRet.ret.injEq] at h
        obtain ⟨⟨_, herr⟩, ht⟩ := h
        subst herr; subst ht
        exact ⟨n, i, hs⟩
  · rintro ⟨n, i, hs⟩
    exact HasKey_of_found t t1 k fuel n i hs

theorem Get_ok_iff (fuel : Nat) (t t3 : btree) (k dat : List Byte) :
    Get fuel t k = some (.ok dat, t3) ↔
      ∃ (n : Nat) (i : Int) (t1 : btree) (p : page) (t2 : btree) (off : Nat) (e : bKeyData),
        search fuel t k = some (.ret n i none, t1) ∧ getPage t1 n = (.ok p, t2) ∧
        p.entryOffsets[(i + 1).toNat]? = some off ∧ readBKeyData t2 n off = (.ok e, t3) ∧
        e.Data = dat := by
  constructor
  · intro h
    simp only [Get] at h
    split at h
    · simp at h
    · simp at h
    · simp at h
    next n i t1 hs =>
      split at h
      · simp at h
      · split at h
        · simp at h
        · simp at h
        next p t2 hg =>
          split at h
          · simp at h
          next off hoff =>
            split at h
            next e t3' hr =>
              simp only [Option.some.injEq, Prod.mk.injEq, Result.ok.injEq] at h
              obtain ⟨hd, ht⟩ := h
              subst ht
              exact ⟨n, i, t1, p, t2, off, e, hs, hg, hoff, hr, hd⟩
            · simp at h
            · simp at h
  · rintro ⟨n, i, t1, p, t2, off, e, hs, hg, hoff, hr, hd⟩
    have hi := search_found fuel t k n i t1 hs
    have hneg : ¬ i < 0 := by omega
    simp only [Get, hs, hneg, if_false, hg, hoff, hr, hd]

/-- C4, as stated, fails.  On a leaf root with the single entry `alpha` (an odd
entry count) `HasKey "alpha"` is true and `Get "alpha"` panics on
`p.entryOffsets[i+1]`; on a leaf root whose header carries a page number above
`LastPgno`, `HasKey "alpha"` is true and `Get "alpha"` returns the
out-of-range error. -/
theorem haskey_true_get_fails :
    (HasKey 1 (readerOn oddLeaf true) (str "alpha")).map Prod.fst = some (.ret true none) ∧
    (Get 1 (readerOn oddLeaf true) (str "alpha")).map Prod.fst = some .panic ∧
    (HasKey 1 (readerOn beyondLast true) (str "alpha")).map Prod.fst =
      some (.ret true none) ∧
    (Get 1 (readerOn beyondLast true) (str "alpha")).map Prod.fst =
      some (.error Err.pageIndexOutOfRange) := by
  set_option maxRecDepth 100000 in decide

/-- C4, amended: for every reader state, key and step bound, a successful
`Get k` implies that `HasKey k` returns true without error; and when `HasKey k`
returns true, `search` has reported a page `n` and an entry `i ≥ 0`, and
`Get k` succeeds exactly when page `n` can be fetched, its entry-offset table
has an index `i + 1`, and the item there decodes. -/
theorem haskey_get (fuel : Nat) (t : btree) (k : List Byte) :
    ((∃ dat t', Get fuel t k = some (.ok dat, t')) →
      ∃ t', HasKey fuel t k = some (.ret true none, t')) ∧
    (∀ t1, HasKey fuel t k = some (.ret true none, t1) →
      ∃ (n : Nat) (i : Int), search fuel t k = some (.ret n i none, t1) ∧ 0 ≤ i ∧
        ∀ dat t3, (Get fuel t k = some (.ok dat, t3) ↔
          ∃ (p : page) (t2 : btree) (off : Nat) (e : bKeyData),
            getPage t1 n = (.ok p, t2) ∧ p.entryOffsets[(i + 1).toNat]? = some off ∧
            readBKeyData t2 n off = (.ok e, t3) ∧ e.Data = dat)) := by
  constructor
  · rintro ⟨dat, t', h⟩
    obtain ⟨n, i, t1, _, _, _, _, hs, _⟩ := (Get_ok_iff fuel t t' k dat).1 h
    exact ⟨t1, HasKey_of_found t t1 k fuel n i hs⟩
  · intro t1 h
    obtain ⟨n, i, hs⟩ := (HasKey_true_iff fuel t t1 k).1 h
    refine ⟨n, i, hs, search_found fuel t k n i t1 hs, ?_⟩
    intro dat t3
    rw [Get_ok_iff]
    constructor
    · rintro ⟨n', i', t1', p, t2, off, e, hs', hg, hoff, hr, hd⟩
      rw [hs] at hs'
      simp only [Option.some.injEq, Prod.mk.injEq, SearchRet.ret.injEq, and_true] at hs'
      obtain ⟨⟨hn, hi⟩, ht⟩ := hs'
      subst hn; subst hi; subst ht
      exact ⟨p, t2, off, e, hg, hoff, hr, hd⟩
    · rintro ⟨p, t2, off, e, hg, hoff, hr, hd⟩
      exact ⟨n, i, t1, p, t2, off, e, hs, hg, hoff, hr, hd⟩

/-! ## C5 -/

/-- When the chosen child entry references a page above `LastPgno`, the
internal-page case of `search` panics: `p` is overwritten with the `nil` that
`getPage` returns next to its error, and `p.Pgno` is evaluated to build the
return value. -/
theorem searchLoop_child_out_of_range (k : List Byte) (fuel : Nat) (p : page) (t t1 : btree)
    (e : bInternal) (hty : p.Type_ = pageTypeIBTree)
    (hcc : chooseChild p k t = (.done e, t1)) (hout : e.Pgno > t1.LastPgno) :
    searchLoop k (fuel + 1) p t = some (.panic, t1) := by
  have hg : getPage t1 e.Pgno = (.error Err.pageIndexOutOfRange, t1) := by
    simp only [getPage, hout, if_true]
  simp only [searchLoop, hty, if_true, hcc, hg]

/-- C5: on a file whose internal root page references a child page above
`LastPgno`, `search` does not return the out-of-range error: it panics, and so
do `Get` and `HasKey`. -/
theorem search_child_out_of_range_panics :
    (readerOn danglingChild true).LastPgno = 4 ∧
    (chooseChild
        { LSN := { File := 0, Offset := 0 }, Pgno := 4, PrevPgno := 0, NextPgno := 0,
          Entries := 1, HFOffset := 0, Level := 1, Type_ := pageTypeIBTree,
          entryOffsets := [28] }
        (str "x") (readerOn danglingChild true)).1 = .done (internalEntry 9 []) ∧
    (search 5 (readerOn danglingChild true) (str "x")).map Prod.fst = some .panic ∧
    (Get 5 (readerOn danglingChild true) (str "x")).map Prod.fst = some .panic ∧
    (HasKey 5 (readerOn danglingChild true) (str "x")).map Prod.fst = some .panic := by
  set_option maxRecDepth 100000 in decide

/-! ## C6 -/

theorem ReadFull_error (r : ReadSeeker) (n : Nat) (e : Err) (r' : ReadSeeker)
    (h : r.ReadFull n = (.error e, r')) : e = Err.EOF ∨ e = Err.ErrUnexpectedEOF := by
  unfold ReadSeeker.ReadFull at h
  split at h
  · simp at h
  · split at h
    · simp only [Prod.mk.injEq, Result.error.injEq] at h
      exact Or.inl h.1.symm
    · split at h
      · simp at h
      · simp only [Prod.mk.injEq, Result.error.injEq] at h
        exact Or.inr h.1.symm

/-- C6: `getPage n` fails with the out-of-range error exactly when
`n > LastPgno`, and in that case it hands the reader back unchanged: same
stream position, same page cache. -/
theorem getPage_out_of_range (t : btree) (n : Nat) :
    ((getPage t n).1 = .error Err.pageIndexOutOfRange ↔ n > t.LastPgno) ∧
    (n > t.LastPgno → (getPage t n).2 = t) := by
  constructor
  · constructor
    · intro h
      by_contra hn
      simp only [getPage, hn, if_false] at h
      split at h
      · simp at h
      · simp at h
      · simp only [leRead] at h
        split at h
        next e r2 h1 =>
          simp only [Result.error.injEq] at h
          rcases ReadFull_error _ _ _ _ h1 with h2 | h2 <;> rw [h2] at h <;> simp at h
        · simp at h
        · split at h
          next e r3 h1 =>
            simp only [Result.error.injEq] at h
            rcases ReadFull_error _ _ _ _ h1 with h2 | h2 <;> rw [h2] at h <;> simp at h
          · simp at h
          · simp at h
    · intro hn
      simp only [getPage, hn, if_true]
  · intro hn
    simp only [getPage, hn, if_true]

/-! ## C7, C8, C9 -/

theorem u32_take16 (s : List Byte) (h : 16 ≤ s.length) :
    u32 (bytesAt s 0 16 ++ List.replicate (16 - (bytesAt s 0 16).length) 0) 12 = u32 s 12 := by
  have hl := bytesAt_length s 0 16 (by omega)
  rw [hl]
  simp only [Nat.sub_self, List.replicate_zero, List.append_nil]
  have := u32_bytesAt s 0 16 12 (by omega)
  simpa using this

/-- What `newBTreeReader` does on a stream of at least 512 bytes, from any
position. -/
theorem newBTreeReader_long (r : ReadSeeker) (h : 512 ≤ r.s.length) :
    newBTreeReader r =
      if u32 r.s 12 ≠ btreeMagic then .error (Err.wantedMagic (u32 r.s 12))
      else .ok { meta := decodeBtreeMetadata (bytesAt r.s 0 btreeMetadataSize)
                 r := { r with i := btreeMetadataSize }, pages := [] } := by
  have hm : u32 (bytesAt r.s 0 512) 12 = u32 r.s 12 := by
    have := u32_bytesAt r.s 0 512 12 (by omega)
    simpa using this
  unfold newBTreeReader
  simp only [leRead, ReadSeeker.Seek, btreeMetadataSize]
  rw [ReadFull_ok _ _ (by simpa using h)]
  simp only [btree.Magic, decodeBtreeMetadata, hm, Nat.zero_add]

/-- What `newBTreeReader` does on a stream of fewer than 512 bytes. -/
theorem newBTreeReader_short (r : ReadSeeker) (h : r.s.length < 512) :
    ∃ e, newBTreeReader r = .error e := by
  unfold newBTreeReader
  simp only [leRead, ReadSeeker.Seek, btreeMetadataSize, ReadSeeker.ReadFull]
  by_cases h0 : r.s.length ≤ 0
  · simp only [h0, if_true]
    exact ⟨Err.EOF, by simp⟩
  · have h1 : ¬ (0 + 512 ≤ r.s.length) := by omega
    simp only [h0, if_false, h1]
    exact ⟨Err.ErrUnexpectedEOF, by simp⟩

/-- C7: from the start of a stream, `NewReader` returns a reader exactly when
the stream holds at least 512 bytes and the little-endian 32-bit value at
bytes 12..15 is `0x053162`; in every other case it returns an error.  It never
panics. -/
theorem NewReader_iff (s : List Byte) (z : Bool) :
    ((∃ t, NewReader { s := s, i := 0, zeroReadEOF := z } = .ok t) ↔
      (512 ≤ s.length ∧ u32 s 12 = 0x053162)) ∧
    (¬ (512 ≤ s.length ∧ u32 s 12 = 0x053162) →
      ∃ e, NewReader { s := s, i := 0, zeroReadEOF := z } = .error e) := by
  have key : (512 ≤ s.length ∧ u32 s 12 = 0x053162 ∧
        ∃ t, NewReader { s := s, i := 0, zeroReadEOF := z } = .ok t) ∨
      (¬ (512 ≤ s.length ∧ u32 s 12 = 0x053162) ∧
        ∃ e, NewReader { s := s, i := 0, zeroReadEOF := z } = .error e) := by
    by_cases hlen : 512 ≤ s.length
    · have h16 : 16 ≤ s.length := by omega
      have hne : ¬ s.length ≤ 0 := by omega
      have hread : ¬ ((16 : Nat) = 0 ∧ z = false) := by simp
      by_cases hm : u32 s 12 = btreeMagic
      · left
        refine ⟨hlen, hm, ?_⟩
        simp only [NewReader, ReadSeeker.Read, hread, if_false, hne, u32_take16 s h16, hm,
          if_true]
        rw [newBTreeReader_long _ (by simpa [ReadSeeker.Seek] using hlen)]
        simp only [ReadSeeker.Seek, hm, ne_eq, not_true_eq_false, if_false]
        exact ⟨_, rfl⟩
      · right
        refine ⟨fun h => hm h.2, ?_⟩
        simp only [NewReader, ReadSeeker.Read, hread, if_false, hne, u32_take16 s h16, hm]
        exact ⟨_, rfl⟩
    · right
      refine ⟨fun h => hlen h.1, ?_⟩
      simp only [NewReader, ReadSeeker.Read]
      have hread : ¬ ((16 : Nat) = 0 ∧ z = false) := by simp
      simp only [hread, if_false]
      by_cases h0 : s.length ≤ 0
      · simp only [h0, if_true]
        exact ⟨_, rfl⟩
      · simp only [h0, if_false]
        split
        · exact newBTreeReader_short _ (by simpa [ReadSeeker.Seek] using Nat.lt_of_not_le hlen)
        · exact ⟨_, rfl⟩
  constructor
  · constructor
    · rintro ⟨t, ht⟩
      rcases key with ⟨h1, h2, _⟩ | ⟨_, e, he⟩
      · exact ⟨h1, h2⟩
      · rw [he] at ht; exact absurd ht (by simp)
    · intro h
      rcases key with ⟨_, _, h3⟩ | ⟨hn, _⟩
      · exact h3
      · exact absurd h hn
  · intro hn
    rcases key with ⟨h1, h2, _⟩ | ⟨_, he⟩
    · exact absurd ⟨h1, h2⟩ hn
    · exact he

/-- On every stream of at least 512 bytes whose magic field differs from
`0x053162`, `newBTreeReader` returns the value of
`fmt.Errorf("wanted magic …")`, from any position. -/
theorem newBTreeReader_wrong_magic (r : ReadSeeker) (h : 512 ≤ r.s.length)
    (hm : u32 r.s 12 ≠ btreeMagic) :
    newBTreeReader r = .error (Err.wantedMagic (u32 r.s 12)) := by
  rw [newBTreeReader_long r h, if_pos hm]

/-- C8: on a stream of 512 zero bytes, read from position 100, the magic field
is 0 and `newBTreeReader` fails, but with the value of
`fmt.Errorf("wanted magic …")`, not with `ErrBadMagic`. -/
theorem newBTreeReader_not_ErrBadMagic :
    newBTreeReader { s := zeros 512, i := 100, zeroReadEOF := true } =
      .error (Err.wantedMagic 0) ∧
    newBTreeReader { s := zeros 512, i := 100, zeroReadEOF := true } ≠
      .error Err.ErrBadMagic := by
  set_option maxRecDepth 100000 in decide

/-- C9: when `newBTreeReader` succeeds, the stream is left at position 512
(the metadata decode consumed bytes 0..511, whatever the initial position) and
the decoded fields are the little-endian 32-bit values at bytes 12 (Magic),
20 (PageSize), 32 (LastPgno) and 88 (Root) of the stream. -/
theorem newBTreeReader_fields (r : ReadSeeker) (t : btree) (h : 512 ≤ r.s.length)
    (hok : newBTreeReader r = .ok t) :
    t.r.s = r.s ∧ t.r.i = 512 ∧ t.pages = [] ∧
    t.Magic = u32 r.s 12 ∧ t.PageSize = u32 r.s 20 ∧
    t.LastPgno = u32 r.s 32 ∧ t.Root = u32 r.s 88 := by
  rw [newBTreeReader_long r h] at hok
  split at hok
  · simp at hok
  · simp only [Result.ok.injEq] at hok
    subst hok
    have h12 := u32_bytesAt r.s 0 512 12 (by omega)
    have h20 := u32_bytesAt r.s 0 512 20 (by omega)
    have h32 := u32_bytesAt r.s 0 512 32 (by omega)
    have h88 := u32_bytesAt r.s 0 512 88 (by omega)
    simp only [Nat.zero_add] at h12 h20 h32 h88
    refine ⟨rfl, rfl, rfl, ?_, ?_, ?_, ?_⟩
    · simpa [btree.Magic, decodeBtreeMetadata, btreeMetadataSize] using h12
    · simpa [btree.PageSize, decodeBtreeMetadata, btreeMetadataSize] using h20
    · simpa [btree.LastPgno, decodeBtreeMetadata, btreeMetadataSize] using h32
    · simpa [btree.Root, decodeBtreeMetadata, btreeMetadataSize] using h88

set_option maxRecDepth 100000 in
theorem newBTreeReader_fields_witness :
    (512 ≤ treeFile.length ∧
      newBTreeReader { s := treeFile, i := 700, zeroReadEOF := true } =
        .ok (readerOn treeFile true)) ∧
    ((readerOn treeFile true).r.s = treeFile ∧ (readerOn treeFile true).r.i = 512 ∧
      (readerOn treeFile true).pages = [] ∧
      (readerOn treeFile true).Magic = u32 treeFile 12 ∧
      (readerOn treeFile true).PageSize = u32 treeFile 20 ∧
      (readerOn treeFile true).LastPgno = u32 treeFile 32 ∧
      (readerOn treeFile true).Root = u32 treeFile 88) := by
  have hok : newBTreeReader { s := treeFile, i := 700, zeroReadEOF := true } =
      .ok (readerOn treeFile true) := by decide
  exact ⟨⟨by decide, hok⟩,
    newBTreeReader_fields { s := treeFile, i := 700, zeroReadEOF := true }
      (readerOn treeFile true) (by decide) hok⟩

/-! ## C10 -/

theorem u16s_getElem? (b : List Byte) (o n j : Nat) (h : j < n) :
    (u16s b o n)[j]? = some (u16 b (o + 2 * j)) := by
  simp only [u16s, List.getElem?_map, List.getElem?_range h, Option.map_some']

theorem u16s_length (b : List Byte) (o n : Nat) : (u16s b o n).length = n := by
  simp [u16s]

/-- The fields of the page decoded at byte `base`: a 26-byte header, then the
entry-offset table. -/
theorem pageAt_layout (s : List Byte) (base : Nat) (p : page) (h : pageAt s base = some p) :
    p.LSN.File = u32 s base ∧ p.LSN.Offset = u32 s (base + 4) ∧
    p.Pgno = u32 s (base + 8) ∧ p.PrevPgno = u32 s (base + 12) ∧
    p.NextPgno = u32 s (base + 16) ∧ p.Entries = u16 s (base + 20) ∧
    p.HFOffset = u16 s (base + 22) ∧ p.Level = u8 s (base + 24) ∧
    p.Type_ = u8 s (base + 25) ∧
    p.entryOffsets.length = p.Entries ∧
    ∀ (j : Nat), j < p.Entries → p.entryOffsets[j]? = some (u16 s (base + 26 + 2 * j)) := by
  unfold pageAt at h
  split at h
  next h1 =>
    simp only at h
    split at h
    next h2 =>
      simp only [Option.some.injEq] at h
      subst h
      simp only [decodePageHeader, pageHeaderSize]
      refine ⟨?_, ?_, ?_, ?_, ?_, ?_, ?_, ?_, ?_, ?_, ?_⟩
      · simpa using u32_bytesAt s base 26 0 (by omega)
      · exact u32_bytesAt s base 26 4 (by omega)
      · exact u32_bytesAt s base 26 8 (by omega)
      · exact u32_bytesAt s base 26 12 (by omega)
      · exact u32_bytesAt s base 26 16 (by omega)
      · exact u16_bytesAt s base 26 20 (by omega)
      · exact u16_bytesAt s base 26 22 (by omega)
      · exact u8_bytesAt s base 26 24 (by omega)
      · exact u8_bytesAt s base 26 25 (by omega)
      · exact u16s_length _ _ _
      · intro j hj
        rw [u16s_getElem? _ _ _ _ hj, Nat.zero_add]
        congr 1
        exact u16_bytesAt s (base + 26) _ (2 * j) (by omega)
    next => exact absurd h (by simp)
  next => exact absurd h (by simp)

theorem pageAt_inside (s : List Byte) (base : Nat)
    (h : base + 26 + 2 * u16 s (base + 20) ≤ s.length) : ∃ p, pageAt s base = some p := by
  have h1 : base + pageHeaderSize ≤ s.length := by simp only [pageHeaderSize]; omega
  have hE : (decodePageHeader (bytesAt s base pageHeaderSize)).Entries = u16 s (base + 20) :=
    u16_bytesAt s base 26 20 (by omega)
  have h2 : base + pageHeaderSize +
      2 * (decodePageHeader (bytesAt s base pageHeaderSize)).Entries ≤ s.length := by
    rw [hE]; simp only [pageHeaderSize]; omega
  unfold pageAt
  simp only [h1, if_true, h2]
  exact ⟨_, rfl⟩

/-- C10, as stated, fails: page 6 of `treeFile` has the entry-offset table
`[34, 38, 42, 46]`, and `getPage 6` returns it, but the little-endian 16-bit
value at byte `6 * 128 + 25` is 8709 (the page-type byte 5 and the low byte of
the first table element): the header is 26 bytes long, the table starts at
`base + 26`. -/
theorem getPage_table_not_at_25 :
    (readerOn treeFile true).PageSize = 128 ∧
    (getPage (readerOn treeFile true) 6).1 =
      .ok { LSN := { File := 0, Offset := 0 }, Pgno := 6, PrevPgno := 0, NextPgno := 0,
            Entries := 4, HFOffset := 0, Level := 1, Type_ := pageTypeLBTree,
            entryOffsets := [34, 38, 42, 46] } ∧
    u16 treeFile (6 * 128 + 25 + 2 * 0) = 8709 ∧
    u16 treeFile (6 * 128 + 26 + 2 * 0) = 34 := by
  set_option maxRecDepth 100000 in decide

/-- C10, amended: for a page number `n ≤ LastPgno` whose position
`base = n * PageSize` is below `2 ^ 32` and whose header and entry-offset table
lie inside the file, on a reader whose cache agrees with the file, `getPage n`
returns the page decoded from a 26-byte header at `base` (entry count at
`base + 20`, page type at `base + 25`) followed immediately by the
entry-offset table: exactly `Entries` elements, element `j` being the
little-endian 16-bit value at `base + 26 + 2j`. -/
theorem getPage_layout (t : btree) (n : Nat)
    (hL : t.LastPgno + 1 < 2 ^ 32) (hc : CacheOK t.img t.pages) (hn : n ≤ t.LastPgno)
    (hb : n * t.PageSize < 2 ^ 32)
    (hin : n * t.PageSize + 26 + 2 * u16 t.r.s (n * t.PageSize + 20) ≤ t.r.s.length) :
    ∃ p t', getPage t n = (.ok p, t') ∧
      p.LSN.File = u32 t.r.s (n * t.PageSize) ∧
      p.LSN.Offset = u32 t.r.s (n * t.PageSize + 4) ∧
      p.Pgno = u32 t.r.s (n * t.PageSize + 8) ∧
      p.PrevPgno = u32 t.r.s (n * t.PageSize + 12) ∧
      p.NextPgno = u32 t.r.s (n * t.PageSize + 16) ∧
      p.Entries = u16 t.r.s (n * t.PageSize + 20) ∧
      p.HFOffset = u16 t.r.s (n * t.PageSize + 22) ∧
      p.Level = u8 t.r.s (n * t.PageSize + 24) ∧
      p.Type_ = u8 t.r.s (n * t.PageSize + 25) ∧
      p.entryOffsets.length = p.Entries ∧
      ∀ (j : Nat), j < p.Entries →
        p.entryOffsets[j]? = some (u16 t.r.s (n * t.PageSize + 26 + 2 * j)) := by
  obtain ⟨p, hp⟩ := pageAt_inside t.r.s (n * t.PageSize) hin
  have hbase : t.img.base n = n * t.PageSize := Nat.mod_eq_of_lt hb
  obtain ⟨t', hg, _, _⟩ := getPage_ok t.img t n p rfl hc hL hn (by rw [hbase]; exact hp)
  exact ⟨p, t', hg, pageAt_layout t.r.s (n * t.PageSize) p hp⟩

set_option maxRecDepth 100000 in
theorem getPage_layout_witness :
    ((readerOn treeFile true).LastPgno + 1 < 2 ^ 32 ∧ 6 ≤ (readerOn treeFile true).LastPgno ∧
      6 * (readerOn treeFile true).PageSize < 2 ^ 32 ∧
      6 * (readerOn treeFile true).PageSize + 26 +
        2 * u16 (readerOn treeFile true).r.s (6 * (readerOn treeFile true).PageSize + 20) ≤
        (readerOn treeFile true).r.s.length) ∧
    ∃ p t', getPage (readerOn treeFile true) 6 = (.ok p, t') ∧
      p.LSN.File = u32 (readerOn treeFile true).r.s (6 * (readerOn treeFile true).PageSize) ∧
      p.LSN.Offset = u32 (readerOn treeFile true).r.s (6 * (readerOn treeFile true).PageSize + 4) ∧
      p.Pgno = u32 (readerOn treeFile true).r.s (6 * (readerOn treeFile true).PageSize + 8) ∧
      p.PrevPgno = u32 (readerOn treeFile true).r.s (6 * (readerOn treeFile true).PageSize + 12) ∧
      p.NextPgno = u32 (readerOn treeFile true).r.s (6 * (readerOn treeFile true).PageSize + 16) ∧
      p.Entries = u16 (readerOn treeFile true).r.s (6 * (readerOn treeFile true).PageSize + 20) ∧
      p.HFOffset = u16 (readerOn treeFile true).r.s (6 * (readerOn treeFile true).PageSize + 22) ∧
      p.Level = u8 (readerOn treeFile true).r.s (6 * (readerOn treeFile true).PageSize + 24) ∧
      p.Type_ = u8 (readerOn treeFile true).r.s (6 * (readerOn treeFile true).PageSize + 25) ∧
      p.entryOffsets.length = p.Entries ∧
      ∀ (j : Nat), j < p.Entries →
        p.entryOffsets[j]? =
          some (u16 (readerOn treeFile true).r.s
            (6 * (readerOn treeFile true).PageSize + 26 + 2 * j)) :=
  ⟨⟨by decide, by decide, by decide, by decide⟩,
    getPage_layout (readerOn treeFile true) 6 (by decide) (CacheOK_nil _) (by decide)
      (by decide) (by decide)⟩

/-! ## Frame and cache lemmas -/

theorem getPage_eq (t : btree) (n : Nat) :
    getPage t n =
      if n > t.LastPgno then (.error Err.pageIndexOutOfRange, t)
      else
        match (allocPages t).pages[n]? with
        | none => (.panic, allocPages t)
        | some (some p) => (.ok p, allocPages t)
        | some none => missRead (allocPages t) n := rfl

theorem ReadFull_frame (r : ReadSeeker) (n : Nat) :
    (r.ReadFull n).2.s = r.s ∧ (r.ReadFull n).2.zeroReadEOF = r.zeroReadEOF ∧
    (r.ReadFull n).1 ≠ .panic := by
  unfold ReadSeeker.ReadFull
  split
  · exact ⟨rfl, rfl, by simp⟩
  · split
    · exact ⟨rfl, rfl, by simp⟩
    · split
      · exact ⟨rfl, rfl, by simp⟩
      · exact ⟨rfl, rfl, by simp⟩

theorem Read_frame (r : ReadSeeker) (n : Nat) :
    (r.Read n).2.2.s = r.s ∧ (r.Read n).2.2.zeroReadEOF = r.zeroReadEOF := by
  unfold ReadSeeker.Read
  split
  · exact ⟨rfl, rfl⟩
  · split
    · exact ⟨rfl, rfl⟩
    · exact ⟨rfl, rfl⟩

theorem img_eq (t t' : btree) (hm : t'.meta = t.meta) (hs : t'.r.s = t.r.s)
    (hz : t'.r.zeroReadEOF = t.r.zeroReadEOF) : t'.img = t.img := by
  simp only [btree.img, hm, hs, hz]

/-- `readBInternal` moves only the read position and never panics. -/
theorem readBInternal_frame (t : btree) (n off : Nat) :
    (readBInternal t n off).2.img = t.img ∧ (readBInternal t n off).2.pages = t.pages ∧
    (readBInternal t n off).1 ≠ .panic := by
  unfold readBInternal
  simp only [leRead]
  have hf := ReadFull_frame (t.r.Seek ((n * t.PageSize) % 2 ^ 32 + off)) binternalHeaderSize
  rcases h : (t.r.Seek ((n * t.PageSize) % 2 ^ 32 + off)).ReadFull binternalHeaderSize with ⟨res, r2⟩
  rw [h] at hf
  simp only [ReadSeeker.Seek] at hf
  cases res with
  | error e => exact ⟨img_eq t _ rfl hf.1 hf.2.1, rfl, by simp⟩
  | panic => exact absurd rfl hf.2.2
  | ok hb =>
    simp only
    have hr := Read_frame r2 (decodeBinternalHeader hb).Len
    rcases h2 : r2.Read (decodeBinternalHeader hb).Len with ⟨buf, err, r3⟩
    rw [h2] at hr
    cases err with
    | some e => exact ⟨img_eq t _ rfl (hr.1.trans hf.1) (hr.2.trans hf.2.1), rfl, by simp⟩
    | none => exact ⟨img_eq t _ rfl (hr.1.trans hf.1) (hr.2.trans hf.2.1), rfl, by simp⟩

/-- `readBKeyData` moves only the read position and never panics. -/
theorem readBKeyData_frame (t : btree) (n off : Nat) :
    (readBKeyData t n off).2.img = t.img ∧ (readBKeyData t n off).2.pages = t.pages ∧
    (readBKeyData t n off).1 ≠ .panic := by
  unfold readBKeyData
  simp only [leRead]
  have hf := ReadFull_frame (t.r.Seek ((n * t.PageSize) % 2 ^ 32 + off)) btreeEntrySize
  rcases h : (t.r.Seek ((n * t.PageSize) % 2 ^ 32 + off)).ReadFull btreeEntrySize with ⟨res, r2⟩
  rw [h] at hf
  simp only [ReadSeeker.Seek] at hf
  cases res with
  | error e => exact ⟨img_eq t _ rfl hf.1 hf.2.1, rfl, by simp⟩
  | panic => exact absurd rfl hf.2.2
  | ok hb =>
    simp only
    have hr := Read_frame r2 (decodeBtreeEntry hb).Len
    rcases h2 : r2.Read (decodeBtreeEntry hb).Len with ⟨buf, err, r3⟩
    rw [h2] at hr
    cases err with
    | some e => exact ⟨img_eq t _ rfl (hr.1.trans hf.1) (hr.2.trans hf.2.1), rfl, by simp⟩
    | none => exact ⟨img_eq t _ rfl (hr.1.trans hf.1) (hr.2.trans hf.2.1), rfl, by simp⟩


theorem missRead_result (t : btree) (n : Nat) : (missRead t n).1 = t.img.readPage n := by
  unfold Img.readPage missRead
  simp only [leRead, ReadSeeker.Seek, btree.PageSize, btree.img]
  rcases h : ReadSeeker.ReadFull
    { s := t.r.s, i := (n * t.meta.header.PageSize) % 2 ^ 32, zeroReadEOF := t.r.zeroReadEOF }
    pageHeaderSize with ⟨res, r2⟩
  cases res with
  | error e => rfl
  | panic => rfl
  | ok hb =>
    simp only
    rcases h2 : r2.ReadFull (2 * (decodePageHeader hb).Entries) with ⟨res2, r3⟩
    cases res2 <;> rfl

/-- The cache-miss branch keeps the file, never panics, and stores the page it
returns (and nothing else). -/
theorem missRead_frame (t : btree) (n : Nat) :
    (missRead t n).2.img = t.img ∧ (missRead t n).1 ≠ .panic ∧
    ((∃ p, (missRead t n).1 = .ok p ∧ (missRead t n).2.pages = t.pages.set n (some p)) ∨
      ((∀ p, (missRead t n).1 ≠ .ok p) ∧ (missRead t n).2.pages = t.pages)) := by
  unfold missRead
  simp only [leRead]
  have hf := ReadFull_frame (t.r.Seek ((n * t.PageSize) % 2 ^ 32)) pageHeaderSize
  rcases h : (t.r.Seek ((n * t.PageSize) % 2 ^ 32)).ReadFull pageHeaderSize with ⟨res, r2⟩
  rw [h] at hf
  simp only [ReadSeeker.Seek] at hf
  cases res with
  | error e => exact ⟨img_eq t _ rfl hf.1 hf.2.1, by simp, Or.inr ⟨by simp, rfl⟩⟩
  | panic => exact absurd rfl hf.2.2
  | ok hb =>
    simp only
    have hf2 := ReadFull_frame r2 (2 * (decodePageHeader hb).Entries)
    rcases h2 : r2.ReadFull (2 * (decodePageHeader hb).Entries) with ⟨res2, r3⟩
    rw [h2] at hf2
    cases res2 with
    | error e =>
      exact ⟨img_eq t _ rfl (hf2.1.trans hf.1) (hf2.2.1.trans hf.2.1), by simp,
        Or.inr ⟨by simp, rfl⟩⟩
    | panic => exact absurd rfl hf2.2.2
    | ok ob =>
      exact ⟨img_eq t _ rfl (hf2.1.trans hf.1) (hf2.2.1.trans hf.2.1), by simp,
        Or.inl ⟨_, rfl, rfl⟩⟩

theorem ReadFull_eq_ok (r : ReadSeeker) (n : Nat) (b : List Byte) (r' : ReadSeeker)
    (h : r.ReadFull n = (.ok b, r')) :
    b = bytesAt r.s r.i n ∧ r' = { r with i := r.i + n } ∧ r.i + n ≤ r.s.length ∨
    n = 0 ∧ b = [] ∧ r' = r := by
  unfold ReadSeeker.ReadFull at h
  split at h
  next h0 =>
    simp only [Prod.mk.injEq, Result.ok.injEq] at h
    exact Or.inr ⟨h0, h.1.symm, h.2.symm⟩
  · split at h
    · simp at h
    · split at h
      next h2 =>
        simp only [Prod.mk.injEq, Result.ok.injEq] at h
        exact Or.inl ⟨h.1.symm, h.2.symm, h2⟩
      · simp at h

theorem missRead_ok_pageAt (t : btree) (n : Nat) (p : page)
    (h : (missRead t n).1 = .ok p) : pageAt t.r.s ((n * t.PageSize) % 2 ^ 32) = some p := by
  unfold missRead at h
  simp only [leRead] at h
  rcases h1 : (t.r.Seek ((n * t.PageSize) % 2 ^ 32)).ReadFull pageHeaderSize with ⟨res, r2⟩
  rw [h1] at h
  cases res with
  | error e => simp at h
  | panic => simp at h
  | ok hb =>
    simp only at h
    rcases h2 : r2.ReadFull (2 * (decodePageHeader hb).Entries) with ⟨res2, r3⟩
    rw [h2] at h
    cases res2 with
    | error e => simp at h
    | panic => simp at h
    | ok ob =>
      simp only [Result.ok.injEq] at h
      rcases ReadFull_eq_ok _ _ _ _ h1 with ⟨hb1, hr2, hle⟩ | ⟨h0, _, _⟩
      · simp only [ReadSeeker.Seek] at hb1 hr2 hle
        have hob : ob = bytesAt t.r.s ((n * t.PageSize) % 2 ^ 32 + pageHeaderSize)
              (2 * (decodePageHeader hb).Entries) ∧
            (n * t.PageSize) % 2 ^ 32 + pageHeaderSize + 2 * (decodePageHeader hb).Entries ≤
              t.r.s.length := by
          rcases ReadFull_eq_ok _ _ _ _ h2 with ⟨hb2, _, hle2⟩ | ⟨h0, hb2, _⟩
          · rw [hr2] at hb2 hle2
            exact ⟨hb2, hle2⟩
          · rw [h0, hb2]
            exact ⟨by simp [bytesAt], by omega⟩
        subst hb1
        unfold pageAt
        rw [if_pos hle]
        simp only
        rw [if_pos hob.2, ← h, hob.1]
      · simp [pageHeaderSize] at h0

theorem missRead_of_pageAt (t : btree) (n : Nat) (p : page)
    (hp : pageAt t.r.s ((n * t.PageSize) % 2 ^ 32) = some p) : (missRead t n).1 = .ok p := by
  unfold pageAt at hp
  split at hp
  next h1 =>
    simp only at hp
    split at hp
    next h2 =>
      simp only [Option.some.injEq] at hp
      unfold missRead
      simp only [leRead, ReadSeeker.Seek]
      rw [ReadFull_ok _ _ (by simpa using h1)]
      simp only
      rw [ReadFull_ok _ _ (by simpa [Nat.add_assoc] using h2)]
      simp only
      rw [← hp]
    next => exact absurd hp (by simp)
  next => exact absurd hp (by simp)

theorem readPage_ok_iff (f : Img) (n : Nat) (p : page) :
    f.readPage n = .ok p ↔ pageAt f.s (f.base n) = some p :=
  ⟨fun h => missRead_ok_pageAt _ n p h, fun h => missRead_of_pageAt _ n p h⟩


theorem allocPages_img (t : btree) : (allocPages t).img = t.img := by
  unfold allocPages
  split <;> rfl

theorem allocPages_of_ne (t : btree) (h : t.pages.length ≠ 0) : allocPages t = t := by
  unfold allocPages
  rw [if_neg h]

theorem allocPages_LastPgno (t : btree) : (allocPages t).LastPgno = t.LastPgno := by
  unfold allocPages
  split <;> rfl

theorem getElem?_length_ne {α : Type} (l : List α) (n : Nat) (a : α) (h : l[n]? = some a) :
    l.length ≠ 0 := by
  intro h0
  rw [List.length_eq_zero] at h0
  subst h0
  simp at h

/-- `getPage` keeps the metadata and the bytes of the stream. -/
theorem getPage_frame (t : btree) (n : Nat) : (getPage t n).2.img = t.img := by
  rw [getPage_eq]
  split
  · rfl
  · split
    · exact allocPages_img t
    · exact allocPages_img t
    · exact (missRead_frame _ n).1.trans (allocPages_img t)

/-- A cache hit: the stored page comes back and the reader is untouched. -/
theorem getPage_hit (t : btree) (n : Nat) (p : page) (hn : n ≤ t.LastPgno)
    (h : t.pages[n]? = some (some p)) : getPage t n = (.ok p, t) := by
  have hne := getElem?_length_ne _ _ _ h
  rw [getPage_eq, if_neg (by omega), allocPages_of_ne t hne]
  simp only [h]

/-- After a successful `getPage n`, slot `n` of the cache holds the returned
page. -/
theorem getPage_ok_slot (t t' : btree) (n : Nat) (p : page)
    (h : getPage t n = (.ok p, t')) : n ≤ t.LastPgno ∧ t'.pages[n]? = some (some p) := by
  rw [getPage_eq] at h
  split at h
  · simp at h
  next hn =>
    refine ⟨by omega, ?_⟩
    split at h
    · simp at h
    next q hq =>
      simp only [Prod.mk.injEq, Result.ok.injEq] at h
      rw [← h.2, ← h.1]; exact hq
    next hq =>
      rcases (missRead_frame (allocPages t) n).2.2 with ⟨q, h1, h2⟩ | ⟨h1, _⟩
      · have hres : (missRead (allocPages t) n).1 = .ok p := by rw [h]
        rw [h1] at hres
        simp only [Result.ok.injEq] at hres
        subst hres
        have hst : (missRead (allocPages t) n).2 = t' := by rw [h]
        rw [← hst, h2]
        have hlt : n < (allocPages t).pages.length := by
          rcases Nat.lt_or_ge n (allocPages t).pages.length with hl | hl
          · exact hl
          · rw [List.getElem?_eq_none hl] at hq; exact absurd hq (by simp)
        exact List.getElem?_set_self hlt
      · have hres : (missRead (allocPages t) n).1 = .ok p := by rw [h]
        exact absurd hres (h1 p)

/-- A filled slot of the cache is never emptied or overwritten by `getPage`. -/
theorem getPage_slot_mono (t : btree) (n m : Nat) (q : page)
    (h : t.pages[m]? = some (some q)) : (getPage t n).2.pages[m]? = some (some q) := by
  have hne := getElem?_length_ne _ _ _ h
  rw [getPage_eq, allocPages_of_ne t hne]
  split
  · exact h
  · split
    · exact h
    · exact h
    next hslot =>
      rcases (missRead_frame t n).2.2 with ⟨p, _, h2⟩ | ⟨_, h2⟩
      · rw [h2]
        by_cases hnm : n = m
        · subst hnm; rw [h] at hslot; exact absurd hslot (by simp)
        · rw [List.getElem?_set_ne hnm]; exact h
      · rw [h2]; exact h


/-! ## Results depend on the file only -/

theorem img_fields (ta tb : btree) (h : ta.img = tb.img) :
    ta.meta = tb.meta ∧ ta.r.s = tb.r.s ∧ ta.r.zeroReadEOF = tb.r.zeroReadEOF := by
  simp only [btree.img, Img.mk.injEq] at h
  exact h

theorem readBInternal_rel (ta tb : btree) (n off : Nat) (h : ta.img = tb.img) :
    (readBInternal ta n off).1 = (readBInternal tb n off).1 := by
  obtain ⟨hm, hs, hz⟩ := img_fields ta tb h
  unfold readBInternal
  simp only [leRead, ReadSeeker.Seek, btree.PageSize, hm, hs, hz]
  rcases h1 : ReadSeeker.ReadFull
    { s := tb.r.s, i := (n * tb.meta.header.PageSize) % 2 ^ 32 + off,
      zeroReadEOF := tb.r.zeroReadEOF } binternalHeaderSize with ⟨res, r2⟩
  cases res with
  | error e => rfl
  | panic => rfl
  | ok hb =>
    simp only
    rcases h2 : r2.Read (decodeBinternalHeader hb).Len with ⟨buf, err, r3⟩
    cases err <;> rfl

theorem readBKeyData_rel (ta tb : btree) (n off : Nat) (h : ta.img = tb.img) :
    (readBKeyData ta n off).1 = (readBKeyData tb n off).1 := by
  obtain ⟨hm, hs, hz⟩ := img_fields ta tb h
  unfold readBKeyData
  simp only [leRead, ReadSeeker.Seek, btree.PageSize, hm, hs, hz]
  rcases h1 : ReadSeeker.ReadFull
    { s := tb.r.s, i := (n * tb.meta.header.PageSize) % 2 ^ 32 + off,
      zeroReadEOF := tb.r.zeroReadEOF } btreeEntrySize with ⟨res, r2⟩
  cases res with
  | error e => rfl
  | panic => rfl
  | ok hb =>
    simp only
    rcases h2 : r2.Read (decodeBtreeEntry hb).Len with ⟨buf, err, r3⟩
    cases err <;> rfl

/-- The internal-page scan keeps file and cache. -/
theorem scanInternal_frame (p : page) (k : List Byte) :
    ∀ (rem i : Nat) (e : bInternal) (t : btree),
      (scanInternal p k rem i e t).2.img = t.img ∧
      (scanInternal p k rem i e t).2.pages = t.pages
  | 0, _, _, _ => ⟨rfl, rfl⟩
  | rem + 1, i, e, t => by
    simp only [scanInternal]
    split
    · exact ⟨rfl, rfl⟩
    next off _ =>
      have hf := readBInternal_frame t p.Pgno off
      split
      next err t1 h => rw [h] at hf; exact ⟨hf.1, hf.2.1⟩
      next t1 h => rw [h] at hf; exact ⟨hf.1, hf.2.1⟩
      next nxt t1 h =>
        rw [h] at hf
        split
        · exact ⟨hf.1, hf.2.1⟩
        · have ih := scanInternal_frame p k rem (i + 1) nxt t1
          exact ⟨ih.1.trans hf.1, ih.2.trans hf.2.1⟩

theorem scanInternal_rel (p : page) (k : List Byte) :
    ∀ (rem i : Nat) (e : bInternal) (ta tb : btree), ta.img = tb.img →
      (scanInternal p k rem i e ta).1 = (scanInternal p k rem i e tb).1
  | 0, _, _, _, _, _ => rfl
  | rem + 1, i, e, ta, tb, h => by
    simp only [scanInternal]
    cases hoff : p.entryOffsets[i]? with
    | none => rfl
    | some off =>
      simp only
      have hr := readBInternal_rel ta tb p.Pgno off h
      have hfa := readBInternal_frame ta p.Pgno off
      have hfb := readBInternal_frame tb p.Pgno off
      rcases ha : readBInternal ta p.Pgno off with ⟨ra, ta1⟩
      rcases hb : readBInternal tb p.Pgno off with ⟨rb, tb1⟩
      rw [ha] at hr hfa
      rw [hb] at hr hfb
      simp only at hr hfa hfb
      subst hr
      cases ra with
      | error err => rfl
      | panic => rfl
      | ok nxt =>
        simp only
        split
        · rfl
        · exact scanInternal_rel p k rem (i + 1) nxt ta1 tb1
            (hfa.1.trans (h.trans hfb.1.symm))

theorem chooseChild_frame (p : page) (k : List Byte) (t : btree) :
    (chooseChild p k t).2.img = t.img ∧ (chooseChild p k t).2.pages = t.pages := by
  simp only [chooseChild]
  split
  · exact ⟨rfl, rfl⟩
  next off _ =>
    have hf := readBInternal_frame t p.Pgno off
    split
    next err t1 h => rw [h] at hf; exact ⟨hf.1, hf.2.1⟩
    next t1 h => rw [h] at hf; exact ⟨hf.1, hf.2.1⟩
    next e t1 h =>
      rw [h] at hf
      have ih := scanInternal_frame p k (p.Entries - 1) 1 e t1
      exact ⟨ih.1.trans hf.1, ih.2.trans hf.2.1⟩

theorem chooseChild_rel (p : page) (k : List Byte) (ta tb : btree) (h : ta.img = tb.img) :
    (chooseChild p k ta).1 = (chooseChild p k tb).1 := by
  simp only [chooseChild]
  cases hoff : p.entryOffsets[0]? with
  | none => rfl
  | some off =>
    simp only
    have hr := readBInternal_rel ta tb p.Pgno off h
    have hfa := readBInternal_frame ta p.Pgno off
    have hfb := readBInternal_frame tb p.Pgno off
    rcases ha : readBInternal ta p.Pgno off with ⟨ra, ta1⟩
    rcases hb : readBInternal tb p.Pgno off with ⟨rb, tb1⟩
    rw [ha] at hr hfa
    rw [hb] at hr hfb
    simp only at hr hfa hfb
    subst hr
    cases ra with
    | error err => rfl
    | panic => rfl
    | ok e =>
      exact scanInternal_rel p k _ 1 e ta1 tb1 (hfa.1.trans (h.trans hfb.1.symm))

theorem scanLeaf_frame (p : page) (k : List Byte) :
    ∀ (rem i : Nat) (t : btree),
      (scanLeaf p k rem i t).2.img = t.img ∧ (scanLeaf p k rem i t).2.pages = t.pages
  | 0, _, _ => ⟨rfl, rfl⟩
  | rem + 1, i, t => by
    simp only [scanLeaf]
    split
    · exact ⟨rfl, rfl⟩
    next off _ =>
      have hf := readBKeyData_frame t p.Pgno off
      split
      next err t1 h => rw [h] at hf; exact ⟨hf.1, hf.2.1⟩
      next t1 h => rw [h] at hf; exact ⟨hf.1, hf.2.1⟩
      next e t1 h =>
        rw [h] at hf
        split
        · exact ⟨hf.1, hf.2.1⟩
        · have ih := scanLeaf_frame p k rem (i + 2) t1
          exact ⟨ih.1.trans hf.1, ih.2.trans hf.2.1⟩

theorem scanLeaf_rel (p : page) (k : List Byte) :
    ∀ (rem i : Nat) (ta tb : btree), ta.img = tb.img →
      (scanLeaf p k rem i ta).1 = (scanLeaf p k rem i tb).1
  | 0, _, _, _, _ => rfl
  | rem + 1, i, ta, tb, h => by
    simp only [scanLeaf]
    cases hoff : p.entryOffsets[i]? with
    | none => rfl
    | some off =>
      simp only
      have hr := readBKeyData_rel ta tb p.Pgno off h
      have hfa := readBKeyData_frame ta p.Pgno off
      have hfb := readBKeyData_frame tb p.Pgno off
      rcases ha : readBKeyData ta p.Pgno off with ⟨ra, ta1⟩
      rcases hb : readBKeyData tb p.Pgno off with ⟨rb, tb1⟩
      rw [ha] at hr hfa
      rw [hb] at hr hfb
      simp only at hr hfa hfb
      subst hr
      cases ra with
      | error err => rfl
      | panic => rfl
      | ok e =>
        simp only
        split
        · rfl
        · exact scanLeaf_rel p k rem (i + 2) ta1 tb1 (hfa.1.trans (h.trans hfb.1.symm))


theorem CacheInv_nil (f : Img) : CacheInv f [] :=
  ⟨Or.inl rfl, fun n p h => by simp at h⟩

theorem CacheInv_set (f : Img) (pages : List (Option page)) (n : Nat) (p : page)
    (hc : CacheInv f pages) (hne : pages.length ≠ 0)
    (hp : pageAt f.s (f.base n) = some p) : CacheInv f (pages.set n (some p)) := by
  refine ⟨Or.inr ?_, ?_⟩
  · rw [List.length_set]
    rcases hc.1 with h | h
    · rw [h] at hne; exact absurd rfl hne
    · exact h
  · intro m q h
    by_cases hm : n = m
    · subst hm
      by_cases hlt : n < pages.length
      · rw [List.getElem?_set_self hlt] at h
        simp only [Option.some.injEq] at h
        subst h; exact hp
      · rw [List.getElem?_eq_none (by simpa using Nat.le_of_not_lt hlt)] at h
        exact absurd h (by simp)
    · rw [List.getElem?_set_ne hm] at h
      exact hc.2 m q h

theorem allocPages_inv (f : Img) (t : btree) (hf : t.img = f) (hc : CacheInv f t.pages) :
    CacheInv f (allocPages t).pages ∧
    (allocPages t).pages.length = (f.LastPgno + 1) % 2 ^ 32 := by
  have hLP : f.LastPgno = t.LastPgno := by rw [← hf]; rfl
  unfold allocPages
  split
  next h0 =>
    refine ⟨⟨Or.inr ?_, ?_⟩, ?_⟩
    · simp [hLP]
    · intro n p h
      simp only [List.getElem?_replicate] at h
      split at h <;> simp at h
    · simp [hLP]
  next h0 =>
    refine ⟨hc, ?_⟩
    rcases hc.1 with h | h
    · rw [h] at h0; exact absurd rfl h0
    · exact h

/-- On a reader whose cache obeys the invariant, `getPage n` returns what the
file alone determines, and the invariant still holds afterwards. -/
theorem getPage_inv (f : Img) (t : btree) (n : Nat) (hf : t.img = f)
    (hc : CacheInv f t.pages) :
    (getPage t n).1 = f.getPage n ∧ CacheInv f (getPage t n).2.pages := by
  have hLP : f.LastPgno = t.LastPgno := by rw [← hf]; rfl
  obtain ⟨hc1, hlen1⟩ := allocPages_inv f t hf hc
  have himg1 : (allocPages t).img = f := (allocPages_img t).trans hf
  rw [getPage_eq]
  unfold Img.getPage
  by_cases hn : n > t.LastPgno
  · rw [if_pos hn, if_pos (by rw [hLP]; exact hn)]
    exact ⟨rfl, hc⟩
  · rw [if_neg hn, if_neg (by rw [hLP]; exact hn)]
    cases hslot : (allocPages t).pages[n]? with
    | none =>
      have hge : (allocPages t).pages.length ≤ n := List.getElem?_eq_none_iff.1 hslot
      rw [if_pos (by rw [← hlen1]; exact hge)]
      exact ⟨rfl, hc1⟩
    | some x =>
      have hlt : n < (allocPages t).pages.length := by
        rcases Nat.lt_or_ge n (allocPages t).pages.length with hl | hl
        · exact hl
        · rw [List.getElem?_eq_none hl] at hslot; exact absurd hslot (by simp)
      rw [if_neg (by rw [← hlen1]; omega)]
      cases x with
      | some p =>
        simp only
        exact ⟨((readPage_ok_iff f n p).2 (hc1.2 n p hslot)).symm, hc1⟩
      | none =>
        simp only
        have hres := missRead_result (allocPages t) n
        rw [himg1] at hres
        refine ⟨hres, ?_⟩
        rcases (missRead_frame (allocPages t) n).2.2 with ⟨p, h1, h2⟩ | ⟨_, h2⟩
        · rw [h2]
          rw [hres] at h1
          exact CacheInv_set f _ n p hc1 (by omega) ((readPage_ok_iff f n p).1 h1)
        · rw [h2]; exact hc1


theorem Inv_of_frame (f : Img) (t t' : btree) (h : Inv f t) (hi : t'.img = t.img)
    (hp : t'.pages = t.pages) : Inv f t' :=
  ⟨hi.trans h.1, by rw [hp]; exact h.2⟩

theorem getPage_Inv (f : Img) (t : btree) (n : Nat) (h : Inv f t) :
    Inv f (getPage t n).2 ∧ (getPage t n).1 = f.getPage n :=
  ⟨⟨(getPage_frame t n).trans h.1, (getPage_inv f t n h.1 h.2).2⟩, (getPage_inv f t n h.1 h.2).1⟩

/-- Two readers on the same file, both with a cache that obeys the invariant,
get the same answer from the descent loop. -/
theorem searchLoop_rel (f : Img) (k : List Byte) :
    ∀ (fuel : Nat) (p : page) (ta tb : btree) (r : SearchRet) (ta' : btree),
      Inv f ta → Inv f tb → searchLoop k fuel p ta = some (r, ta') →
      Inv f ta' ∧ ∃ tb', searchLoop k fuel p tb = some (r, tb') ∧ Inv f tb'
  | 0, _, _, _, _, _, _, _, h => by simp [searchLoop] at h
  | fuel + 1, p, ta, tb, r, ta', ha, hb, h => by
    simp only [searchLoop] at h ⊢
    by_cases hint : p.Type_ = pageTypeIBTree
    · simp only [hint, if_true] at h ⊢
      have hrel := chooseChild_rel p k ta tb (ha.1.trans hb.1.symm)
      have hfa := chooseChild_frame p k ta
      have hfb := chooseChild_frame p k tb
      rcases hca : chooseChild p k ta with ⟨ca, ta1⟩
      rcases hcb : chooseChild p k tb with ⟨cb, tb1⟩
      rw [hca] at hrel hfa h
      rw [hcb] at hrel hfb
      simp only at hrel hfa hfb h ⊢
      subst hrel
      have ia1 : Inv f ta1 := Inv_of_frame f ta ta1 ha hfa.1 hfa.2
      have ib1 : Inv f tb1 := Inv_of_frame f tb tb1 hb hfb.1 hfb.2
      cases ca with
      | exit r0 =>
        simp only [Option.some.injEq, Prod.mk.injEq] at h
        obtain ⟨h1, h2⟩ := h
        subst h1; subst h2
        exact ⟨ia1, tb1, rfl, ib1⟩
      | done e =>
        simp only at h ⊢
        have ga := getPage_Inv f ta1 e.Pgno ia1
        have gb := getPage_Inv f tb1 e.Pgno ib1
        rcases hga : getPage ta1 e.Pgno with ⟨ra, ta2⟩
        rcases hgb : getPage tb1 e.Pgno with ⟨rb, tb2⟩
        rw [hga] at ga h
        rw [hgb] at gb
        simp only at ga gb h ⊢
        have hres : ra = rb := ga.2.trans gb.2.symm
        subst hres
        cases ra with
        | ok p' =>
          simp only at h ⊢
          exact searchLoop_rel f k fuel p' ta2 tb2 r ta' ga.1 gb.1 h
        | error err =>
          simp only [Option.some.injEq, Prod.mk.injEq] at h
          obtain ⟨h1, h2⟩ := h
          subst h1; subst h2
          exact ⟨ga.1, tb2, rfl, gb.1⟩
        | panic =>
          simp only [Option.some.injEq, Prod.mk.injEq] at h
          obtain ⟨h1, h2⟩ := h
          subst h1; subst h2
          exact ⟨ga.1, tb2, rfl, gb.1⟩
    · simp only [hint, if_false] at h ⊢
      by_cases hleaf : p.Type_ = pageTypeLBTree
      · simp only [hleaf, if_true, Option.some.injEq] at h ⊢
        have hrel := scanLeaf_rel p k ((p.Entries + 1) / 2) 0 ta tb (ha.1.trans hb.1.symm)
        have hfa := scanLeaf_frame p k ((p.Entries + 1) / 2) 0 ta
        have hfb := scanLeaf_frame p k ((p.Entries + 1) / 2) 0 tb
        rw [h] at hrel hfa
        simp only at hrel hfa
        refine ⟨Inv_of_frame f ta ta' ha hfa.1 hfa.2, (scanLeaf p k _ 0 tb).2, ?_,
          Inv_of_frame f tb _ hb hfb.1 hfb.2⟩
        rw [hrel]
      · simp only [hleaf, if_false, Option.some.injEq, Prod.mk.injEq] at h ⊢
        obtain ⟨h1, h2⟩ := h
        subst h2
        exact ⟨ha, tb, ⟨h1, rfl⟩, hb⟩

theorem search_rel (f : Img) (k : List Byte) (fuel : Nat) (ta tb : btree) (r : SearchRet)
    (ta' : btree) (ha : Inv f ta) (hb : Inv f tb) (h : search fuel ta k = some (r, ta')) :
    Inv f ta' ∧ ∃ tb', search fuel tb k = some (r, tb') ∧ Inv f tb' := by
  have hroot : ta.Root = tb.Root := by
    have := (img_fields ta tb (ha.1.trans hb.1.symm)).1
    simp only [btree.Root, this]
  simp only [search] at h ⊢
  have ga := getPage_Inv f ta ta.Root ha
  have gb := getPage_Inv f tb tb.Root hb
  rw [← hroot] at gb ⊢
  rcases hga : getPage ta ta.Root with ⟨ra, ta1⟩
  rcases hgb : getPage tb ta.Root with ⟨rb, tb1⟩
  rw [hga] at ga h
  rw [hgb] at gb
  simp only at ga gb h ⊢
  have hres : ra = rb := ga.2.trans gb.2.symm
  subst hres
  cases ra with
  | ok p =>
    simp only at h ⊢
    exact searchLoop_rel f k fuel p ta1 tb1 r ta' ga.1 gb.1 h
  | error err =>
    simp only [Option.some.injEq, Prod.mk.injEq] at h
    obtain ⟨h1, h2⟩ := h
    subst h1; subst h2
    exact ⟨ga.1, tb1, rfl, gb.1⟩
  | panic =>
    simp only [Option.some.injEq, Prod.mk.injEq] at h
    obtain ⟨h1, h2⟩ := h
    subst h1; subst h2
    exact ⟨ga.1, tb1, rfl, gb.1⟩


theorem Get_rel (f : Img) (k : List Byte) (fuel : Nat) (ta tb : btree)
    (r : Result (List Byte)) (ta' : btree) (ha : Inv f ta) (hb : Inv f tb)
    (h : Get fuel ta k = some (r, ta')) :
    Inv f ta' ∧ ∃ tb', Get fuel tb k = some (r, tb') ∧ Inv f tb' := by
  simp only [Get] at h ⊢
  rcases hsa : search fuel ta k with _ | ⟨sr, ta1⟩
  · rw [hsa] at h; simp at h
  · obtain ⟨ia1, tb1, hsb, ib1⟩ := search_rel f k fuel ta tb sr ta1 ha hb hsa
    rw [hsa] at h
    rw [hsb]
    cases sr with
    | panic =>
      simp only [Option.some.injEq, Prod.mk.injEq] at h
      obtain ⟨h1, h2⟩ := h
      subst h1; subst h2
      exact ⟨ia1, tb1, rfl, ib1⟩
    | ret n i err =>
      cases err with
      | some e =>
        simp only [Option.some.injEq, Prod.mk.injEq] at h
        obtain ⟨h1, h2⟩ := h
        subst h1; subst h2
        exact ⟨ia1, tb1, rfl, ib1⟩
      | none =>
        simp only at h ⊢
        by_cases hi : i < 0
        · simp only [hi, if_true, Option.some.injEq, Prod.mk.injEq] at h ⊢
          obtain ⟨h1, h2⟩ := h
          subst h1; subst h2
          exact ⟨ia1, tb1, ⟨rfl, rfl⟩, ib1⟩
        · simp only [hi, if_false] at h ⊢
          have ga := getPage_Inv f ta1 n ia1
          have gb := getPage_Inv f tb1 n ib1
          rcases hga : getPage ta1 n with ⟨ra, ta2⟩
          rcases hgb : getPage tb1 n with ⟨rb, tb2⟩
          rw [hga] at ga h
          rw [hgb] at gb
          simp only at ga gb h ⊢
          have hres : ra = rb := ga.2.trans gb.2.symm
          subst hres
          cases ra with
          | error err =>
            simp only [Option.some.injEq, Prod.mk.injEq] at h
            obtain ⟨h1, h2⟩ := h
            subst h1; subst h2
            exact ⟨ga.1, tb2, rfl, gb.1⟩
          | panic =>
            simp only [Option.some.injEq, Prod.mk.injEq] at h
            obtain ⟨h1, h2⟩ := h
            subst h1; subst h2
            exact ⟨ga.1, tb2, rfl, gb.1⟩
          | ok p =>
            simp only at h ⊢
            cases hoff : p.entryOffsets[(i + 1).toNat]? with
            | none =>
              rw [hoff] at h
              simp only [Option.some.injEq, Prod.mk.injEq] at h
              obtain ⟨h1, h2⟩ := h
              subst h1; subst h2
              exact ⟨ga.1, tb2, rfl, gb.1⟩
            | some off =>
              rw [hoff] at h
              simp only at h ⊢
              have hrel := readBKeyData_rel ta2 tb2 n off (ga.1.1.trans gb.1.1.symm)
              have hfa := readBKeyData_frame ta2 n off
              have hfb := readBKeyData_frame tb2 n off
              rcases hra : readBKeyData ta2 n off with ⟨ea, ta3⟩
              rcases hrb : readBKeyData tb2 n off with ⟨eb, tb3⟩
              rw [hra] at hrel hfa h
              rw [hrb] at hrel hfb
              simp only at hrel hfa hfb h ⊢
              subst hrel
              have ia3 : Inv f ta3 := Inv_of_frame f ta2 ta3 ga.1 hfa.1 hfa.2.1
              have ib3 : Inv f tb3 := Inv_of_frame f tb2 tb3 gb.1 hfb.1 hfb.2.1
              cases ea with
              | ok e =>
                simp only [Option.some.injEq, Prod.mk.injEq] at h
                obtain ⟨h1, h2⟩ := h
                subst h1; subst h2
                exact ⟨ia3, tb3, rfl, ib3⟩
              | error err =>
                simp only [Option.some.injEq, Prod.mk.injEq] at h
                obtain ⟨h1, h2⟩ := h
                subst h1; subst h2
                exact ⟨ia3, tb3, rfl, ib3⟩
              | panic =>
                simp only [Option.some.injEq, Prod.mk.injEq] at h
                obtain ⟨h1, h2⟩ := h
                subst h1; subst h2
                exact ⟨ia3, tb3, rfl, ib3⟩

theorem HasKey_Inv (f : Img) (k : List Byte) (fuel : Nat) (t : btree) (r : HasKeyRet)
    (t' : btree) (ht : Inv f t) (h : HasKey fuel t k = some (r, t')) : Inv f t' := by
  simp only [HasKey] at h
  rcases hs : search fuel t k with _ | ⟨sr, t1⟩
  · rw [hs] at h; simp at h
  · have i1 := (search_rel f k fuel t t sr t1 ht ht hs).1
    rw [hs] at h
    cases sr with
    | panic =>
      simp only [Option.some.injEq, Prod.mk.injEq] at h
      rw [← h.2]; exact i1
    | ret n i err =>
      simp only at h
      split at h
      · simp only [Option.some.injEq, Prod.mk.injEq] at h
        rw [← h.2]; exact i1
      · simp only [Option.some.injEq, Prod.mk.injEq] at h
        rw [← h.2]; exact i1

theorem newBTreeReader_pages (r : ReadSeeker) (t : btree) (h : newBTreeReader r = .ok t) :
    t.pages = [] := by
  unfold newBTreeReader at h
  simp only at h
  split at h
  · simp at h
  · simp at h
  · split at h
    · simp at h
    · simp only [Result.ok.injEq] at h
      rw [← h]

/-- Every reachable reader state has a cache that obeys the invariant. -/
theorem Reachable_Inv (t : btree) (h : Reachable t) : Inv t.img t := by
  induction h with
  | opened r t h => exact ⟨rfl, by rw [newBTreeReader_pages r t h]; exact CacheInv_nil _⟩
  | get t fuel k res t' _ h ih =>
    have := (Get_rel t.img k fuel t t res t' ih ih h).1
    have himg : t'.img = t.img := this.1
    rw [himg]; exact this
  | hasKey t fuel k res t' _ h ih =>
    have := HasKey_Inv t.img k fuel t res t' ih h
    have himg : t'.img = t.img := this.1
    rw [himg]; exact this


/-! ## C11 -/


theorem itemAt_inside (s : List Byte) (z : Bool) (o : Nat)
    (h : o + 3 + u16 s o ≤ s.length) (hz : z = true → o + 3 < s.length) :
    ∃ e, itemAt s z o = some e ∧ e.Len = u16 s o ∧ e.Type_ = u8 s (o + 2) ∧
      e.Data = bytesAt s (o + 3) e.Len ∧ e.Data.length = e.Len := by
  have h1 : o + btreeEntrySize ≤ s.length := by simp only [btreeEntrySize]; omega
  have hLen : (decodeBtreeEntry (bytesAt s o btreeEntrySize)).Len = u16 s o := by
    have := u16_bytesAt s o 3 0 (by omega)
    simpa [decodeBtreeEntry, btreeEntrySize] using this
  have hTy : (decodeBtreeEntry (bytesAt s o btreeEntrySize)).Type_ = u8 s (o + 2) :=
    u8_bytesAt s o 3 2 (by omega)
  have h2 : o + btreeEntrySize + (decodeBtreeEntry (bytesAt s o btreeEntrySize)).Len ≤ s.length ∧
      (z = true → o + btreeEntrySize < s.length) := by
    rw [hLen]; simp only [btreeEntrySize]; exact ⟨h, hz⟩
  refine ⟨{ tobtreeEntry := decodeBtreeEntry (bytesAt s o btreeEntrySize),
             Data := bytesAt s (o + btreeEntrySize)
               (decodeBtreeEntry (bytesAt s o btreeEntrySize)).Len }, ?_, hLen, hTy, rfl, ?_⟩
  · unfold itemAt
    rw [if_pos h1]
    simp only
    rw [if_pos h2]
  · exact bytesAt_length s (o + btreeEntrySize) _ h2.1

theorem internalAt_inside (s : List Byte) (z : Bool) (o : Nat)
    (h : o + 12 + u16 s o ≤ s.length) (hz : z = true → o + 12 < s.length) :
    ∃ e, internalAt s z o = some e ∧ e.Len = u16 s o ∧ e.Type_ = u8 s (o + 2) ∧
      e.Pgno = u32 s (o + 4) ∧ e.NRecs = u32 s (o + 8) ∧
      e.Data = bytesAt s (o + 12) e.Len ∧ e.Data.length = e.Len := by
  have h1 : o + binternalHeaderSize ≤ s.length := by simp only [binternalHeaderSize]; omega
  have hLen : (decodeBinternalHeader (bytesAt s o binternalHeaderSize)).Len = u16 s o := by
    have := u16_bytesAt s o 12 0 (by omega)
    simpa [decodeBinternalHeader, binternalHeaderSize] using this
  have hTy : (decodeBinternalHeader (bytesAt s o binternalHeaderSize)).Type_ = u8 s (o + 2) :=
    u8_bytesAt s o 12 2 (by omega)
  have hPg : (decodeBinternalHeader (bytesAt s o binternalHeaderSize)).Pgno = u32 s (o + 4) :=
    u32_bytesAt s o 12 4 (by omega)
  have hNR : (decodeBinternalHeader (bytesAt s o binternalHeaderSize)).NRecs = u32 s (o + 8) :=
    u32_bytesAt s o 12 8 (by omega)
  have h2 : o + binternalHeaderSize +
        (decodeBinternalHeader (bytesAt s o binternalHeaderSize)).Len ≤ s.length ∧
      (z = true → o + binternalHeaderSize < s.length) := by
    rw [hLen]; simp only [binternalHeaderSize]; exact ⟨h, hz⟩
  refine ⟨{ tobinternalHeader := decodeBinternalHeader (bytesAt s o binternalHeaderSize),
             Data := bytesAt s (o + binternalHeaderSize)
               (decodeBinternalHeader (bytesAt s o binternalHeaderSize)).Len },
    ?_, hLen, hTy, hPg, hNR, rfl, ?_⟩
  · unfold internalAt
    rw [if_pos h1]
    simp only
    rw [if_pos h2]
  · exact bytesAt_length s (o + binternalHeaderSize) _ h2.1

/-- The layout of an item and of an internal entry at the position that the
code computes for entry offset `entryOffset` of page `n`: the product
`n * PageSize` as a `uint32`, plus the offset. -/
theorem readEntry_at (t : btree) (n entryOffset : Nat) :
    ((n * t.PageSize) % 2 ^ 32 + entryOffset + 3 +
          u16 t.r.s ((n * t.PageSize) % 2 ^ 32 + entryOffset) ≤ t.r.s.length →
      (t.r.zeroReadEOF = true →
        (n * t.PageSize) % 2 ^ 32 + entryOffset + 3 < t.r.s.length) →
      ∃ e t', readBKeyData t n entryOffset = (.ok e, t') ∧
        e.Len = u16 t.r.s ((n * t.PageSize) % 2 ^ 32 + entryOffset) ∧
        e.Type_ = u8 t.r.s ((n * t.PageSize) % 2 ^ 32 + entryOffset + 2) ∧
        e.Data = bytesAt t.r.s ((n * t.PageSize) % 2 ^ 32 + entryOffset + 3) e.Len ∧
        e.Data.length = e.Len) ∧
    ((n * t.PageSize) % 2 ^ 32 + entryOffset + 12 +
          u16 t.r.s ((n * t.PageSize) % 2 ^ 32 + entryOffset) ≤ t.r.s.length →
      (t.r.zeroReadEOF = true →
        (n * t.PageSize) % 2 ^ 32 + entryOffset + 12 < t.r.s.length) →
      ∃ e t', readBInternal t n entryOffset = (.ok e, t') ∧
        e.Len = u16 t.r.s ((n * t.PageSize) % 2 ^ 32 + entryOffset) ∧
        e.Type_ = u8 t.r.s ((n * t.PageSize) % 2 ^ 32 + entryOffset + 2) ∧
        e.Pgno = u32 t.r.s ((n * t.PageSize) % 2 ^ 32 + entryOffset + 4) ∧
        e.NRecs = u32 t.r.s ((n * t.PageSize) % 2 ^ 32 + entryOffset + 8) ∧
        e.Data = bytesAt t.r.s ((n * t.PageSize) % 2 ^ 32 + entryOffset + 12) e.Len ∧
        e.Data.length = e.Len) := by
  constructor
  · intro h hz
    obtain ⟨e, he, h1, h2, h3, h4⟩ := itemAt_inside t.r.s t.r.zeroReadEOF _ h hz
    obtain ⟨t', hr, _, _⟩ := readBKeyData_ok t n entryOffset e he
    exact ⟨e, t', hr, h1, h2, h3, h4⟩
  · intro h hz
    obtain ⟨e, he, h1, h2, h3, h4, h5, h6⟩ := internalAt_inside t.r.s t.r.zeroReadEOF _ h hz
    obtain ⟨t', hr, _, _⟩ := readBInternal_ok t n entryOffset e he
    exact ⟨e, t', hr, h1, h2, h3, h4, h5, h6⟩


set_option maxRecDepth 100000 in
/-- C11, as stated, fails: in the 640-byte stream `lastItem` the item at entry
offset 125 of page 4 declares length 0 and exactly 3 + 0 bytes remain, and the
twelve bytes at entry offset 116 declare key length 0 and exactly 12 + 0 bytes
remain.  On a stream that reports `io.EOF` for an empty read at its end
(`bytes.Reader`), `readBKeyData` and `readBInternal` decode the header, make
the empty payload read at the end of the stream and return `io.EOF` instead
of the entry; on a stream that accepts the empty read they return the
entry. -/
theorem readEntry_empty_at_end :
    lastItem.length = 640 ∧ (readerOn lastItem true).PageSize = 128 ∧
    (u16 lastItem (4 * 128 + 125) = 0 ∧ 4 * 128 + 125 + 3 + 0 = lastItem.length ∧
      (readBKeyData (readerOn lastItem true) 4 125).1 = .error Err.EOF ∧
      (readBKeyData (readerOn lastItem false) 4 125).1 =
        .ok { Len := 0, Type_ := 1, Data := [] }) ∧
    (u16 lastItem (4 * 128 + 116) = 0 ∧ 4 * 128 + 116 + 12 + 0 = lastItem.length ∧
      (readBInternal (readerOn lastItem true) 4 116).1 = .error Err.EOF ∧
      (readBInternal (readerOn lastItem false) 4 116).1 =
        .ok { Len := 0, Type_ := 0, Unused := 0, Pgno := 0, NRecs := 16777216, Data := [] }) := by
  decide

/-- C11, amended: let page `n` start below `2 ^ 32`, so that the code seeks to
`off = n * PageSize + entryOffset`.  When the 3-byte item header and the `Len`
payload bytes it declares lie inside the stream and, on a stream that reports
`io.EOF` for an empty read at its end, at least one byte follows the header,
`readBKeyData` returns `Len` = the little-endian 16-bit value at `off`,
`Type` = the byte at `off + 2` and `Data` = the `Len` bytes from `off + 3` on.
When the 12-byte internal header and its `Len` key bytes lie inside the stream
and, on such a stream, at least one byte follows the header, `readBInternal`
returns `Len` and `Type` likewise, `Pgno` = the little-endian 32-bit value at
`off + 4`, `NRecs` = the one at `off + 8`, and `Data` = the `Len` bytes from
`off + 12` on. -/
theorem readEntry_layout (t : btree) (n entryOffset : Nat) (hn : n * t.PageSize < 2 ^ 32) :
    (n * t.PageSize + entryOffset + 3 + u16 t.r.s (n * t.PageSize + entryOffset) ≤
        t.r.s.length →
      (t.r.zeroReadEOF = true → n * t.PageSize + entryOffset + 3 < t.r.s.length) →
      ∃ e t', readBKeyData t n entryOffset = (.ok e, t') ∧
        e.Len = u16 t.r.s (n * t.PageSize + entryOffset) ∧
        e.Type_ = u8 t.r.s (n * t.PageSize + entryOffset + 2) ∧
        e.Data = bytesAt t.r.s (n * t.PageSize + entryOffset + 3) e.Len ∧
        e.Data.length = e.Len) ∧
    (n * t.PageSize + entryOffset + 12 + u16 t.r.s (n * t.PageSize + entryOffset) ≤
        t.r.s.length →
      (t.r.zeroReadEOF = true → n * t.PageSize + entryOffset + 12 < t.r.s.length) →
      ∃ e t', readBInternal t n entryOffset = (.ok e, t') ∧
        e.Len = u16 t.r.s (n * t.PageSize + entryOffset) ∧
        e.Type_ = u8 t.r.s (n * t.PageSize + entryOffset + 2) ∧
        e.Pgno = u32 t.r.s (n * t.PageSize + entryOffset + 4) ∧
        e.NRecs = u32 t.r.s (n * t.PageSize + entryOffset + 8) ∧
        e.Data = bytesAt t.r.s (n * t.PageSize + entryOffset + 12) e.Len ∧
        e.Data.length = e.Len) := by
  have h := readEntry_at t n entryOffset
  rw [Nat.mod_eq_of_lt hn] at h
  exact h

set_option maxRecDepth 100000 in
theorem readEntry_layout_witness :
    (6 * (readerOn treeFile true).PageSize < 2 ^ 32 ∧
      4 * (readerOn treeFile true).PageSize < 2 ^ 32) ∧
    (readBKeyData (readerOn treeFile true) 6 42).1 =
      .ok { Len := 1, Type_ := 1, Data := str "c" } ∧
    (readBInternal (readerOn treeFile true) 4 44).1 =
      .ok { Len := 1, Type_ := 1, Unused := 0, Pgno := 6, NRecs := 0, Data := str "b" } ∧
    (∃ e t', readBKeyData (readerOn treeFile true) 6 42 = (.ok e, t') ∧
      e.Len = u16 (readerOn treeFile true).r.s (6 * (readerOn treeFile true).PageSize + 42) ∧
      e.Type_ = u8 (readerOn treeFile true).r.s
        (6 * (readerOn treeFile true).PageSize + 42 + 2) ∧
      e.Data = bytesAt (readerOn treeFile true).r.s
        (6 * (readerOn treeFile true).PageSize + 42 + 3) e.Len ∧
      e.Data.length = e.Len) ∧
    (∃ e t', readBInternal (readerOn treeFile true) 4 44 = (.ok e, t') ∧
      e.Len = u16 (readerOn treeFile true).r.s (4 * (readerOn treeFile true).PageSize + 44) ∧
      e.Type_ = u8 (readerOn treeFile true).r.s
        (4 * (readerOn treeFile true).PageSize + 44 + 2) ∧
      e.Pgno = u32 (readerOn treeFile true).r.s
        (4 * (readerOn treeFile true).PageSize + 44 + 4) ∧
      e.NRecs = u32 (readerOn treeFile true).r.s
        (4 * (readerOn treeFile true).PageSize + 44 + 8) ∧
      e.Data = bytesAt (readerOn treeFile true).r.s
        (4 * (readerOn treeFile true).PageSize + 44 + 12) e.Len ∧
      e.Data.length = e.Len) :=
  ⟨⟨by decide, by decide⟩, by decide, by decide,
    (readEntry_layout (readerOn treeFile true) 6 42 (by decide)).1 (by decide) (by decide),
    (readEntry_layout (readerOn treeFile true) 4 44 (by decide)).2 (by decide) (by decide)⟩

/-! ## C12 -/

/-- C12: on `truncatedLeaf` the item at entry offset 46 of page 4 declares a
payload of 4 bytes, and only 5 bytes (fewer than 3 + 4) remain before the end
of the stream; `readBKeyData` returns an entry, its payload padded with zero
bytes, instead of an error.  On `truncatedInternal` the entry at offset 42
declares a key of 3 bytes and only 13 bytes (fewer than 12 + 3) remain;
`readBInternal` returns an entry likewise. -/
theorem readEntry_short_payload :
    (u16 truncatedLeaf (4 * 128 + 46) = 4 ∧ truncatedLeaf.length - (4 * 128 + 46) = 5 ∧
      (readBKeyData (readerOn truncatedLeaf true) 4 46).1 =
        .ok { Len := 4, Type_ := 1, Data := [98, 101, 0, 0] }) ∧
    (u16 truncatedInternal (4 * 128 + 42) = 3 ∧
      truncatedInternal.length - (4 * 128 + 42) = 13 ∧
      (readBInternal (readerOn truncatedInternal true) 4 42).1 =
        .ok { Len := 3, Type_ := 1, Unused := 0, Pgno := 6, NRecs := 0,
              Data := [107, 0, 0] }) := by
  set_option maxRecDepth 100000 in decide


/-! ## Cached pages stay cached -/

theorem Ext_refl (t : btree) : Ext t t := ⟨rfl, fun _ _ h => h⟩

theorem Ext_trans (t t' t'' : btree) (h1 : Ext t t') (h2 : Ext t' t'') : Ext t t'' :=
  ⟨h2.1.trans h1.1, fun m q h => h2.2 m q (h1.2 m q h)⟩

theorem Ext_of_frame (t t' : btree) (hi : t'.img = t.img) (hp : t'.pages = t.pages) :
    Ext t t' := ⟨hi, fun m q h => by rw [hp]; exact h⟩

theorem getPage_Ext (t : btree) (n : Nat) : Ext t (getPage t n).2 :=
  ⟨getPage_frame t n, fun m q h => getPage_slot_mono t n m q h⟩

theorem searchLoop_Ext (k : List Byte) :
    ∀ (fuel : Nat) (p : page) (t : btree) (r : SearchRet) (t' : btree),
      searchLoop k fuel p t = some (r, t') → Ext t t'
  | 0, _, _, _, _, h => by simp [searchLoop] at h
  | fuel + 1, p, t, r, t', h => by
    simp only [searchLoop] at h
    split at h
    · have hf := chooseChild_frame p k t
      split at h
      next r0 t1 hcc =>
        rw [hcc] at hf
        simp only [Option.some.injEq, Prod.mk.injEq] at h
        rw [← h.2]; exact Ext_of_frame t t1 hf.1 hf.2
      next e t1 hcc =>
        rw [hcc] at hf
        have h1 := Ext_of_frame t t1 hf.1 hf.2
        have hg := getPage_Ext t1 e.Pgno
        split at h
        next p' t2 hgp =>
          rw [hgp] at hg
          exact Ext_trans _ _ _ (Ext_trans _ _ _ h1 hg) (searchLoop_Ext k fuel p' t2 r t' h)
        next err t2 hgp =>
          rw [hgp] at hg
          simp only [Option.some.injEq, Prod.mk.injEq] at h
          rw [← h.2]; exact Ext_trans _ _ _ h1 hg
        next t2 hgp =>
          rw [hgp] at hg
          simp only [Option.some.injEq, Prod.mk.injEq] at h
          rw [← h.2]; exact Ext_trans _ _ _ h1 hg
    · split at h
      · simp only [Option.some.injEq] at h
        have hf := scanLeaf_frame p k ((p.Entries + 1) / 2) 0 t
        rw [h] at hf
        exact Ext_of_frame t t' hf.1 hf.2
      · simp only [Option.some.injEq, Prod.mk.injEq] at h
        rw [← h.2]; exact Ext_refl t

theorem search_Ext (fuel : Nat) (t : btree) (k : List Byte) (r : SearchRet) (t' : btree)
    (h : search fuel t k = some (r, t')) : Ext t t' := by
  simp only [search] at h
  have hg := getPage_Ext t t.Root
  split at h
  next err t1 hgp =>
    rw [hgp] at hg
    simp only [Option.some.injEq, Prod.mk.injEq] at h
    rw [← h.2]; exact hg
  next t1 hgp =>
    rw [hgp] at hg
    simp only [Option.some.injEq, Prod.mk.injEq] at h
    rw [← h.2]; exact hg
  next p t1 hgp =>
    rw [hgp] at hg
    exact Ext_trans _ _ _ hg (searchLoop_Ext k fuel p t1 r t' h)

theorem Get_Ext (fuel : Nat) (t : btree) (k : List Byte) (r : Result (List Byte))
    (t' : btree) (h : Get fuel t k = some (r, t')) : Ext t t' := by
  simp only [Get] at h
  split at h
  · simp at h
  next t1 hs =>
    simp only [Option.some.injEq, Prod.mk.injEq] at h
    rw [← h.2]; exact search_Ext fuel t k _ t1 hs
  next n i err t1 hs =>
    simp only [Option.some.injEq, Prod.mk.injEq] at h
    rw [← h.2]; exact search_Ext fuel t k _ t1 hs
  next n i t1 hs =>
    have h1 := search_Ext fuel t k _ t1 hs
    split at h
    · simp only [Option.some.injEq, Prod.mk.injEq] at h
      rw [← h.2]; exact h1
    · have hg := getPage_Ext t1 n
      split at h
      next err t2 hgp =>
        rw [hgp] at hg
        simp only [Option.some.injEq, Prod.mk.injEq] at h
        rw [← h.2]; exact Ext_trans _ _ _ h1 hg
      next t2 hgp =>
        rw [hgp] at hg
        simp only [Option.some.injEq, Prod.mk.injEq] at h
        rw [← h.2]; exact Ext_trans _ _ _ h1 hg
      next p t2 hgp =>
        rw [hgp] at hg
        have h2 := Ext_trans _ _ _ h1 hg
        split at h
        · simp only [Option.some.injEq, Prod.mk.injEq] at h
          rw [← h.2]; exact h2
        next off _ =>
          have hf := readBKeyData_frame t2 n off
          split at h
          next e t3 hr =>
            rw [hr] at hf
            simp only [Option.some.injEq, Prod.mk.injEq] at h
            rw [← h.2]; exact Ext_trans _ _ _ h2 (Ext_of_frame t2 t3 hf.1 hf.2.1)
          next err t3 hr =>
            rw [hr] at hf
            simp only [Option.some.injEq, Prod.mk.injEq] at h
            rw [← h.2]; exact Ext_trans _ _ _ h2 (Ext_of_frame t2 t3 hf.1 hf.2.1)
          next t3 hr =>
            rw [hr] at hf
            simp only [Option.some.injEq, Prod.mk.injEq] at h
            rw [← h.2]; exact Ext_trans _ _ _ h2 (Ext_of_frame t2 t3 hf.1 hf.2.1)

theorem HasKey_Ext (fuel : Nat) (t : btree) (k : List Byte) (r : HasKeyRet) (t' : btree)
    (h : HasKey fuel t k = some (r, t')) : Ext t t' := by
  simp only [HasKey] at h
  split at h
  · simp at h
  next t1 hs =>
    simp only [Option.some.injEq, Prod.mk.injEq] at h
    rw [← h.2]; exact search_Ext fuel t k _ t1 hs
  next n i err t1 hs =>
    split at h
    · simp only [Option.some.injEq, Prod.mk.injEq] at h
      rw [← h.2]; exact search_Ext fuel t k _ t1 hs
    · simp only [Option.some.injEq, Prod.mk.injEq] at h
      rw [← h.2]; exact search_Ext fuel t k _ t1 hs

theorem Later_Ext (t t' : btree) (h : Later t t') : Ext t t' := by
  induction h with
  | refl => exact Ext_refl _
  | getPage t' n _ ih => exact Ext_trans _ _ _ ih (getPage_Ext t' n)
  | readBInternal t' n off _ ih =>
    have hf := readBInternal_frame t' n off
    exact Ext_trans _ _ _ ih (Ext_of_frame _ _ hf.1 hf.2.1)
  | readBKeyData t' n off _ ih =>
    have hf := readBKeyData_frame t' n off
    exact Ext_trans _ _ _ ih (Ext_of_frame _ _ hf.1 hf.2.1)
  | search t' fuel k r t'' _ hs ih => exact Ext_trans _ _ _ ih (search_Ext fuel t' k r t'' hs)
  | get t' fuel k r t'' _ hs ih => exact Ext_trans _ _ _ ih (Get_Ext fuel t' k r t'' hs)
  | hasKey t' fuel k r t'' _ hs ih => exact Ext_trans _ _ _ ih (HasKey_Ext fuel t' k r t'' hs)

/-! ## C13 -/

/-- C13: once `getPage n` has succeeded with page `p`, every later `getPage n`
(after any calls of `getPage`, `readBInternal`, `readBKeyData`, `search`,
`Get`, `HasKey`) returns the same page `p` and hands the reader back exactly as
it was: same read position, same page cache. -/
theorem getPage_cached (t t1 t2 : btree) (n : Nat) (p : page)
    (h : getPage t n = (.ok p, t1)) (hl : Later t1 t2) :
    getPage t2 n = (.ok p, t2) := by
  obtain ⟨hn, hslot⟩ := getPage_ok_slot t t1 n p h
  have hg := getPage_frame t n
  rw [h] at hg
  have he := Later_Ext t1 t2 hl
  have hLP : t2.LastPgno = t.LastPgno := by
    have := (img_fields t2 t (he.1.trans hg)).1
    simp only [btree.LastPgno, this]
  exact getPage_hit t2 n p (by omega) (he.2 n p hslot)

set_option maxRecDepth 100000 in
theorem getPage_cached_witness :
    getPage (readerOn treeFile true) 6 = (.ok treeLeaf6, (getPage (readerOn treeFile true) 6).2) ∧
    getPage (readBKeyData (getPage (getPage (readerOn treeFile true) 6).2 5).2 5 30).2 6 =
      (.ok treeLeaf6, (readBKeyData (getPage (getPage (readerOn treeFile true) 6).2 5).2 5 30).2) := by
  have h1 : (getPage (readerOn treeFile true) 6).1 = .ok treeLeaf6 := by decide
  have h : getPage (readerOn treeFile true) 6 =
      (.ok treeLeaf6, (getPage (readerOn treeFile true) 6).2) := Prod.ext h1 rfl
  exact ⟨h, getPage_cached (readerOn treeFile true) _ _ 6 treeLeaf6 h
    (Later.readBKeyData _ _ 5 30 (Later.getPage _ _ 5 (Later.refl _)))⟩


/-! ## C14 -/

/-- C14: on every reachable reader state and for every key, when a call of
`Get k` returns (a value, an error, or a panic), the next call of `Get k` on
the reader it leaves behind returns, within the same step bound, the identical
result. -/
theorem Get_twice (t t1 : btree) (fuel : Nat) (k : List Byte) (res : Result (List Byte))
    (hr : Reachable t) (h : Get fuel t k = some (res, t1)) :
    ∃ t2, Get fuel t1 k = some (res, t2) := by
  have hi := Reachable_Inv t hr
  have h1 := (Get_rel t.img k fuel t t res t1 hi hi h).1
  obtain ⟨t2, h2, _⟩ := (Get_rel t.img k fuel t t1 res t1 hi h1 h).2
  exact ⟨t2, h2⟩

theorem readerOn_opened (s : List Byte) (z : Bool) (i : Nat) (h : 512 ≤ s.length)
    (hm : u32 s 12 = btreeMagic) :
    newBTreeReader { s := s, i := i, zeroReadEOF := z } = .ok (readerOn s z) := by
  rw [newBTreeReader_long _ h]
  simp only [hm, ne_eq, not_true_eq_false, if_false]
  rfl

set_option maxRecDepth 100000 in
theorem Get_twice_witness :
    Reachable (readerOn treeFile true) ∧
    ∃ t1 t2, Get 2 (readerOn treeFile true) (str "c") = some (.ok (str "3"), t1) ∧
      Get 2 t1 (str "c") = some (.ok (str "3"), t2) := by
  have hreach : Reachable (readerOn treeFile true) :=
    Reachable.opened { s := treeFile, i := 0, zeroReadEOF := true } _
      (readerOn_opened treeFile true 0 (by decide) (by decide))
  have hs : (Get 2 (readerOn treeFile true) (str "c")).map Prod.fst = some (.ok (str "3")) := by
    decide
  rcases hg : Get 2 (readerOn treeFile true) (str "c") with _ | ⟨res, t1⟩
  · rw [hg] at hs; simp at hs
  · rw [hg] at hs
    simp only [Option.map_some', Option.some.injEq] at hs
    subst hs
    obtain ⟨t2, h2⟩ := Get_twice (readerOn treeFile true) t1 2 (str "c") _ hreach hg
    exact ⟨hreach, t1, t2, rfl, h2⟩


/-! ## C15 -/

/-- C15: whatever `search` returns, `HasKey` maps it as follows: `NotFound`
becomes `(false, nil)`; any other error `e` becomes `(false, e)`; success
becomes `(true, nil)`.  `HasKey` never returns `NotFound` as its error. -/
theorem HasKey_mapping (fuel : Nat) (t : btree) (k : List Byte) :
    (∀ n i err t1, search fuel t k = some (.ret n i err, t1) →
      (err = some Err.NotFound → HasKey fuel t k = some (.ret false none, t1)) ∧
      (∀ e, err = some e → e ≠ Err.NotFound →
        HasKey fuel t k = some (.ret false (some e), t1)) ∧
      (err = none → HasKey fuel t k = some (.ret true none, t1))) ∧
    (∀ b t1, HasKey fuel t k ≠ some (.ret b (some Err.NotFound), t1)) := by
  constructor
  · intro n i err t1 hs
    refine ⟨?_, ?_, ?_⟩
    · intro he
      simp only [HasKey, hs, he, if_true]
    · intro e he hne
      have h1 : ¬ (some e = some Err.NotFound) := fun h => hne (Option.some.inj h)
      subst he
      simp only [HasKey, hs, h1, if_false]
      rfl
    · intro he
      subst he
      simp only [HasKey, hs]
      rfl
  · intro b t1 h
    simp only [HasKey] at h
    split at h
    · simp at h
    · simp at h
    · split at h
      · simp at h
      next hne =>
        simp only [Option.some.injEq, Prod.mk.injEq, HasKeyRet.ret.injEq] at h
        exact hne h.1.2

set_option maxRecDepth 100000 in
theorem HasKey_mapping_witness :
    (search 1 (readerOn alphaBeta true) (str "gamma")).map Prod.fst =
      some (.ret 0 (-1) (some Err.NotFound)) ∧
    (HasKey 1 (readerOn alphaBeta true) (str "gamma")).map Prod.fst =
      some (.ret false none) ∧
    (search 1 (readerOn (alphaBeta.take (4 * 128 + 48)) true) (str "gamma")).map Prod.fst =
      some (.ret 4 2 (some Err.ErrUnexpectedEOF)) ∧
    (HasKey 1 (readerOn (alphaBeta.take (4 * 128 + 48)) true) (str "gamma")).map Prod.fst =
      some (.ret false (some Err.ErrUnexpectedEOF)) ∧
    (∀ b t1, HasKey 1 (readerOn alphaBeta true) (str "gamma") ≠
      some (.ret b (some Err.NotFound), t1)) :=
  ⟨by decide, by decide, by decide, by decide,
    (HasKey_mapping 1 (readerOn alphaBeta true) (str "gamma")).2⟩


/-! ## C16 -/

set_option maxRecDepth 100000 in
/-- On `cyclic`, with the root page in the cache, the descent loop never
leaves the root page. -/
theorem searchLoop_cyclic (k : List Byte) : ∀ (N : Nat) (t : btree),
    t.img = (readerOn cyclic true).img → t.pages[4]? = some (some cyclicRoot) →
    searchLoop k N cyclicRoot t = none
  | 0, _, _, _ => rfl
  | N + 1, t, hf, hslot => by
    have hty : cyclicRoot.Type_ = pageTypeIBTree := rfl
    obtain ⟨t', hcc, hf', hp'⟩ := chooseChild_ok (readerOn cyclic true).img cyclicRoot k
      (internalEntry 4 []) [] t hf (by decide)
    have hLP : t'.LastPgno = 4 := by
      have h1 : t'.LastPgno = t'.img.LastPgno := rfl
      rw [h1, hf']
      decide
    have hg : getPage t' (internalEntry 4 []).Pgno = (.ok cyclicRoot, t') :=
      getPage_hit t' 4 cyclicRoot (by omega) (by rw [hp']; exact hslot)
    have hch : choose k (internalEntry 4 []) [] = internalEntry 4 [] := rfl
    rw [hch] at hcc
    simp only [searchLoop, hty, if_true, hcc, hg]
    exact searchLoop_cyclic k N t' hf' (by rw [hp']; exact hslot)

set_option maxRecDepth 100000 in
/-- C16: on the file `cyclic`, whose root is an internal-btree page with one
entry that references the root page itself, `search` does not return within
any step bound `N`, for any key: every iteration of the descent loop fetches
the same internal page again.  No visited-page or depth check stops it. -/
theorem search_never_returns :
    (getPage (readerOn cyclic true) (readerOn cyclic true).Root).1 = .ok cyclicRoot ∧
    cyclicRoot.Type_ = pageTypeIBTree ∧
    (readerOn cyclic true).img.internals cyclicRoot cyclicRoot.Entries 0 =
      some [internalEntry 4 []] ∧
    ∀ (k : List Byte) (N : Nat), search N (readerOn cyclic true) k = none := by
  have h1 : (getPage (readerOn cyclic true) (readerOn cyclic true).Root).1 = .ok cyclicRoot := by
    decide
  refine ⟨h1, rfl, by decide, ?_⟩
  intro k N
  have hroot : (readerOn cyclic true).Root = 4 := by decide
  have hg : getPage (readerOn cyclic true) (readerOn cyclic true).Root =
      (.ok cyclicRoot, (getPage (readerOn cyclic true) (readerOn cyclic true).Root).2) :=
    Prod.ext h1 rfl
  have hslot := (getPage_ok_slot _ _ _ _ hg).2
  rw [hroot] at hslot
  simp only [search]
  rw [hg]
  exact searchLoop_cyclic k N _ (getPage_frame _ _) hslot

/-! ## C17: the stream offsets of pages and entries -/

/-- Two page numbers whose products with the page size agree modulo `2 ^ 32`
address the same bytes in `readBInternal` and `readBKeyData`. -/
theorem readEntry_alias (t : btree) (n m off : Nat)
    (h : (n * t.PageSize) % 2 ^ 32 = (m * t.PageSize) % 2 ^ 32) :
    readBInternal t n off = readBInternal t m off ∧
    readBKeyData t n off = readBKeyData t m off := by
  simp only [readBInternal, readBKeyData, h, and_self]

/-- On a fresh reader `getPage` decodes what lies at `(n * PageSize) % 2 ^ 32`
whenever `n` is inside the allocated cache. -/
theorem getPage_fresh (t : btree) (n : Nat) (h : t.pages = []) (hn : n ≤ t.LastPgno)
    (hl : n < (t.LastPgno + 1) % 2 ^ 32) :
    (getPage t n).1 = t.img.readPage n := by
  have hs : (allocPages t).pages[n]? = some none := by
    simp only [allocPages, h, List.length_nil, if_true]
    rw [List.getElem?_replicate, if_pos hl]
  rw [getPage_eq, if_neg (by omega), hs]
  simp only
  rw [missRead_result, allocPages_img]

set_option maxRecDepth 100000 in
/-- C17 (code defect): the product `n * PageSize` is taken in 32 bits before
the conversion to a 64-bit offset. On a 512-byte file that declares page size
65536 and last page 65536, page 65536 lies at the exact offset `2 ^ 32`, far
behind the end of the stream, but `getPage 65536` seeks to offset 0 and
returns the first 26 bytes of the metadata page as a page header, and
`readBInternal` and `readBKeyData` at entry offset 7 of page 65536 seek to
offset 7 and return what they return for page 0. -/
theorem seek_offset_wraps :
    (readerOn bigPages true).PageSize = 65536 ∧
    (readerOn bigPages true).LastPgno = 65536 ∧
    bigPages.length = 512 ∧
    (getPage (readerOn bigPages true) 65536).1 =
      .ok { LSN := { File := 0, Offset := 0 }, Pgno := 0, PrevPgno := 340322, NextPgno := 9,
            Entries := 0, HFOffset := 1, Level := 0, Type_ := 9, entryOffsets := [] } ∧
    (getPage (readerOn bigPages true) 65536).1 = (getPage (readerOn bigPages true) 0).1 ∧
    readBInternal (readerOn bigPages true) 65536 7 = readBInternal (readerOn bigPages true) 0 7 ∧
    (readBInternal (readerOn bigPages true) 65536 7).1 =
      .ok { Len := 0, Type_ := 0, Unused := 0, Pgno := 87122432, NRecs := 2304, Data := [] } ∧
    (readBInternal (readerOn bigPages true) 65536 7).2.r.i = 7 + 12 ∧
    readBKeyData (readerOn bigPages true) 65536 7 = readBKeyData (readerOn bigPages true) 0 7 ∧
    (readBKeyData (readerOn bigPages true) 65536 7).1 = .ok { Len := 0, Type_ := 0, Data := [] } ∧
    (readBKeyData (readerOn bigPages true) 65536 7).2.r.i = 7 + 3 := by
  have hP : (readerOn bigPages true).PageSize = 65536 := by decide
  have hL : (readerOn bigPages true).LastPgno = 65536 := by decide
  have ha := readEntry_alias (readerOn bigPages true) 65536 0 7 (by rw [hP]; decide)
  have hg : (getPage (readerOn bigPages true) 65536).1 =
      (readerOn bigPages true).img.readPage 65536 :=
    getPage_fresh _ _ rfl (by rw [hL]) (by rw [hL]; decide)
  have hg0 : (getPage (readerOn bigPages true) 0).1 =
      (readerOn bigPages true).img.readPage 0 :=
    getPage_fresh _ _ rfl (by rw [hL]; decide) (by rw [hL]; decide)
  have hr : (readerOn bigPages true).img.readPage 65536 =
      .ok { LSN := { File := 0, Offset := 0 }, Pgno := 0, PrevPgno := 340322, NextPgno := 9,
            Entries := 0, HFOffset := 1, Level := 0, Type_ := 9, entryOffsets := [] } := by
    decide
  have hr0 : (readerOn bigPages true).img.readPage 0 =
      .ok { LSN := { File := 0, Offset := 0 }, Pgno := 0, PrevPgno := 340322, NextPgno := 9,
            Entries := 0, HFOffset := 1, Level := 0, Type_ := 9, entryOffsets := [] } := by
    decide
  refine ⟨hP, hL, by decide, hg.trans hr, by rw [hg, hg0, hr, hr0], ha.1, ?_, ?_, ha.2, ?_, ?_⟩
  · rw [ha.1]; decide
  · rw [ha.1]; decide
  · rw [ha.2]; decide
  · rw [ha.2]; decide

/-! ## C18: the leaf page that `Get` decodes from -/

/-- A successful descent ends with the scan of the leaf that `leafOf` names. -/
theorem searchLoop_leafOf (k : List Byte) :
    ∀ (fuel m : Nat) (p : page) (t : btree) (n : Nat) (i : Int) (t1 : btree),
      searchLoop k fuel p t = some (.ret n i none, t1) →
      ∃ (m' : Nat) (q : page) (tq : btree),
        leafOf k fuel m p t = some (m', q, tq) ∧ q.Type_ = pageTypeLBTree ∧
        scanLeaf q k ((q.Entries + 1) / 2) 0 tq = (.ret n i none, t1)
  | 0, _, _, _, _, _, _, h => by simp [searchLoop] at h
  | fuel + 1, m, p, t, n, i, t1, h => by
    simp only [searchLoop] at h
    simp only [leafOf]
    split at h
    next hty =>
      rw [if_pos hty]
      rcases hcc : chooseChild p k t with ⟨sc, t2⟩
      rw [hcc] at h
      cases sc with
      | exit r =>
        simp only [Option.some.injEq, Prod.mk.injEq] at h
        rw [h.1, h.2] at hcc
        exact absurd hcc (chooseChild_exit p k t n i t1)
      | done e =>
        simp only at h ⊢
        rcases hg : getPage t2 e.Pgno with ⟨res, t3⟩
        rw [hg] at h
        cases res with
        | error err => simp at h
        | panic => simp at h
        | ok p' => exact searchLoop_leafOf k fuel e.Pgno p' t3 n i t1 h
    next hty =>
      rw [if_neg hty]
      split at h
      next hl =>
        rw [if_pos hl]
        simp only [Option.some.injEq] at h
        exact ⟨m, p, t, rfl, hl, h⟩
      next hl => simp at h

/-- The leaf that `leafOf` names sits in the cache slot of the number it was
fetched under, on a reader with a coherent cache. -/
theorem leafOf_slot (f : Img) (k : List Byte) :
    ∀ (fuel m : Nat) (p : page) (t : btree) (m' : Nat) (q : page) (tq : btree),
      Inv f t → t.pages[m]? = some (some p) → m ≤ f.LastPgno →
      leafOf k fuel m p t = some (m', q, tq) →
      Inv f tq ∧ tq.pages[m']? = some (some q) ∧ m' ≤ f.LastPgno
  | 0, _, _, _, _, _, _, _, _, _, h => by simp [leafOf] at h
  | fuel + 1, m, p, t, m', q, tq, hi, hs, hm, h => by
    simp only [leafOf] at h
    split at h
    next hty =>
      have hfr := chooseChild_frame p k t
      rcases hcc : chooseChild p k t with ⟨sc, t2⟩
      rw [hcc] at h hfr
      cases sc with
      | exit r => simp at h
      | done e =>
        simp only at h
        have hi2 : Inv f t2 := Inv_of_frame f t t2 hi hfr.1 hfr.2
        have hgi := (getPage_Inv f t2 e.Pgno hi2).1
        rcases hg : getPage t2 e.Pgno with ⟨res, t3⟩
        rw [hg] at h hgi
        cases res with
        | error err => simp at h
        | panic => simp at h
        | ok p' =>
          obtain ⟨hn, hslot⟩ := getPage_ok_slot t2 t3 e.Pgno p' hg
          have hL : t2.LastPgno = f.LastPgno := by
            rw [← hi2.1]
            rfl
          exact leafOf_slot f k fuel e.Pgno p' t3 m' q tq hgi hslot (by omega) h
    next hty =>
      split at h
      next hl =>
        simp only [Option.some.injEq, Prod.mk.injEq] at h
        obtain ⟨h1, h2, h3⟩ := h
        subst h1 h2 h3
        exact ⟨hi, hs, hm⟩
      next hl => simp at h

/-- A successful leaf scan returns the header page number of the page and an
index `i0 + 2 * j` inside the table, and leaves cache and file alone. -/
theorem scanLeaf_ret (q : page) (k : List Byte) :
    ∀ (rem i0 : Nat) (t : btree) (n : Nat) (i : Int) (t1 : btree),
      scanLeaf q k rem i0 t = (.ret n i none, t1) →
      n = q.Pgno ∧ t1.img = t.img ∧ t1.pages = t.pages ∧
      ∃ (j : Nat), i = ((i0 + 2 * j : Nat) : Int) ∧ i0 + 2 * j < q.entryOffsets.length
  | 0, _, _, _, _, _, h => by simp [scanLeaf] at h
  | rem + 1, i0, t, n, i, t1, h => by
    simp only [scanLeaf] at h
    cases hoff : q.entryOffsets[i0]? with
    | none => rw [hoff] at h; simp at h
    | some off =>
      rw [hoff] at h
      simp only at h
      have hf := readBKeyData_frame t q.Pgno off
      rcases hr : readBKeyData t q.Pgno off with ⟨res, t2⟩
      rw [hr] at h hf
      cases res with
      | error e => simp at h
      | panic => simp at h
      | ok e =>
        simp only at h
        split at h
        · simp only [Prod.mk.injEq, SearchRet.ret.injEq, and_true] at h
          obtain ⟨⟨h1, h2⟩, h3⟩ := h
          subst h3
          refine ⟨h1.symm, hf.1, hf.2.1, 0, by simp [← h2], ?_⟩
          have := (List.getElem?_eq_some_iff.mp hoff).1
          omega
        · obtain ⟨h1, h2, h3, j, h4, h5⟩ := scanLeaf_ret q k rem (i0 + 2) t2 n i t1 h
          exact ⟨h1, h2.trans hf.1, h3.trans hf.2.1, j + 1, by rw [h4]; congr 1; omega,
            by omega⟩

set_option maxRecDepth 100000 in
/-- C18, as stated, fails: in `mislabelled` both leaf pages have four entries.
`search "alpha"` scans the root page, fetched under number 4, whose table is
`[34, 42, 46, 53]`, and succeeds with `(5, 0)`, because the header of that
page carries page number 5. `Get` then fetches page 5, another page with the
table `[34, 53, 46, 42]`, and decodes the item at offset 53 of that table,
`2`, where index 1 of the scanned page's table is offset 42 with the item
`1`. -/
theorem get_decodes_other_leaf :
    (getPage (readerOn mislabelled true) 4).1 = .ok mislabelledRoot ∧
    (getPage (readerOn mislabelled true) 5).1 = .ok mislabelledOther ∧
    mislabelledRoot.Entries % 2 = 0 ∧ mislabelledOther.Entries % 2 = 0 ∧
    (search 1 (readerOn mislabelled true) (str "alpha")).map Prod.fst = some (.ret 5 0 none) ∧
    (searchLeaf 1 (readerOn mislabelled true) (str "alpha")).map (fun x => (x.1, x.2.1)) =
      some (4, mislabelledRoot) ∧
    mislabelledRoot.entryOffsets[1]? = some 42 ∧
    mislabelledOther.entryOffsets[1]? = some 53 ∧
    ((readBKeyData (readerOn mislabelled true) 5 42).1 =
      .ok { Len := 1, Type_ := 1, Data := str "1" }) ∧
    ((readBKeyData (readerOn mislabelled true) 5 53).1 =
      .ok { Len := 1, Type_ := 1, Data := str "2" }) ∧
    (Get 1 (readerOn mislabelled true) (str "alpha")).map Prod.fst = some (.ok (str "2")) := by
  decide

/-- C18, amended: on every reader state that a program can reach, when
`search` succeeds with `(n, i)`, the leaf page `q` that it scanned, fetched
under the root or chosen-child number `m`, has `n` as its header page number,
and `i` is an even index below the entry count of `q`, whose table has exactly
that many offsets. When the entry count of `q` is even, `i + 1` lies inside
the table of `q`; when moreover the header page number of `q` is the number
`m` it was fetched under, `Get` fetches `q` itself again and decodes the item
at the offset with index `i + 1` of its table. -/
theorem search_leaf_entry (t : btree) (fuel : Nat) (k : List Byte) (n : Nat) (i : Int)
    (t1 : btree) (hr : Reachable t) (hs : search fuel t k = some (.ret n i none, t1)) :
    ∃ (m : Nat) (q : page) (tq : btree) (j : Nat),
      searchLeaf fuel t k = some (m, q, tq) ∧ q.Type_ = pageTypeLBTree ∧
      n = q.Pgno ∧ i = ((2 * j : Nat) : Int) ∧ 2 * j < q.Entries ∧
      q.entryOffsets.length = q.Entries ∧
      (q.Entries % 2 = 0 → 2 * j + 1 < q.entryOffsets.length) ∧
      (q.Entries % 2 = 0 → q.Pgno = m →
        getPage t1 n = (.ok q, t1) ∧
        ∃ (off : Nat), q.entryOffsets[2 * j + 1]? = some off ∧
          Get fuel t k =
            match readBKeyData t1 n off with
            | (.ok e, t3) => some (.ok e.Data, t3)
            | (.error _, t3) => some (.panic, t3)
            | (.panic, t3) => some (.panic, t3)) := by
  have hi := Reachable_Inv t hr
  have hs0 := hs
  simp only [search] at hs
  have hgi := (getPage_Inv t.img t t.Root hi).1
  rcases hg : getPage t t.Root with ⟨res, t0⟩
  rw [hg] at hs hgi
  cases res with
  | error err => simp at hs
  | panic => simp at hs
  | ok p =>
    simp only at hs
    obtain ⟨hroot, hslot⟩ := getPage_ok_slot t t0 t.Root p hg
    obtain ⟨m, q, tq, hlo, hty, hscan⟩ := searchLoop_leafOf k fuel t.Root p t0 n i t1 hs
    obtain ⟨hiq, hsq, hm⟩ := leafOf_slot t.img k fuel t.Root p t0 m q tq hgi hslot hroot hlo
    obtain ⟨hn, himg, hpages, j, hij, hjlt⟩ := scanLeaf_ret q k _ 0 tq n i t1 hscan
    have hlen : q.entryOffsets.length = q.Entries :=
      (pageAt_layout _ _ q (hiq.2.2 m q hsq)).2.2.2.2.2.2.2.2.2.1
    have hij2 : i = ((2 * j : Nat) : Int) := by rw [hij]; congr 1; omega
    refine ⟨m, q, tq, j, by simp only [searchLeaf, hg]; exact hlo, hty, hn, hij2, by omega,
      hlen, fun he => by omega, fun he hq => ?_⟩
    have hL : t1.LastPgno = t.img.LastPgno := by
      have h1 : t1.img = t.img := himg.trans hiq.1
      rw [← h1]
      rfl
    have hgp : getPage t1 n = (.ok q, t1) :=
      getPage_hit t1 n q (by omega) (by rw [hpages, hn, hq]; exact hsq)
    have h1 : 2 * j + 1 < q.entryOffsets.length := by omega
    refine ⟨hgp, q.entryOffsets[2 * j + 1], List.getElem?_eq_getElem h1, ?_⟩
    simp only [Get, hs0]
    have hneg : ¬ (i < 0) := by omega
    rw [if_neg hneg, hgp]
    simp only
    have ht : (i + 1).toNat = 2 * j + 1 := by omega
    rw [ht]
    simp only [List.getElem?_eq_getElem h1]
    try rfl

set_option maxRecDepth 100000 in
theorem search_leaf_entry_witness :
    Reachable (readerOn treeFile true) ∧
    ∃ (t1 : btree), search 2 (readerOn treeFile true) (str "c") = some (.ret 6 2 none, t1) ∧
    ∃ (m : Nat) (q : page) (tq : btree) (j : Nat),
      searchLeaf 2 (readerOn treeFile true) (str "c") = some (m, q, tq) ∧
      q.Type_ = pageTypeLBTree ∧
      6 = q.Pgno ∧ (2 : Int) = ((2 * j : Nat) : Int) ∧ 2 * j < q.Entries ∧
      q.entryOffsets.length = q.Entries ∧
      (q.Entries % 2 = 0 → 2 * j + 1 < q.entryOffsets.length) ∧
      (q.Entries % 2 = 0 → q.Pgno = m →
        getPage t1 6 = (.ok q, t1) ∧
        ∃ (off : Nat), q.entryOffsets[2 * j + 1]? = some off ∧
          Get 2 (readerOn treeFile true) (str "c") =
            match readBKeyData t1 6 off with
            | (.ok e, t3) => some (.ok e.Data, t3)
            | (.error _, t3) => some (.panic, t3)
            | (.panic, t3) => some (.panic, t3)) := by
  have hreach : Reachable (readerOn treeFile true) :=
    Reachable.opened { s := treeFile, i := 0, zeroReadEOF := true } _
      (readerOn_opened treeFile true 0 (by decide) (by decide))
  have hs : (search 2 (readerOn treeFile true) (str "c")).map Prod.fst =
      some (.ret 6 2 none) := by
    decide
  rcases hg : search 2 (readerOn treeFile true) (str "c") with _ | ⟨res, t1⟩
  · rw [hg] at hs; simp at hs
  · rw [hg] at hs
    simp only [Option.map_some', Option.some.injEq] at hs
    subst hs
    exact ⟨hreach, t1, rfl, search_leaf_entry (readerOn treeFile true) 2 (str "c") 6 2 t1 hreach hg⟩

/-! ## C19: the indices into the entry-offset table -/

/-- A page that `getPage` returns on a reader with a coherent cache has an
entry-offset table of exactly `Entries` offsets. -/
theorem getPage_table_length (f : Img) (t t' : btree) (n : Nat) (p : page) (hi : Inv f t)
    (h : getPage t n = (.ok p, t')) : p.entryOffsets.length = p.Entries := by
  have hinv := (getPage_Inv f t n hi).1
  obtain ⟨_, hslot⟩ := getPage_ok_slot t t' n p h
  rw [h] at hinv
  exact (pageAt_layout _ _ p (hinv.2.2 n p hslot)).2.2.2.2.2.2.2.2.2.1

/-- The leaf loop does not panic when the indices `i, i + 2, ...` of its
iterations lie inside the table. -/
theorem scanLeaf_no_panic (p : page) (k : List Byte) :
    ∀ (rem i : Nat) (t : btree), i + 2 * rem ≤ p.entryOffsets.length + 1 →
      (scanLeaf p k rem i t).1 ≠ .panic
  | 0, _, _, _ => by simp [scanLeaf]
  | rem + 1, i, t, h => by
    simp only [scanLeaf]
    have hi : i < p.entryOffsets.length := by omega
    rw [List.getElem?_eq_getElem hi]
    simp only
    have hf := readBKeyData_frame t p.Pgno p.entryOffsets[i]
    rcases hr : readBKeyData t p.Pgno p.entryOffsets[i] with ⟨res, t1⟩
    rw [hr] at hf
    cases res with
    | error e => simp
    | panic => exact absurd rfl hf.2.2
    | ok e =>
      simp only
      split
      · simp
      · exact scanLeaf_no_panic p k rem (i + 2) t1 (by omega)

/-- The internal loop does not panic when the indices `i, i + 1, ...` of its
iterations lie inside the table. -/
theorem scanInternal_no_panic (p : page) (k : List Byte) :
    ∀ (rem i : Nat) (e : bInternal) (t : btree), i + rem ≤ p.entryOffsets.length →
      (scanInternal p k rem i e t).1 ≠ .exit .panic
  | 0, _, _, _, _ => by simp [scanInternal]
  | rem + 1, i, e, t, h => by
    simp only [scanInternal]
    have hi : i < p.entryOffsets.length := by omega
    rw [List.getElem?_eq_getElem hi]
    simp only
    have hf := readBInternal_frame t p.Pgno p.entryOffsets[i]
    rcases hr : readBInternal t p.Pgno p.entryOffsets[i] with ⟨res, t1⟩
    rw [hr] at hf
    cases res with
    | error e => simp
    | panic => exact absurd rfl hf.2.2
    | ok next =>
      simp only
      split
      · simp
      · exact scanInternal_no_panic p k rem (i + 1) next t1 (by omega)

/-- On a page whose table has `Entries` offsets, no index of the leaf loop is
out of range, and no index of the internal-page case is out of range when the
page has at least one entry. -/
theorem scan_in_range (p : page) (k : List Byte) (t : btree)
    (hlen : p.entryOffsets.length = p.Entries) :
    (scanLeaf p k ((p.Entries + 1) / 2) 0 t).1 ≠ .panic ∧
    (1 ≤ p.Entries → (chooseChild p k t).1 ≠ .exit .panic) := by
  refine ⟨scanLeaf_no_panic p k _ 0 t (by omega), fun h1 => ?_⟩
  simp only [chooseChild]
  have h0 : 0 < p.entryOffsets.length := by omega
  rw [List.getElem?_eq_getElem h0]
  simp only
  have hf := readBInternal_frame t p.Pgno p.entryOffsets[0]
  rcases hr : readBInternal t p.Pgno p.entryOffsets[0] with ⟨res, t1⟩
  rw [hr] at hf
  cases res with
  | error e => simp
  | panic => exact absurd rfl hf.2.2
  | ok e => exact scanInternal_no_panic p k _ 1 e t1 (by omega)

set_option maxRecDepth 100000 in
/-- C19 (code defect): the internal-page case of `search` takes
`p.entryOffsets[0]` without a look at `p.Entries`, where both loops compare
their index with `p.Entries` first. On a file whose root page 4 is an internal
page with entry count 0, `getPage` decodes an empty entry-offset table, index
0 is not below its length 0, and `search` panics for every key. -/
theorem search_index_zero_out_of_range :
    (readerOn emptyInternal true).Root = 4 ∧
    (getPage (readerOn emptyInternal true) 4).1 = .ok emptyRoot ∧
    emptyRoot.Type_ = pageTypeIBTree ∧ emptyRoot.Entries = 0 ∧
    emptyRoot.entryOffsets.length = 0 ∧ emptyRoot.entryOffsets[0]? = none ∧
    ∀ (k : List Byte) (fuel : Nat),
      (search (fuel + 1) (readerOn emptyInternal true) k).map Prod.fst = some .panic := by
  have hR : (readerOn emptyInternal true).Root = 4 := by decide
  have h1 : (getPage (readerOn emptyInternal true) 4).1 = .ok emptyRoot := by decide
  have hg : getPage (readerOn emptyInternal true) 4 =
      (.ok emptyRoot, (getPage (readerOn emptyInternal true) 4).2) := Prod.ext h1 rfl
  refine ⟨hR, h1, rfl, rfl, rfl, rfl, fun k fuel => ?_⟩
  simp only [search, hR]
  rw [hg]
  simp [searchLoop, chooseChild, emptyRoot]

/-! ## C20: the length of the page cache -/

/-- The cache that `getPage` allocates on first use has length
`(LastPgno + 1) % 2 ^ 32`. -/
theorem allocPages_length (t : btree) (h : t.pages = []) :
    (allocPages t).pages.length = (t.LastPgno + 1) % 2 ^ 32 := by
  simp [allocPages, h]

/-- Below the largest 32-bit value of `LastPgno` the allocated cache has length
`LastPgno + 1` and every page number up to `LastPgno` is inside it. -/
theorem allocPages_in_bounds (t : btree) (n : Nat) (h : t.pages = [])
    (hL : t.LastPgno + 1 < 2 ^ 32) (hn : n ≤ t.LastPgno) :
    (allocPages t).pages.length = t.LastPgno + 1 ∧ (allocPages t).pages[n]? = some none := by
  have hl := allocPages_length t h
  rw [Nat.mod_eq_of_lt hL] at hl
  refine ⟨hl, ?_⟩
  simp only [allocPages, h, List.length_nil, if_true, Nat.mod_eq_of_lt hL]
  rw [List.getElem?_replicate, if_pos (by omega)]

set_option maxRecDepth 100000 in
/-- C20 (code defect): on a file whose metadata declares `LastPgno = 2 ^ 32 - 1`
the sum `LastPgno + 1` wraps to 0, so the cache that `getPage` allocates on
first use is empty instead of `2 ^ 32` slots long, and the lookup at every
page number, which passes the range check `n > LastPgno`, is out of bounds:
`getPage` panics at page 0 and at the root page 4, and so do `search`, `Get`
and `HasKey`. -/
theorem getPage_cache_wraps :
    (readerOn lastPgnoMax true).LastPgno = 4294967295 ∧
    (readerOn lastPgnoMax true).pages = [] ∧
    (allocPages (readerOn lastPgnoMax true)).pages.length = 0 ∧
    (allocPages (readerOn lastPgnoMax true)).pages.length ≠
      (readerOn lastPgnoMax true).LastPgno + 1 ∧
    (getPage (readerOn lastPgnoMax true) 0).1 = .panic ∧
    (getPage (readerOn lastPgnoMax true) 4).1 = .panic ∧
    (search 1 (readerOn lastPgnoMax true) (str "a")).map Prod.fst = some .panic ∧
    (Get 1 (readerOn lastPgnoMax true) (str "a")).map Prod.fst = some .panic := by
  decide

end Bdb
